import Mathlib

/-!
Watcher hub of the etcd store (`store/watcher_hub.go`).

A shallow embedding of the subscription registry.  Go pointers are made
explicit: the hub state carries the heap of `*list.List` objects and the heap
of `*Watcher` objects, and the registry maps a path to a list pointer.
Strings are compared and cut at the character `/` only, so they are handled
as lists of characters (`String.data`).
-/

namespace Store

/-! ## Go library functions used by the hub -/

/-- Go `strings.Split(s, "/")` on the characters of `s`: the pieces between
consecutive slashes, empty pieces included. -/
def splitSlash : List Char → List (List Char)
  | [] => [[]]
  | c :: cs =>
    if c = '/' then [] :: splitSlash cs
    else
      match splitSlash cs with
      | [] => [[c]]
      | s :: ss => (c :: s) :: ss

/-- The inner loop of the `..` case of Go `path.Clean`:
`for out.w > dotdot && out.index(out.w) != '/' { out.w-- }`.  The buffer is
kept reversed, so `out.w` is its length; `last` is the byte at index `out.w`,
the one dropped last. -/
def cleanBacktrack (dotdot : Nat) : Char → List Char → List Char
  | _, [] => []
  | last, c :: out =>
    if dotdot < (c :: out).length ∧ last ≠ '/' then cleanBacktrack dotdot c out else c :: out

/-- The main loop of Go `path.Clean`.  `out` is the lazy buffer, reversed;
`inElem` is true while the copy loop of a real path element is running, that
is, the previous byte was copied and no slash has been read since. -/
def cleanLoop (rooted : Bool) : List Char → List Char → Nat → Bool → List Char
  | [], out, _, _ => out
  | c :: rest, out, dotdot, inElem =>
    if inElem then
      -- copy element: `for ; r < n && path[r] != '/'; r++`
      if c = '/' then cleanLoop rooted rest out dotdot false
      else cleanLoop rooted rest (c :: out) dotdot true
    else if c = '/' then
      -- empty path element
      cleanLoop rooted rest out dotdot false
    else if c = '.' ∧ (rest = [] ∨ rest.head? = some '/') then
      -- . element
      cleanLoop rooted rest out dotdot false
    else if c = '.' ∧ rest.head? = some '.' ∧ (rest.tail = [] ∨ rest.tail.head? = some '/') then
      -- .. element: remove to last /
      match rest with
      | [] => out
      | _ :: rest2 =>
        if dotdot < out.length then
          -- can backtrack: `out.w--`, then the inner loop
          match out with
          | [] => cleanLoop rooted rest2 out dotdot false
          | last :: out0 => cleanLoop rooted rest2 (cleanBacktrack dotdot last out0) dotdot false
        else if !rooted then
          let out1 := if 0 < out.length then '/' :: out else out
          let out2 := '.' :: '.' :: out1
          cleanLoop rooted rest2 out2 out2.length false
        else cleanLoop rooted rest2 out dotdot false
    else
      -- real path element: add slash if needed, then copy
      let out1 :=
        if (rooted ∧ out.length ≠ 1) ∨ (¬ rooted ∧ out.length ≠ 0) then '/' :: out else out
      cleanLoop rooted rest (c :: out1) dotdot true

/-- Go `path.Clean`. -/
def pathClean (path : List Char) : List Char :=
  match path with
  | [] => ['.']
  | c :: rest =>
    let rooted := decide (c = '/')
    let out :=
      if rooted then cleanLoop true rest ['/'] 1 false
      else cleanLoop false (c :: rest) [] 0 false
    if out.length = 0 then ['.'] else out.reverse

/-- Go `path.Join(a, b)` for two elements: empty elements are ignored, the
rest is joined with slashes and cleaned. -/
def pathJoin (a b : List Char) : List Char :=
  if a ≠ [] then pathClean (a ++ '/' :: b)
  else if b ≠ [] then pathClean b
  else []

/-- `path.Join` on strings. -/
def joinPath (a b : String) : String := ⟨pathJoin a.data b.data⟩

/-- `strings.Split(key, "/")` on strings. -/
def splitPath (key : String) : List String := (splitSlash key.data).map String.mk

/-! ## Events and the event history -/

/-- Modelled from the spec: the action kinds of an `Event` (spec section 3);
the event model is not among the source files. -/
inductive Action
  | Create | Set | Delete | Expire | CompareAndSwap | CompareAndDelete | Update
deriving DecidableEq, Repr

/-- Modelled from the spec: an `Event` (spec sections 3 and 4.1), the record
of one mutation.  `Key` is `e.Node.Key`; indices are `uint64` values, only
ever compared. -/
structure Event where
  Action : Action
  Key : String
  ModifiedIndex : Nat
  CreatedIndex : Nat
deriving DecidableEq, Repr

/-- Modelled from the spec: `Index()` is the modified index (spec 4.1). -/
def Event.Index (e : Event) : Nat := e.ModifiedIndex

/-- Modelled from the spec: the constructor used by the tests,
`newEvent(action, key, modifiedIndex, createdIndex)`. -/
def newEvent (action : Action) (key : String) (modifiedIndex createdIndex : Nat) : Event :=
  { Action := action, Key := key, ModifiedIndex := modifiedIndex, CreatedIndex := createdIndex }

/-- Modelled from the spec: the error of `scan`, the "index too old"
condition of spec 4.2 and 7; the error package is not among the source
files. -/
inductive etcdErr
  | indexTooOld
deriving DecidableEq, Repr

deriving instance DecidableEq for Except

/-- Modelled from the spec: the circular storage of the history (spec 3):
`Capacity` slots, `Front` the oldest slot, `Size` the number occupied.  The
field names are those read by `event_test.go`. -/
structure eventQueue where
  Events : List (Option Event)
  Size : Nat
  Front : Nat
  Capacity : Nat
deriving DecidableEq, Repr

/-- Modelled from the spec: `EventHistory` (spec 3 and 4.2).  `Evicted`
records whether an append has already overwritten an entry, which the error
rule of `scan` refers to. -/
structure EventHistory where
  Queue : eventQueue
  Evicted : Bool
deriving DecidableEq, Repr

/-- Modelled from the spec: `newEventHistory(capacity)`, an empty buffer of
`capacity` slots. -/
def newEventHistory (capacity : Nat) : EventHistory :=
  { Queue := { Events := List.replicate capacity none, Size := 0, Front := 0, Capacity := capacity },
    Evicted := false }

/-- Modelled from the spec: `addEvent` (spec 4.2): "If the buffer is full, the
oldest entry is overwritten and `front` advances by one slot (mod capacity);
otherwise `size` increments."  It returns the stored event, here `e` itself. -/
def EventHistory.addEvent (eh : EventHistory) (e : Event) : EventHistory × Event :=
  let q := eh.Queue
  if q.Size = q.Capacity then
    ({ Queue := { q with Events := q.Events.set q.Front (some e),
                         Front := (q.Front + 1) % q.Capacity },
       Evicted := true }, e)
  else
    ({ eh with Queue := { q with Events := q.Events.set ((q.Front + q.Size) % q.Capacity) (some e),
                                 Size := q.Size + 1 } }, e)

/-- Modelled from the spec: the resident events, read from `Front` in
circular order, oldest first. -/
def EventHistory.resident (eh : EventHistory) : List Event :=
  (List.range eh.Queue.Size).filterMap fun n =>
    (eh.Queue.Events.getD ((eh.Queue.Front + n) % eh.Queue.Capacity) none)

/-- Modelled from the spec: the path-match rule of `scan` (spec 4.2): equal
keys, or, when `recursive`, a key that starts with `key + "/"`. -/
def keyMatch (key : String) (recursive : Bool) (e : Event) : Bool :=
  decide (e.Key = key) || (recursive && (key.data ++ ['/']).isPrefixOf e.Key.data)

/-- Modelled from the spec: `scan(key, recursive, sinceIndex)` (spec 4.2):
every resident event with `index >= sinceIndex` that matches the path rule,
oldest first; the "index too old" error when `sinceIndex` predates the oldest
resident event and the buffer has already evicted an entry.  The empty list
stands for Go's `nil` result. -/
def EventHistory.scan (eh : EventHistory) (key : String) (recursive : Bool) (sinceIndex : Nat) :
    Except etcdErr (List Event) :=
  match eh.resident with
  | [] => .ok []
  | oldest :: rest =>
    if eh.Evicted ∧ sinceIndex < oldest.Index then .error .indexTooOld
    else .ok ((oldest :: rest).filter fun e => decide (sinceIndex ≤ e.Index) && keyMatch key recursive e)

/-- Modelled from the spec: `clone()` of the history, a deep copy; with
values instead of pointers that is the history itself. -/
def EventHistory.clone (eh : EventHistory) : EventHistory := eh

/-! ## Watchers -/

/-- What a watcher's channel (`chan interface{}`) can carry: one event, sent
by `notify`, or a batch of events, sent by `watch`. -/
inductive Message
  | event (e : Event)
  | events (es : List Event)
deriving DecidableEq, Repr

/-- A `Watcher` object.  `EventChan` is the buffered channel of capacity 1:
`none` when empty, `some m` when its slot holds `m`.  `remove` is the closure
installed by `watch`: `none` while the field is nil, otherwise the captured
`key` and list pointer `l`; the captured `elem` is the list element holding
this watcher itself. -/
structure Watcher where
  EventChan : Option Message
  recursive : Bool
  stream : Bool
  sinceIndex : Nat
  removed : Bool
  remove : Option (String × Nat)
deriving DecidableEq, Repr

/-- Modelled from the spec: `Watcher.notify`, the `tryDeliver` of spec 4.3;
`watcher.go` is not among the source files.  The filter accepts an event at
the watched path itself, any event when the watcher is recursive, and a
deletion, provided its index is not before `sinceIndex`.  An accepted event
is sent without blocking: into the free slot, or dropped when the slot is
occupied.  The result tells "whether delivery succeeded". -/
def Watcher.notify (w : Watcher) (e : Event) (originalPath deleted : Bool) : Watcher × Bool :=
  if (w.recursive || originalPath || deleted) && decide (w.sinceIndex ≤ e.Index) then
    match w.EventChan with
    | none => ({ w with EventChan := some (.event e) }, true)
    | some _ => (w, false)
  else (w, false)

/-! ## The hub -/

/-- Lookup `m[k]` in a Go map kept as an association list. -/
def mapGet : List (String × Nat) → String → Option Nat
  | [], _ => none
  | (k0, v) :: m, k => if k0 = k then some v else mapGet m k

/-- The map after `delete(m, k)`. -/
def mapDelete (m : List (String × Nat)) (k : String) : List (String × Nat) :=
  m.filter fun kv => decide (kv.1 ≠ k)

/-- The map after `m[k] = v`. -/
def mapSet (m : List (String × Nat)) (k : String) (v : Nat) : List (String × Nat) :=
  (k, v) :: mapDelete m k

/-- The `watcherHub` together with the objects it points to.  `watchers` is
the map from a watched path to a list pointer, `none` for a nil map (the
value the field has when a struct literal leaves it out); `lists` is the heap
of `*list.List` objects, each the sequence of its elements front to back, an
element being named by the watcher it holds; `heap` is the heap of `*Watcher`
objects.  A pointer is an index into its heap.  `count` is an `int64` that
changes by one at a time. -/
structure watcherHub where
  watchers : Option (List (String × Nat))
  count : Int
  EventHistory : EventHistory
  lists : List (List Nat)
  heap : List Watcher
deriving DecidableEq, Repr

/-- `newWatchHub(capacity)`. -/
def newWatchHub (capacity : Nat) : watcherHub :=
  { watchers := some [], count := 0, EventHistory := newEventHistory capacity,
    lists := [], heap := [] }

/-- `wh.watchers[path]`; reading a nil map finds nothing. -/
def watcherHub.lookup (wh : watcherHub) (path : String) : Option Nat :=
  match wh.watchers with
  | none => none
  | some m => mapGet m path

/-- The elements of the list object `l`, front to back. -/
def watcherHub.elems (wh : watcherHub) (l : Nat) : List Nat := wh.lists.getD l []

/-- `delete(wh.watchers, path)`; on a nil map it does nothing. -/
def watcherHub.deletePath (wh : watcherHub) (path : String) : watcherHub :=
  { wh with watchers := wh.watchers.map fun m => mapDelete m path }

/-- `l.Remove(elem)` followed by `atomic.AddInt64(&wh.count, -1)`, where
`elem` is the element of watcher `w`: the element leaves `l` if it is in it. -/
def watcherHub.unlink (wh : watcherHub) (l w : Nat) : watcherHub :=
  { wh with lists := wh.lists.set l ((wh.elems l).erase w), count := wh.count - 1 }

/-- What `watch` gives back: `(w, nil)` with the pointer to the new watcher,
`(nil, err)`, or a run-time panic (assignment to an entry of a nil map). -/
inductive WatchResult
  | ok (w : Nat)
  | err (e : etcdErr)
  | panics
deriving DecidableEq, Repr

/-- `watcherHub.watch`. -/
def watcherHub.watch (wh : watcherHub) (key : String) (recursive stream : Bool) (index : Nat) :
    watcherHub × WatchResult :=
  match wh.EventHistory.scan key recursive index with
  | .error err => (wh, .err err)
  | .ok events =>
    let w : Watcher :=
      { EventChan := none, recursive := recursive, stream := stream, sinceIndex := index,
        removed := false, remove := none }
    let p := wh.heap.length
    if events ≠ [] then
      ({ wh with heap := wh.heap ++ [{ w with EventChan := some (.events events) }] }, .ok p)
    else
      match wh.lookup key with
      | some l =>
        -- add the new watcher to the back of the list
        ({ wh with lists := wh.lists.set l (wh.elems l ++ [p]),
                   heap := wh.heap ++ [{ w with remove := some (key, l) }],
                   count := wh.count + 1 }, .ok p)
      | none =>
        -- create a new list and add the new watcher
        match wh.watchers with
        | none => (wh, .panics)
        | some m =>
          let l := wh.lists.length
          ({ wh with watchers := some (mapSet m key l),
                     lists := wh.lists ++ [[p]],
                     heap := wh.heap ++ [{ w with remove := some (key, l) }],
                     count := wh.count + 1 }, .ok p)

/-- The closure `w.remove` of the watcher at pointer `w`, the detach
function.  `none` when there is no such closure to call (nil function). -/
def watcherHub.remove (wh : watcherHub) (w : Nat) : Option watcherHub :=
  match wh.heap[w]? with
  | none => none
  | some obj =>
    match obj.remove with
    | none => none
    | some (key, l) =>
      if obj.removed then some wh
      else
        let wh1 := { wh with heap := wh.heap.set w { obj with removed := true } }
        let wh2 := wh1.unlink l w
        if (wh2.elems l).length = 0 then some (wh2.deletePath key) else some wh2

/-- The loop of `notifyWatchers` over the elements of list `l` that are still
to be visited (`curr` and the `next` chain saved before each removal). -/
def watcherHub.notifyList (e : Event) (path : String) (deleted : Bool) (l : Nat) :
    List Nat → watcherHub → watcherHub
  | [], wh => wh
  | curr :: next, wh =>
    match wh.heap[curr]? with
    | none => watcherHub.notifyList e path deleted l next wh
    | some w =>
      let r := w.notify e (decide (e.Key = path)) deleted
      let wh1 := { wh with heap := wh.heap.set curr r.1 }
      let wh2 := if r.2 && !w.stream then wh1.unlink l curr else wh1
      watcherHub.notifyList e path deleted l next wh2

/-- `watcherHub.notifyWatchers`. -/
def watcherHub.notifyWatchers (wh : watcherHub) (e : Event) (path : String) (deleted : Bool) :
    watcherHub :=
  match wh.lookup path with
  | none => wh
  | some l =>
    let wh1 := watcherHub.notifyList e path deleted l (wh.elems l) wh
    if (wh1.elems l).length = 0 then wh1.deletePath path else wh1

/-- The loop of `notify` over the segments of the key. -/
def watcherHub.notifyWalk (e : Event) : String → List String → watcherHub → watcherHub
  | _, [], wh => wh
  | currPath, segment :: segments, wh =>
    watcherHub.notifyWalk e (joinPath currPath segment) segments
      (wh.notifyWatchers e (joinPath currPath segment) false)

/-- `watcherHub.notify`. -/
def watcherHub.notify (wh : watcherHub) (e : Event) : watcherHub :=
  let r := wh.EventHistory.addEvent e
  watcherHub.notifyWalk r.2 "/" (splitPath r.2.Key) { wh with EventHistory := r.1 }

/-- `watcherHub.clone`: a hub with the cloned history and every other field
at its zero value, the nil map included. -/
def watcherHub.clone (wh : watcherHub) : watcherHub :=
  { watchers := none, count := 0, EventHistory := wh.EventHistory.clone, lists := [], heap := [] }

/-- The subscriber's receive `<-w.EventChan`: the message in the slot, if
any, is taken out. -/
def watcherHub.receive (wh : watcherHub) (w : Nat) : watcherHub :=
  match wh.heap[w]? with
  | none => wh
  | some obj => { wh with heap := wh.heap.set w { obj with EventChan := none } }

/-- The channel of the watcher at pointer `w`. -/
def watcherHub.chan (wh : watcherHub) (w : Nat) : Option Message :=
  match wh.heap[w]? with
  | none => none
  | some obj => obj.EventChan

/-! ## Vocabulary of the statements -/

/-- The characters of `/s1/s2/.../sn`, nothing for no segment. -/
def tailChars : List (List Char) → List Char
  | [] => []
  | s :: segs => '/' :: (s ++ tailChars segs)

/-- The characters of the absolute path `/s1/s2/.../sn`; the root `/` for no
segment. -/
def absChars (segs : List (List Char)) : List Char :=
  match segs with
  | [] => ['/']
  | _ :: _ => tailChars segs

/-- The absolute path `/s1/s2/.../sn` as a string. -/
def absPath (segs : List (List Char)) : String := ⟨absChars segs⟩

/-- A segment of a clean absolute path: not empty, without a slash, and
neither `.` nor `..`. -/
def goodSegment (s : List Char) : Prop :=
  s ≠ [] ∧ '/' ∉ s ∧ s ≠ ['.'] ∧ s ≠ ['.', '.']

instance (s : List Char) : Decidable (goodSegment s) := by
  unfold goodSegment; infer_instance

/-- The values `currPath` takes in the loop of `notify`, in order: the paths
at which `notifyWatchers` is called. -/
def walkPaths : String → List String → List String
  | _, [] => []
  | currPath, segment :: segments =>
    joinPath currPath segment :: walkPaths (joinPath currPath segment) segments

/-- A call made on the hub from outside: `watch`, `notify`, the detach
closure of a watcher, or a subscriber's receive on a watcher's channel. -/
inductive Op
  | watch (key : String) (recursive stream : Bool) (index : Nat)
  | notify (e : Event)
  | detach (w : Nat)
  | receive (w : Nat)
deriving DecidableEq, Repr

/-- Whether the call is a detach. -/
def Op.isDetach : Op → Bool
  | .detach _ => true
  | _ => false

/-- The hub after one call.  A detach that has no closure to call leaves the
hub as it is. -/
def watcherHub.apply (wh : watcherHub) : Op → watcherHub
  | .watch key recursive stream index => (wh.watch key recursive stream index).1
  | .notify e => wh.notify e
  | .detach w => (wh.remove w).getD wh
  | .receive w => wh.receive w

/-- The hub after a finite sequence of calls. -/
def watcherHub.run (wh : watcherHub) (ops : List Op) : watcherHub :=
  ops.foldl watcherHub.apply wh

/-- The hub states reachable from `newWatchHub` by a finite sequence of
calls. -/
def Reachable (wh : watcherHub) : Prop :=
  ∃ capacity ops, (newWatchHub capacity).run ops = wh

/-- Watcher `w` is in the list registered at `key`. -/
def watcherHub.registered (wh : watcherHub) (w : Nat) (key : String) : Prop :=
  ∃ l, wh.lookup key = some l ∧ w ∈ wh.elems l

/-- Watcher `w` is in some list object, registered or not. -/
def watcherHub.listed (wh : watcherHub) (w : Nat) : Prop :=
  ∃ l, w ∈ wh.elems l

/-- The closure captured by watcher `w`, if it has one. -/
def watcherHub.closure (wh : watcherHub) (w : Nat) : Option (String × Nat) :=
  match wh.heap[w]? with
  | none => none
  | some obj => obj.remove

/-- The total number of watchers held in the lists of the registry. -/
def watcherHub.registrySize (wh : watcherHub) : Nat :=
  match wh.watchers with
  | none => 0
  | some m => (m.map fun kv => (wh.elems kv.2).length).sum

/-- The shape of the hub that every call keeps: the map is allocated, a
registered list is not empty and holds watchers whose closure captured that
path and that list, every watcher in a list captured that list, and no list
holds a watcher twice. -/
structure Inv (wh : watcherHub) : Prop where
  alloc : wh.watchers ≠ none
  mapped : ∀ k l, wh.lookup k = some l →
    wh.elems l ≠ [] ∧ ∀ w ∈ wh.elems l, wh.closure w = some (k, l)
  owned : ∀ l w, w ∈ wh.elems l → ∃ k, wh.closure w = some (k, l)
  nodup : ∀ l, (wh.elems l).Nodup

/-- The fields of a watcher that are set once, when `watch` creates it. -/
def Watcher.fixed (w : Watcher) : Bool × Bool × Nat × Option (String × Nat) :=
  (w.recursive, w.stream, w.sinceIndex, w.remove)

/-- From `s` to `t` nothing was added: the same watcher objects with the same
fixed fields, the same list objects with some elements possibly removed, and
a registry with some paths possibly deleted. -/
structure Shrinks (s t : watcherHub) : Prop where
  heapLen : t.heap.length = s.heap.length
  fixed : ∀ w : Nat, (t.heap[w]?).map Watcher.fixed = (s.heap[w]?).map Watcher.fixed
  listsLen : t.lists.length = s.lists.length
  sub : ∀ l, (t.elems l).Sublist (s.elems l)
  look : ∀ k l, t.lookup k = some l → s.lookup k = some l
  alloc : s.watchers ≠ none → t.watchers ≠ none

/-- The watchers registered at `path`, front to back; none when the path is
not in the registry. -/
def watcherHub.watchersAt (wh : watcherHub) (path : String) : List Nat :=
  match wh.lookup path with
  | none => []
  | some l => wh.elems l

/-- The `removed` flag of watcher `w`. -/
def watcherHub.removedFlag (wh : watcherHub) (w : Nat) : Bool :=
  match wh.heap[w]? with
  | none => false
  | some obj => obj.removed

/-- The non-empty pieces of `key` after its first slash: the segments
`s1, ..., sn` of a clean absolute path `/s1/.../sn`, none for the root. -/
def keySegments (key : String) : List (List Char) :=
  ((splitSlash key.data).drop 1).filter fun s => decide (s ≠ [])

/-- A clean absolute path: `/s1/.../sn` with `n >= 0` good segments. -/
def cleanKey (key : String) : Prop :=
  key = absPath (keySegments key) ∧ ∀ s ∈ keySegments key, goodSegment s

instance (key : String) : Decidable (cleanKey key) := by
  unfold cleanKey; infer_instance

/-- Event `e` matches the subscription of a watcher registered at `key` with
the given flags: its index is not before `sinceIndex`, and its key is `key`
itself or, for a recursive watcher, a path under `key`. -/
def subscribed (key : String) (recursive : Bool) (sinceIndex : Nat) (e : Event) : Bool :=
  decide (sinceIndex ≤ e.Index) &&
    (decide (e.Key = key) || (recursive && (keySegments key).isPrefixOf (keySegments e.Key)))

/-- The watcher object after the delivery attempt that `notifyWatchers` makes
at the watcher's own path `key`. -/
def Watcher.offered (obj : Watcher) (e : Event) (key : String) : Watcher :=
  (obj.notify e (decide (e.Key = key)) false).1

/-- Watcher `w` is a stream watcher created by `watch(key, recursive, true,
index)` and sits in the list `l` registered at `key`, in a hub of the
invariant shape. -/
structure StreamAt (t : watcherHub) (w : Nat) (key : String) (recursive : Bool)
    (index : Nat) (l : Nat) : Prop where
  inv : Inv t
  look : t.lookup key = some l
  mem : w ∈ t.elems l
  obj : ∃ obj, t.heap[w]? = some obj ∧ obj.fixed = (recursive, true, index, some (key, l))

/-- The buffer after "add slash if needed" in a rooted path. -/
def withSlash (out : List Char) : List Char :=
  if out.length ≠ 1 then '/' :: out else out

/-- The history after the events of `es` have been appended in order. -/
def EventHistory.addEvents (eh : EventHistory) (es : List Event) : EventHistory :=
  es.foldl (fun h e => (h.addEvent e).1) eh

/-- The buffer `eh` of capacity `C` holds the sequence `es` of events appended
since it was created: event number `j` sits in slot `j % C`, the last
`min C es.length` of them are resident, and the buffer has evicted an entry
exactly when more than `C` events were appended. -/
structure Holds (eh : EventHistory) (C : Nat) (es : List Event) : Prop where
  cap : eh.Queue.Capacity = C
  len : eh.Queue.Events.length = C
  size : eh.Queue.Size = min C es.length
  front : eh.Queue.Front = (es.length - C) % C
  evicted : eh.Evicted = decide (C < es.length)
  slot : ∀ j, es.length - C ≤ j → j < es.length →
    eh.Queue.Events.getD (j % C) none = es[j]?

/-- The seven events of `TestScanHistory`, in the order they are added. -/
def testScanEvents : List Event :=
  [newEvent .Create "/foo" 1 1, newEvent .Create "/foo/bar" 2 2,
   newEvent .Create "/foo/foo" 3 3, newEvent .Create "/foo/bar/bar" 4 4,
   newEvent .Create "/foo/foo/foo" 5 5, newEvent .Set "/foo" 6 6,
   newEvent .Set "/foo/foo" 7 7]

/-- The conversion in `WatchKeyHandler`, `event, _ := iEvent.(*store.Event)`:
the event when the message is a single `*Event`; `none` stands for the nil
pointer that the failed type assertion leaves in `event` when the message is
a batch `[]*Event`. -/
def eventOfMessage : Message → Option Event
  | .event e => some e
  | .events _ => none

/-- The loop of `notifyWatchers` again, with a record of the calls it makes:
the hub it leaves, and, for every element visited, the watcher and the value
of `e.Node.Key == path` handed to `w.notify`, in the order of the calls. -/
def watcherHub.notifyListLog (e : Event) (path : String) (deleted : Bool) (l : Nat) :
    List Nat → watcherHub → watcherHub × List (Nat × Bool)
  | [], wh => (wh, [])
  | curr :: next, wh =>
    match wh.heap[curr]? with
    | none => watcherHub.notifyListLog e path deleted l next wh
    | some w =>
      let originalPath := decide (e.Key = path)
      let r := w.notify e originalPath deleted
      let wh1 := { wh with heap := wh.heap.set curr r.1 }
      let wh2 := if r.2 && !w.stream then wh1.unlink l curr else wh1
      let rest := watcherHub.notifyListLog e path deleted l next wh2
      (rest.1, (curr, originalPath) :: rest.2)

/-- `notifyWatchers` with the record of its calls of `w.notify`. -/
def watcherHub.notifyWatchersLog (wh : watcherHub) (e : Event) (path : String)
    (deleted : Bool) : watcherHub × List (Nat × Bool) :=
  match wh.lookup path with
  | none => (wh, [])
  | some l =>
    let r := watcherHub.notifyListLog e path deleted l (wh.elems l) wh
    (if (r.1.elems l).length = 0 then r.1.deletePath path else r.1, r.2)

/-- The loop of `notify` with a record of its calls: for every call of
`notifyWatchers`, in order, the path at which the registry is examined and the
calls of `w.notify` made there. -/
def watcherHub.notifyWalkLog (e : Event) :
    String → List String → watcherHub → watcherHub × List (String × List (Nat × Bool))
  | _, [], wh => (wh, [])
  | currPath, segment :: segments, wh =>
    let r := wh.notifyWatchersLog e (joinPath currPath segment) false
    let rest := watcherHub.notifyWalkLog e (joinPath currPath segment) segments r.1
    (rest.1, (joinPath currPath segment, r.2) :: rest.2)

/-- `notify` with the record of its calls. -/
def watcherHub.notifyLog (wh : watcherHub) (e : Event) :
    watcherHub × List (String × List (Nat × Bool)) :=
  let r := wh.EventHistory.addEvent e
  watcherHub.notifyWalkLog r.2 "/" (splitPath r.2.Key) { wh with EventHistory := r.1 }

/-! ## Path lemmas -/

theorem splitSlash_ne_nil (cs : List Char) : splitSlash cs ≠ [] := by
  cases cs with
  | nil => simp [splitSlash]
  | cons c cs =>
    simp only [splitSlash]
    split
    · simp
    · split <;> simp

theorem splitSlash_append (s rest : List Char) (hs : '/' ∉ s) :
    splitSlash (s ++ rest) =
      (s ++ (splitSlash rest).headD []) :: (splitSlash rest).tail := by
  induction s with
  | nil =>
    have h := splitSlash_ne_nil rest
    cases hr : splitSlash rest with
    | nil => exact absurd hr h
    | cons a b => simp [hr]
  | cons c s ih =>
    have hc : c ≠ '/' := fun h => hs (by simp [h])
    have hs1 : '/' ∉ s := fun h => hs (by simp [h])
    have e : splitSlash (c :: (s ++ rest)) =
        (match splitSlash (s ++ rest) with
          | [] => [[c]]
          | s :: ss => (c :: s) :: ss) := by
      simp only [splitSlash, if_neg hc]
    rw [List.cons_append, e, ih hs1]
    rfl

theorem splitSlash_tailChars (s : List Char) (segs : List (List Char))
    (h : ∀ t ∈ s :: segs, '/' ∉ t) :
    splitSlash (s ++ tailChars segs) = s :: segs := by
  induction segs generalizing s with
  | nil =>
    have := splitSlash_append s [] (h s (by simp))
    simpa [tailChars, splitSlash] using this
  | cons t segs ih =>
    have ht := ih t (fun u hu => h u (by simp at hu ⊢; tauto))
    rw [splitSlash_append s _ (h s (by simp))]
    simp [tailChars, splitSlash, ht]

theorem splitPath_absPath (segs : List (List Char)) (hne : segs ≠ [])
    (h : ∀ t ∈ segs, '/' ∉ t) :
    splitPath (absPath segs) = "" :: segs.map String.mk := by
  cases segs with
  | nil => exact absurd rfl hne
  | cons s segs =>
    simp only [splitPath, absPath, absChars, tailChars, splitSlash, if_true,
      splitSlash_tailChars s segs h]
    rfl

theorem cleanLoop_cons (r : Bool) (c : Char) (rest out : List Char) (dd : Nat) (inElem : Bool) :
    cleanLoop r (c :: rest) out dd inElem =
    if inElem then
      if c = '/' then cleanLoop r rest out dd false
      else cleanLoop r rest (c :: out) dd true
    else if c = '/' then
      cleanLoop r rest out dd false
    else if c = '.' ∧ (rest = [] ∨ rest.head? = some '/') then
      cleanLoop r rest out dd false
    else if c = '.' ∧ rest.head? = some '.' ∧ (rest.tail = [] ∨ rest.tail.head? = some '/') then
      match rest with
      | [] => out
      | _ :: rest2 =>
        if dd < out.length then
          match out with
          | [] => cleanLoop r rest2 out dd false
          | last :: out0 => cleanLoop r rest2 (cleanBacktrack dd last out0) dd false
        else if !r then
          let out1 := if 0 < out.length then '/' :: out else out
          let out2 := '.' :: '.' :: out1
          cleanLoop r rest2 out2 out2.length false
        else cleanLoop r rest2 out dd false
    else
      let out1 :=
        if (r ∧ out.length ≠ 1) ∨ (¬ r ∧ out.length ≠ 0) then '/' :: out else out
      cleanLoop r rest (c :: out1) dd true := by
  rw [cleanLoop.eq_def]

theorem cleanLoop_copy (r : Bool) (s rest out : List Char) (dd : Nat) (hs : '/' ∉ s) :
    cleanLoop r (s ++ '/' :: rest) out dd true = cleanLoop r rest (s.reverse ++ out) dd false := by
  induction s generalizing out with
  | nil => simp [cleanLoop_cons]
  | cons c s ih =>
    have hc : c ≠ '/' := fun h => hs (by simp [h])
    have hs1 : '/' ∉ s := fun h => hs (by simp [h])
    simp [cleanLoop_cons, hc, ih (c :: out) hs1]

theorem cleanLoop_copy_end (r : Bool) (s out : List Char) (dd : Nat) (hs : '/' ∉ s) :
    cleanLoop r s out dd true = s.reverse ++ out := by
  induction s generalizing out with
  | nil => simp [cleanLoop]
  | cons c s ih =>
    have hc : c ≠ '/' := fun h => hs (by simp [h])
    have hs1 : '/' ∉ s := fun h => hs (by simp [h])
    simp [cleanLoop_cons, hc, ih (c :: out) hs1]

/-- A good segment is taken by the default case of `path.Clean`. -/
theorem cleanLoop_start (c : Char) (cs tail out : List Char) (hg : goodSegment (c :: cs))
    (ht : tail = [] ∨ tail.head? = some '/') :
    cleanLoop true (c :: (cs ++ tail)) out 1 false =
      cleanLoop true (cs ++ tail) (c :: withSlash out) 1 true := by
  obtain ⟨-, hsl, hdot, hdd⟩ := hg
  have hc : c ≠ '/' := fun h => hsl (by simp [h])
  have hcs : '/' ∉ cs := fun h => hsl (by simp [h])
  have h1 : ¬ (c = '.' ∧ ((cs ++ tail) = [] ∨ (cs ++ tail).head? = some '/')) := by
    rintro ⟨rfl, h⟩
    cases cs with
    | nil => exact hdot rfl
    | cons d ds =>
      have hd : d ≠ '/' := fun h => hcs (by simp [h])
      simp at h
      exact hd h
  have h2 : ¬ (c = '.' ∧ (cs ++ tail).head? = some '.' ∧
      ((cs ++ tail).tail = [] ∨ (cs ++ tail).tail.head? = some '/')) := by
    rintro ⟨rfl, hh, h⟩
    cases cs with
    | nil =>
      rcases ht with rfl | ht
      · simp at hh
      · simp [ht] at hh
    | cons d ds =>
      simp at hh
      subst hh
      cases ds with
      | nil => exact hdd rfl
      | cons x xs =>
        have hx : x ≠ '/' := fun h => hcs (by simp [h])
        simp at h
        exact hx h
  rw [cleanLoop_cons]
  simp only [Bool.false_eq_true, if_false, if_neg hc, if_neg h1, if_neg h2, withSlash]
  simp

theorem cleanLoop_segment (s rest out : List Char) (hg : goodSegment s) :
    cleanLoop true (s ++ '/' :: rest) out 1 false =
      cleanLoop true rest (s.reverse ++ withSlash out) 1 false := by
  cases s with
  | nil => exact absurd rfl hg.1
  | cons c cs =>
    have hcs : '/' ∉ cs := fun h => hg.2.1 (by simp [h])
    rw [List.cons_append, cleanLoop_start c cs ('/' :: rest) out hg (Or.inr rfl), cleanLoop_copy _ _ _ _ _ hcs]
    simp

theorem cleanLoop_segment_end (s out : List Char) (hg : goodSegment s) :
    cleanLoop true s out 1 false = s.reverse ++ withSlash out := by
  cases s with
  | nil => exact absurd rfl hg.1
  | cons c cs =>
    have hcs : '/' ∉ cs := fun h => hg.2.1 (by simp [h])
    have := cleanLoop_start c cs [] out hg (Or.inl rfl)
    rw [List.append_nil] at this
    rw [this, cleanLoop_copy_end _ _ _ _ hcs]
    simp

theorem tailChars_append (a b : List (List Char)) :
    tailChars (a ++ b) = tailChars a ++ tailChars b := by
  induction a with
  | nil => rfl
  | cons s a ih => simp [tailChars, ih]

theorem absChars_snoc (pre : List (List Char)) (s : List Char)
    (hpre : ∀ t ∈ pre, goodSegment t) :
    s.reverse ++ withSlash (absChars pre).reverse = (absChars (pre ++ [s])).reverse := by
  cases pre with
  | nil => simp [absChars, tailChars, withSlash]
  | cons t pre =>
    have ht : t ≠ [] := (hpre t (by simp)).1
    have hlen : (tailChars (t :: pre)).length ≠ 1 := by
      cases t with
      | nil => exact absurd rfl ht
      | cons c cs => simp [tailChars]
    have e : absChars (t :: pre ++ [s]) = tailChars (t :: pre) ++ ('/' :: s) := by
      have := tailChars_append (t :: pre) [s]
      simpa [absChars, tailChars] using this
    rw [e]
    simp [absChars, withSlash, hlen]

theorem cleanLoop_segments (gs : List (List Char)) (s : List Char) (pre : List (List Char))
    (hgs : ∀ t ∈ gs, goodSegment t) (hs : goodSegment s) (hpre : ∀ t ∈ pre, goodSegment t) :
    cleanLoop true (s ++ tailChars gs) (absChars pre).reverse 1 false =
      (absChars (pre ++ s :: gs)).reverse := by
  induction gs generalizing s pre with
  | nil =>
    rw [tailChars, List.append_nil, cleanLoop_segment_end s _ hs, absChars_snoc pre s hpre]
  | cons t gs ih =>
    rw [tailChars, cleanLoop_segment s _ _ hs, absChars_snoc pre s hpre,
      ih t (pre ++ [s]) (fun u hu => hgs u (by simp [hu])) (hgs t (by simp))
        (fun u hu => by
          rcases List.mem_append.1 hu with h | h
          · exact hpre u h
          · rw [List.mem_singleton.1 h]; exact hs)]
    simp

theorem absChars_ne_nil (segs : List (List Char)) : absChars segs ≠ [] := by
  cases segs with
  | nil => simp [absChars]
  | cons s segs => simp [absChars, tailChars]

theorem pathJoin_absChars (pre : List (List Char)) (s : List Char)
    (hpre : ∀ t ∈ pre, goodSegment t) (hs : goodSegment s) :
    pathJoin (absChars pre) s = absChars (pre ++ [s]) := by
  have hout : ∀ rest : List Char,
      cleanLoop true rest ['/'] 1 false = (absChars (pre ++ [s])).reverse →
      pathClean ('/' :: rest) = absChars (pre ++ [s]) := by
    intro rest h
    have hn : (absChars (pre ++ [s])).reverse.length ≠ 0 := by
      have := absChars_ne_nil (pre ++ [s])
      simpa using this
    simp only [pathClean, decide_True, if_true, h, if_neg hn, List.reverse_reverse]
  rw [pathJoin, if_pos (absChars_ne_nil pre)]
  cases pre with
  | nil =>
    have h := cleanLoop_segments [] s [] (by simp) hs (by simp)
    simp only [tailChars, List.append_nil, absChars, List.reverse_cons, List.reverse_nil,
      List.nil_append] at h
    have e : absChars [] ++ '/' :: s = '/' :: ('/' :: s) := rfl
    rw [e]
    apply hout
    rw [cleanLoop_cons]
    simpa [absChars, tailChars] using h
  | cons t pre =>
    have h := cleanLoop_segments (pre ++ [s]) t [] (fun u hu => by
        rcases List.mem_append.1 hu with h | h
        · exact hpre u (by simp [h])
        · rw [List.mem_singleton.1 h]; exact hs) (hpre t (by simp)) (by simp)
    have e : absChars (t :: pre) ++ '/' :: s = '/' :: (t ++ tailChars (pre ++ [s])) := by
      simp [absChars, tailChars, tailChars_append]
    rw [e]
    apply hout
    simpa [absChars] using h

theorem joinPath_absPath (pre : List (List Char)) (s : List Char)
    (hpre : ∀ t ∈ pre, goodSegment t) (hs : goodSegment s) :
    joinPath (absPath pre) ⟨s⟩ = absPath (pre ++ [s]) := by
  simp only [joinPath, absPath, pathJoin_absChars pre s hpre hs]

theorem joinPath_root_empty : joinPath "/" "" = "/" := by decide

theorem walkPaths_absPath (segs pre : List (List Char))
    (hsegs : ∀ t ∈ segs, goodSegment t) (hpre : ∀ t ∈ pre, goodSegment t) :
    walkPaths (absPath pre) (segs.map String.mk) =
      segs.inits.tail.map fun i => absPath (pre ++ i) := by
  induction segs generalizing pre with
  | nil => simp [walkPaths]
  | cons s segs ih =>
    have hs := hsegs s (by simp)
    have hpre1 : ∀ t ∈ pre ++ [s], goodSegment t := fun u hu => by
      rcases List.mem_append.1 hu with h | h
      · exact hpre u h
      · rw [List.mem_singleton.1 h]; exact hs
    have hi : segs.inits = [] :: segs.inits.tail := by
      cases segs <;> simp
    rw [List.map_cons, walkPaths, joinPath_absPath pre s hpre hs,
      ih (pre ++ [s]) (fun u hu => hsegs u (by simp [hu])) hpre1]
    rw [List.inits_cons, List.tail_cons]
    nth_rewrite 2 [hi]
    simp [Function.comp_def]

theorem notifyWalk_eq_foldl (e : Event) (segments : List String) (currPath : String)
    (wh : watcherHub) :
    watcherHub.notifyWalk e currPath segments wh =
      (walkPaths currPath segments).foldl (fun h p => h.notifyWatchers e p false) wh := by
  induction segments generalizing currPath wh with
  | nil => rfl
  | cons s segments ih => simp [watcherHub.notifyWalk, walkPaths, ih]

theorem addEvent_snd (eh : EventHistory) (e : Event) : (eh.addEvent e).2 = e := by
  unfold EventHistory.addEvent
  simp only []
  split <;> rfl

theorem notify_eq_foldl (wh : watcherHub) (e : Event) :
    wh.notify e = (walkPaths "/" (splitPath e.Key)).foldl
      (fun h p => h.notifyWatchers e p false)
      { wh with EventHistory := (wh.EventHistory.addEvent e).1 } := by
  simp only [watcherHub.notify, addEvent_snd, notifyWalk_eq_foldl]

theorem tailChars_length_pos (t : List (List Char)) (ht : t ≠ []) :
    0 < (tailChars t).length := by
  cases t with
  | nil => exact absurd rfl ht
  | cons s t => simp [tailChars]

theorem absChars_append_length (p t : List (List Char)) (ht : t ≠ [])
    (hg : ∀ u ∈ t, goodSegment u) :
    (absChars p).length < (absChars (p ++ t)).length := by
  cases p with
  | nil =>
    cases t with
    | nil => exact absurd rfl ht
    | cons u t =>
      have hu : u ≠ [] := (hg u (by simp)).1
      cases u with
      | nil => exact absurd rfl hu
      | cons c cs => simp [absChars, tailChars]
  | cons s p =>
    have h := tailChars_length_pos t ht
    have e : absChars (s :: p ++ t) = tailChars (s :: p) ++ tailChars t := by
      have := tailChars_append (s :: p) t
      simpa [absChars] using this
    rw [e]
    simp only [absChars, List.length_append]
    omega

/-! ## Maps and list objects -/

theorem getD_set (xs : List (List Nat)) (i j : Nat) (x : List Nat) :
    (xs.set i x).getD j [] = if i = j ∧ i < xs.length then x else xs.getD j [] := by
  simp only [List.getD_eq_getElem?_getD, List.getElem?_set]
  by_cases hij : i = j
  · subst hij
    by_cases hi : i < xs.length
    · rw [if_pos rfl, if_pos hi, if_pos ⟨rfl, hi⟩]; rfl
    · rw [if_pos rfl, if_neg hi, if_neg (fun h => hi h.2),
        List.getElem?_eq_none (Nat.le_of_not_lt hi)]
  · rw [if_neg hij, if_neg (fun h => hij h.1)]

theorem mapGet_mapDelete_self (m : List (String × Nat)) (k : String) :
    mapGet (mapDelete m k) k = none := by
  induction m with
  | nil => rfl
  | cons kv m ih =>
    obtain ⟨k0, v⟩ := kv
    by_cases h : k0 = k
    · simpa [mapDelete, h] using ih
    · have : mapDelete ((k0, v) :: m) k = (k0, v) :: mapDelete m k := by
        simp [mapDelete, h]
      rw [this, mapGet, if_neg h, ih]

theorem mapGet_mapDelete_ne (m : List (String × Nat)) (k k1 : String) (hk : k1 ≠ k) :
    mapGet (mapDelete m k) k1 = mapGet m k1 := by
  induction m with
  | nil => rfl
  | cons kv m ih =>
    obtain ⟨k0, v⟩ := kv
    by_cases h : k0 = k
    · have h1 : k0 ≠ k1 := fun e => hk (e ▸ h)
      have : mapDelete ((k0, v) :: m) k = mapDelete m k := by
        simp [mapDelete, h]
      rw [this, ih, mapGet, if_neg h1]
    · have : mapDelete ((k0, v) :: m) k = (k0, v) :: mapDelete m k := by
        simp [mapDelete, h]
      rw [this, mapGet, mapGet, ih]

theorem mapGet_mapSet (m : List (String × Nat)) (k k1 : String) (v : Nat) :
    mapGet (mapSet m k v) k1 = if k = k1 then some v else mapGet m k1 := by
  by_cases h : k = k1
  · simp [mapSet, mapGet, h]
  · rw [mapSet, mapGet, if_neg h, if_neg h, mapGet_mapDelete_ne m k k1 (Ne.symm h)]

theorem lookup_deletePath (wh : watcherHub) (k k1 : String) :
    (wh.deletePath k).lookup k1 = if k1 = k then none else wh.lookup k1 := by
  unfold watcherHub.deletePath watcherHub.lookup
  cases hm : wh.watchers with
  | none => simp
  | some m =>
    by_cases h : k1 = k
    · simp [h, mapGet_mapDelete_self]
    · simp [h, mapGet_mapDelete_ne m k k1 h]

theorem elems_deletePath (wh : watcherHub) (k : String) (l : Nat) :
    (wh.deletePath k).elems l = wh.elems l := rfl

theorem elems_unlink (wh : watcherHub) (l w l1 : Nat) :
    (wh.unlink l w).elems l1 = if l1 = l then (wh.elems l).erase w else wh.elems l1 := by
  unfold watcherHub.unlink watcherHub.elems
  simp only [getD_set]
  by_cases h : l = l1
  · subst h
    by_cases hl : l < wh.lists.length
    · simp [hl]
    · have : wh.lists.getD l [] = [] := by
        rw [List.getD_eq_getElem?_getD, List.getElem?_eq_none (by omega)]; rfl
      rw [if_neg (fun h => hl h.2), if_pos rfl, this]; rfl
  · simp [h, Ne.symm h]

theorem lookup_unlink (wh : watcherHub) (l w : Nat) (k : String) :
    (wh.unlink l w).lookup k = wh.lookup k := rfl

theorem closure_unlink (wh : watcherHub) (l w w1 : Nat) :
    (wh.unlink l w).closure w1 = wh.closure w1 := rfl

theorem closure_deletePath (wh : watcherHub) (k : String) (w1 : Nat) :
    (wh.deletePath k).closure w1 = wh.closure w1 := rfl

theorem closure_eq_fixed (wh : watcherHub) (w : Nat) :
    wh.closure w = ((wh.heap[w]?).map Watcher.fixed).bind fun f => f.2.2.2 := by
  unfold watcherHub.closure
  cases wh.heap[w]? <;> rfl

/-! ## Calls that add nothing -/

theorem Shrinks.refl (s : watcherHub) : Shrinks s s :=
  ⟨rfl, fun _ => rfl, rfl, fun _ => List.Sublist.refl _, fun _ _ h => h, fun h => h⟩

theorem Shrinks.trans {s t u : watcherHub} (h1 : Shrinks s t) (h2 : Shrinks t u) :
    Shrinks s u :=
  ⟨h2.heapLen.trans h1.heapLen, fun w => (h2.fixed w).trans (h1.fixed w),
    h2.listsLen.trans h1.listsLen, fun l => (h2.sub l).trans (h1.sub l),
    fun k l h => h1.look k l (h2.look k l h), fun h => h2.alloc (h1.alloc h)⟩

theorem Shrinks.closure {s t : watcherHub} (h : Shrinks s t) (w : Nat) :
    t.closure w = s.closure w := by
  rw [closure_eq_fixed, closure_eq_fixed, h.fixed w]

theorem Shrinks.unlink (wh : watcherHub) (l w : Nat) : Shrinks wh (wh.unlink l w) where
  heapLen := rfl
  fixed := fun _ => rfl
  listsLen := by simp [watcherHub.unlink]
  sub := fun l1 => by
    rw [elems_unlink]
    split
    · next h => rw [h]; exact List.erase_sublist _ _
    · exact List.Sublist.refl _
  look := fun _ _ h => h
  alloc := fun h => h

theorem Shrinks.deletePath (wh : watcherHub) (k : String) : Shrinks wh (wh.deletePath k) where
  heapLen := rfl
  fixed := fun _ => rfl
  listsLen := rfl
  sub := fun _ => List.Sublist.refl _
  look := fun k1 l h => by
    rw [lookup_deletePath] at h
    split at h
    · exact absurd h (by simp)
    · exact h
  alloc := fun h => by
    unfold watcherHub.deletePath
    cases hm : wh.watchers with
    | none => exact absurd hm h
    | some m => simp

/-- Changing one watcher object without touching its fixed fields. -/
theorem Shrinks.setHeap (wh : watcherHub) (w : Nat) (obj obj1 : Watcher)
    (h : wh.heap[w]? = some obj) (hf : obj1.fixed = obj.fixed) :
    Shrinks wh { wh with heap := wh.heap.set w obj1 } where
  heapLen := by simp
  fixed := fun w1 => by
    simp only [List.getElem?_set]
    by_cases hw : w = w1
    · subst hw
      have hlt : w < wh.heap.length := (List.getElem?_eq_some.1 h).1
      simp [hlt, h, hf]
    · simp [hw]
  listsLen := rfl
  sub := fun _ => List.Sublist.refl _
  look := fun _ _ h => h
  alloc := fun h => h

/-- A call that adds nothing keeps the shape of the hub, provided no
registered list is left empty. -/
theorem Inv.of_shrinks {s t : watcherHub} (hs : Inv s) (h : Shrinks s t)
    (hne : ∀ k l, t.lookup k = some l → t.elems l ≠ []) : Inv t where
  alloc := h.alloc hs.alloc
  mapped := fun k l hl => by
    refine ⟨hne k l hl, fun w hw => ?_⟩
    rw [h.closure]
    exact (hs.mapped k l (h.look k l hl)).2 w ((h.sub l).subset hw)
  owned := fun l w hw => by
    rw [h.closure]
    exact hs.owned l w ((h.sub l).subset hw)
  nodup := fun l => (hs.nodup l).sublist (h.sub l)

theorem Inv.lookup_inj {s : watcherHub} (hs : Inv s) {k k1 : String} {l : Nat}
    (h : s.lookup k = some l) (h1 : s.lookup k1 = some l) : k = k1 := by
  obtain ⟨hne, hc⟩ := hs.mapped k l h
  obtain ⟨w, hw⟩ := List.exists_mem_of_ne_nil _ hne
  have e := (hc w hw).symm.trans ((hs.mapped k1 l h1).2 w hw)
  simpa using e

theorem Watcher.notify_fixed (w : Watcher) (e : Event) (x d : Bool) :
    (w.notify e x d).1.fixed = w.fixed := by
  unfold Watcher.notify
  split
  · split <;> rfl
  · rfl

theorem notifyList_shrinks (e : Event) (path : String) (deleted : Bool) (l : Nat)
    (ws : List Nat) (wh : watcherHub) :
    Shrinks wh (watcherHub.notifyList e path deleted l ws wh) := by
  induction ws generalizing wh with
  | nil => exact Shrinks.refl wh
  | cons curr next ih =>
    rw [watcherHub.notifyList]
    split
    · exact ih wh
    · next w hw =>
      have h1 := Shrinks.setHeap wh curr w (w.notify e (decide (e.Key = path)) deleted).1 hw
        (Watcher.notify_fixed w e _ _)
      refine Shrinks.trans ?_ (ih _)
      split
      · exact h1.trans (Shrinks.unlink _ l curr)
      · exact h1

theorem notifyList_watchers (e : Event) (path : String) (deleted : Bool) (l : Nat)
    (ws : List Nat) (wh : watcherHub) :
    (watcherHub.notifyList e path deleted l ws wh).watchers = wh.watchers ∧
    (watcherHub.notifyList e path deleted l ws wh).EventHistory = wh.EventHistory := by
  induction ws generalizing wh with
  | nil => exact ⟨rfl, rfl⟩
  | cons curr next ih =>
    rw [watcherHub.notifyList]
    split
    · exact ih wh
    · refine ⟨(ih _).1.trans ?_, (ih _).2.trans ?_⟩ <;> split <;> rfl

theorem notifyList_lookup (e : Event) (path : String) (deleted : Bool) (l : Nat)
    (ws : List Nat) (wh : watcherHub) (k : String) :
    (watcherHub.notifyList e path deleted l ws wh).lookup k = wh.lookup k := by
  unfold watcherHub.lookup
  rw [(notifyList_watchers e path deleted l ws wh).1]

theorem notifyList_elems_other (e : Event) (path : String) (deleted : Bool) (l : Nat)
    (ws : List Nat) (wh : watcherHub) (l1 : Nat) (h : l1 ≠ l) :
    (watcherHub.notifyList e path deleted l ws wh).elems l1 = wh.elems l1 := by
  induction ws generalizing wh with
  | nil => rfl
  | cons curr next ih =>
    rw [watcherHub.notifyList]
    split
    · exact ih wh
    · rw [ih]
      split
      · rw [elems_unlink, if_neg h]; rfl
      · rfl

theorem notifyWatchers_shrinks (wh : watcherHub) (e : Event) (path : String) (deleted : Bool) :
    Shrinks wh (wh.notifyWatchers e path deleted) := by
  unfold watcherHub.notifyWatchers
  split
  · exact Shrinks.refl wh
  · next l hl =>
    have h := notifyList_shrinks e path deleted l (wh.elems l) wh
    simp only []
    split
    · exact h.trans (Shrinks.deletePath _ path)
    · exact h

theorem Inv.notifyWatchers {wh : watcherHub} (hs : Inv wh) (e : Event) (path : String)
    (deleted : Bool) : Inv (wh.notifyWatchers e path deleted) := by
  refine hs.of_shrinks (notifyWatchers_shrinks wh e path deleted) ?_
  unfold watcherHub.notifyWatchers
  split
  · exact fun k l h => (hs.mapped k l h).1
  · next l hl =>
    simp only []
    intro k l1 h
    split at h
    · next hz =>
      rw [lookup_deletePath] at h
      split at h
      · exact absurd h (by simp)
      · next hk =>
        rw [notifyList_lookup] at h
        have hne : l1 ≠ l := fun e1 => hk (hs.lookup_inj (e1 ▸ h) hl)
        rw [if_pos hz, elems_deletePath, notifyList_elems_other _ _ _ _ _ _ _ hne]
        exact (hs.mapped k l1 h).1
    · next hz =>
      rw [if_neg hz]
      by_cases hne : l1 = l
      · rw [hne]
        intro h0
        exact hz (by rw [h0]; rfl)
      · rw [notifyList_elems_other _ _ _ _ _ _ _ hne]
        rw [notifyList_lookup] at h
        exact (hs.mapped k l1 h).1

theorem foldl_notifyWatchers_shrinks (e : Event) (paths : List String) (wh : watcherHub) :
    Shrinks wh (paths.foldl (fun h p => h.notifyWatchers e p false) wh) := by
  induction paths generalizing wh with
  | nil => exact Shrinks.refl wh
  | cons p paths ih => exact (notifyWatchers_shrinks wh e p false).trans (ih _)

theorem Inv.foldl_notifyWatchers {wh : watcherHub} (hs : Inv wh) (e : Event)
    (paths : List String) : Inv (paths.foldl (fun h p => h.notifyWatchers e p false) wh) := by
  induction paths generalizing wh with
  | nil => exact hs
  | cons p paths ih => exact ih (hs.notifyWatchers e p false)

theorem Inv.setHistory {wh : watcherHub} (hs : Inv wh) (eh : EventHistory) :
    Inv { wh with EventHistory := eh } :=
  ⟨hs.alloc, hs.mapped, hs.owned, hs.nodup⟩

theorem Inv.notify {wh : watcherHub} (hs : Inv wh) (e : Event) : Inv (wh.notify e) := by
  rw [notify_eq_foldl]
  exact (hs.setHistory _).foldl_notifyWatchers e _

theorem notify_shrinks (wh : watcherHub) (e : Event) : Shrinks wh (wh.notify e) := by
  rw [notify_eq_foldl]
  have h0 : Shrinks wh { wh with EventHistory := (wh.EventHistory.addEvent e).1 } :=
    ⟨rfl, fun _ => rfl, rfl, fun _ => List.Sublist.refl _, fun _ _ h => h, fun h => h⟩
  exact h0.trans (foldl_notifyWatchers_shrinks e _ _)

theorem receive_shrinks (wh : watcherHub) (w : Nat) : Shrinks wh (wh.receive w) := by
  unfold watcherHub.receive
  split
  · exact Shrinks.refl wh
  · next obj h => exact Shrinks.setHeap wh w obj _ h rfl

theorem Inv.receive {wh : watcherHub} (hs : Inv wh) (w : Nat) : Inv (wh.receive w) := by
  refine hs.of_shrinks (receive_shrinks wh w) ?_
  unfold watcherHub.receive
  split
  · exact fun k l h => (hs.mapped k l h).1
  · exact fun k l h => (hs.mapped k l h).1

theorem remove_shrinks {wh t : watcherHub} {w : Nat} (h : wh.remove w = some t) :
    Shrinks wh t := by
  unfold watcherHub.remove at h
  split at h
  · exact absurd h (by simp)
  · next obj ho =>
    split at h
    · exact absurd h (by simp)
    · next key l hc =>
      split at h
      · cases h; exact Shrinks.refl wh
      · have h1 := (Shrinks.setHeap wh w obj { obj with removed := true } ho rfl).trans
          (Shrinks.unlink _ l w)
        simp only [] at h
        split at h
        · cases h; exact h1.trans (Shrinks.deletePath _ key)
        · cases h; exact h1

theorem Inv.remove {wh t : watcherHub} (hs : Inv wh) {w : Nat} (h : wh.remove w = some t) :
    Inv t := by
  refine hs.of_shrinks (remove_shrinks h) ?_
  unfold watcherHub.remove at h
  split at h
  · exact absurd h (by simp)
  · next obj ho =>
    split at h
    · exact absurd h (by simp)
    · next key l hc =>
      have hcl : wh.closure w = some (key, l) := by
        unfold watcherHub.closure; rw [ho]; exact hc
      split at h
      · cases h; exact fun k l1 hl => (hs.mapped k l1 hl).1
      · have helems : ∀ l1, (({ wh with heap := wh.heap.set w { obj with removed := true } } :
            watcherHub).unlink l w).elems l1 =
            if l1 = l then (wh.elems l).erase w else wh.elems l1 := fun l1 => elems_unlink _ l w l1
        have key_of : ∀ k, wh.lookup k = some l → w ∈ wh.elems l → k = key := by
          intro k hk hw
          have := ((hs.mapped k l hk).2 w hw).symm.trans hcl
          simpa using this
        have stay : ∀ k, wh.lookup k = some l → w ∉ wh.elems l →
            (wh.elems l).erase w ≠ [] := by
          intro k hk hw
          rw [List.erase_of_not_mem hw]
          exact (hs.mapped k l hk).1
        simp only [] at h
        split at h
        · next hz =>
          cases h
          intro k l1 hl
          rw [lookup_deletePath] at hl
          split at hl
          · exact absurd hl (by simp)
          · next hk =>
            have hl0 : wh.lookup k = some l1 := hl
            rw [elems_deletePath, helems]
            split
            · next e1 =>
              subst e1
              by_cases hw : w ∈ wh.elems l1
              · exact absurd (key_of k hl0 hw) hk
              · exact stay k hl0 hw
            · exact (hs.mapped k l1 hl0).1
        · next hz =>
          cases h
          intro k l1 hl
          have hl0 : wh.lookup k = some l1 := hl
          rw [helems]
          split
          · next e1 =>
            subst e1
            intro h0
            apply hz
            rw [helems, if_pos rfl, h0]; rfl
          · exact (hs.mapped k l1 hl0).1

/-! ## `watch` -/

theorem closure_lt {wh : watcherHub} {w : Nat} {c : String × Nat}
    (h : wh.closure w = some c) : w < wh.heap.length := by
  unfold watcherHub.closure at h
  split at h
  · exact absurd h (by simp)
  · next obj ho => exact (List.getElem?_eq_some.1 ho).1

theorem closure_push (a wh : watcherHub) (obj : Watcher) (h : a.heap = wh.heap ++ [obj])
    (w : Nat) :
    a.closure w = if w = wh.heap.length then obj.remove else wh.closure w := by
  unfold watcherHub.closure
  rw [h]
  by_cases hw : w = wh.heap.length
  · subst hw
    rw [List.getElem?_concat_length, if_pos rfl]
  · rw [if_neg hw]
    by_cases hlt : w < wh.heap.length
    · rw [List.getElem?_append_left hlt]
    · have h1 : (wh.heap ++ [obj])[w]? = none :=
        List.getElem?_eq_none (by simp; omega)
      have h2 : wh.heap[w]? = none := List.getElem?_eq_none (by omega)
      rw [h1, h2]

theorem elems_push (a wh : watcherHub) (x : List Nat) (h : a.lists = wh.lists ++ [x])
    (l : Nat) :
    a.elems l = if l = wh.lists.length then x else wh.elems l := by
  unfold watcherHub.elems
  rw [h, List.getD_eq_getElem?_getD, List.getD_eq_getElem?_getD]
  by_cases hl : l = wh.lists.length
  · subst hl
    rw [List.getElem?_concat_length, if_pos rfl]; rfl
  · rw [if_neg hl]
    by_cases hlt : l < wh.lists.length
    · rw [List.getElem?_append_left hlt]
    · have h1 : (wh.lists ++ [x])[l]? = none :=
        List.getElem?_eq_none (by simp; omega)
      have h2 : wh.lists[l]? = none := List.getElem?_eq_none (by omega)
      rw [h1, h2]

theorem elems_set (a wh : watcherHub) (l : Nat) (x : List Nat) (hl : l < wh.lists.length)
    (h : a.lists = wh.lists.set l x) (l1 : Nat) :
    a.elems l1 = if l1 = l then x else wh.elems l1 := by
  unfold watcherHub.elems
  rw [h, getD_set]
  by_cases e : l = l1
  · rw [if_pos ⟨e, hl⟩, if_pos e.symm]
  · rw [if_neg (fun h => e h.1), if_neg (Ne.symm e)]

theorem elems_lt {wh : watcherHub} {l : Nat} (h : wh.elems l ≠ []) : l < wh.lists.length := by
  by_contra hl
  apply h
  unfold watcherHub.elems
  rw [List.getD_eq_getElem?_getD, List.getElem?_eq_none (by omega)]; rfl

theorem Inv.mem_lt {wh : watcherHub} (hs : Inv wh) {l w : Nat} (h : w ∈ wh.elems l) :
    w < wh.heap.length := by
  obtain ⟨k, hk⟩ := hs.owned l w h
  exact closure_lt hk

/-- The three outcomes of `watch`, read off the code. -/
theorem watch_error (wh : watcherHub) (key : String) (recursive stream : Bool) (index : Nat)
    (err : etcdErr) (h : wh.EventHistory.scan key recursive index = .error err) :
    wh.watch key recursive stream index = (wh, .err err) := by
  unfold watcherHub.watch
  rw [h]

theorem watch_batch (wh : watcherHub) (key : String) (recursive stream : Bool) (index : Nat)
    (events : List Event) (h : wh.EventHistory.scan key recursive index = .ok events)
    (hne : events ≠ []) :
    wh.watch key recursive stream index =
      ({ wh with heap := wh.heap ++
            [(⟨some (.events events), recursive, stream, index, false, none⟩ : Watcher)] },
        .ok wh.heap.length) := by
  unfold watcherHub.watch
  rw [h]
  simp only [ne_eq, hne, not_false_eq_true, if_true]

theorem watch_back (wh : watcherHub) (key : String) (recursive stream : Bool) (index : Nat)
    (l : Nat) (h : wh.EventHistory.scan key recursive index = .ok [])
    (hl : wh.lookup key = some l) :
    wh.watch key recursive stream index =
      ({ wh with lists := wh.lists.set l (wh.elems l ++ [wh.heap.length]),
                 heap := wh.heap ++
                   [(⟨none, recursive, stream, index, false, some (key, l)⟩ : Watcher)],
                 count := wh.count + 1 }, .ok wh.heap.length) := by
  unfold watcherHub.watch
  rw [h]
  simp only [ne_eq, not_true_eq_false, if_false, hl]

theorem watch_new (wh : watcherHub) (key : String) (recursive stream : Bool) (index : Nat)
    (m : List (String × Nat)) (h : wh.EventHistory.scan key recursive index = .ok [])
    (hm : wh.watchers = some m) (hl : wh.lookup key = none) :
    wh.watch key recursive stream index =
      ({ wh with watchers := some (mapSet m key wh.lists.length),
                 lists := wh.lists ++ [[wh.heap.length]],
                 heap := wh.heap ++
                   [(⟨none, recursive, stream, index, false, some (key, wh.lists.length)⟩ :
                     Watcher)],
                 count := wh.count + 1 }, .ok wh.heap.length) := by
  unfold watcherHub.watch
  rw [h]
  simp only [ne_eq, not_true_eq_false, if_false, hl, hm]

theorem watch_nil (wh : watcherHub) (key : String) (recursive stream : Bool) (index : Nat)
    (h : wh.EventHistory.scan key recursive index = .ok [])
    (hm : wh.watchers = none) :
    wh.watch key recursive stream index = (wh, .panics) := by
  have hl : wh.lookup key = none := by
    unfold watcherHub.lookup; rw [hm]
  unfold watcherHub.watch
  rw [h]
  simp only [ne_eq, not_true_eq_false, if_false, hl, hm]

theorem Inv.watch {wh : watcherHub} (hs : Inv wh) (key : String) (recursive stream : Bool)
    (index : Nat) : Inv (wh.watch key recursive stream index).1 := by
  cases hsc : wh.EventHistory.scan key recursive index with
  | error err => rw [watch_error wh key recursive stream index err hsc]; exact hs
  | ok events =>
    by_cases hne : events = []
    · subst hne
      cases hl : wh.lookup key with
      | some l =>
        rw [watch_back wh key recursive stream index l hsc hl]
        have hlt : l < wh.lists.length := elems_lt (hs.mapped key l hl).1
        have hE := fun a h l1 => elems_set a wh l (wh.elems l ++ [wh.heap.length]) hlt h l1
        have hC := fun a obj h w => closure_push a wh obj h w
        have hold : ∀ l1 w, w ∈ wh.elems l1 → w ≠ wh.heap.length := fun l1 w hw =>
          Nat.ne_of_lt (hs.mem_lt hw)
        refine ⟨hs.alloc, ?_, ?_, ?_⟩
        · intro k l1 hk
          have hk0 : wh.lookup k = some l1 := hk
          rw [hE _ rfl]
          by_cases e : l1 = l
          · subst e
            have hkk : k = key := hs.lookup_inj hk0 hl
            rw [if_pos rfl]
            refine ⟨by simp, fun w hw => ?_⟩
            rw [hC _ _ rfl]
            rcases List.mem_append.1 hw with h | h
            · rw [if_neg (hold _ w h)]; exact (hs.mapped k l1 hk0).2 w h
            · rw [if_pos (List.mem_singleton.1 h), hkk]
          · rw [if_neg e]
            refine ⟨(hs.mapped k l1 hk0).1, fun w hw => ?_⟩
            rw [hC _ _ rfl, if_neg (hold _ w hw)]
            exact (hs.mapped k l1 hk0).2 w hw
        · intro l1 w hw
          rw [hE _ rfl] at hw
          rw [hC _ _ rfl]
          by_cases e : l1 = l
          · subst e
            rw [if_pos rfl] at hw
            rcases List.mem_append.1 hw with h | h
            · rw [if_neg (hold _ w h)]; exact hs.owned l1 w h
            · rw [if_pos (List.mem_singleton.1 h)]; exact ⟨key, rfl⟩
          · rw [if_neg e] at hw
            rw [if_neg (hold _ w hw)]; exact hs.owned l1 w hw
        · intro l1
          rw [hE _ rfl]
          by_cases e : l1 = l
          · rw [if_pos e]
            refine List.Nodup.append (hs.nodup l) (List.nodup_singleton _) ?_
            intro w hw hw1
            exact hold l w hw (List.mem_singleton.1 hw1)
          · rw [if_neg e]; exact hs.nodup l1
      | none =>
        cases hm : wh.watchers with
        | none => exact absurd hm hs.alloc
        | some m =>
          rw [watch_new wh key recursive stream index m hsc hm hl]
          have hE := fun a h l1 => elems_push a wh [wh.heap.length] h l1
          have hC := fun a obj h w => closure_push a wh obj h w
          have hold : ∀ l1 w, w ∈ wh.elems l1 → w ≠ wh.heap.length := fun l1 w hw =>
            Nat.ne_of_lt (hs.mem_lt hw)
          have hlook : ∀ k, wh.lookup k = mapGet m k := fun k => by
            unfold watcherHub.lookup; rw [hm]
          refine ⟨by simp, ?_, ?_, ?_⟩
          · intro k l1 hk
            have hk1 : mapGet (mapSet m key wh.lists.length) k = some l1 := hk
            rw [mapGet_mapSet] at hk1
            rw [hE _ rfl]
            by_cases e : key = k
            · rw [if_pos e] at hk1
              cases hk1
              rw [if_pos rfl]
              refine ⟨by simp, fun w hw => ?_⟩
              rw [hC _ _ rfl, if_pos (List.mem_singleton.1 hw), e]
            · rw [if_neg e, ← hlook] at hk1
              have hlt : l1 < wh.lists.length := elems_lt (hs.mapped k l1 hk1).1
              rw [if_neg (Nat.ne_of_lt hlt)]
              refine ⟨(hs.mapped k l1 hk1).1, fun w hw => ?_⟩
              rw [hC _ _ rfl, if_neg (hold _ w hw)]
              exact (hs.mapped k l1 hk1).2 w hw
          · intro l1 w hw
            rw [hE _ rfl] at hw
            rw [hC _ _ rfl]
            by_cases e : l1 = wh.lists.length
            · rw [if_pos e] at hw
              rw [if_pos (List.mem_singleton.1 hw), e]; exact ⟨key, rfl⟩
            · rw [if_neg e] at hw
              rw [if_neg (hold _ w hw)]; exact hs.owned l1 w hw
          · intro l1
            rw [hE _ rfl]
            by_cases e : l1 = wh.lists.length
            · rw [if_pos e]; exact List.nodup_singleton _
            · rw [if_neg e]; exact hs.nodup l1
    · rw [watch_batch wh key recursive stream index events hsc hne]
      have hC := fun a obj h w => closure_push a wh obj h w
      have hold : ∀ l1 w, w ∈ wh.elems l1 → w ≠ wh.heap.length := fun l1 w hw =>
        Nat.ne_of_lt (hs.mem_lt hw)
      refine ⟨hs.alloc, ?_, ?_, hs.nodup⟩
      · intro k l1 hk
        have hk0 : wh.lookup k = some l1 := hk
        refine ⟨(hs.mapped k l1 hk0).1, fun w hw => ?_⟩
        have hw0 : w ∈ wh.elems l1 := hw
        rw [hC _ _ rfl, if_neg (hold _ w hw0)]
        exact (hs.mapped k l1 hk0).2 w hw0
      · intro l1 w hw
        have hw0 : w ∈ wh.elems l1 := hw
        rw [hC _ _ rfl, if_neg (hold _ w hw0)]
        exact hs.owned l1 w hw0

theorem inv_newWatchHub (capacity : Nat) : Inv (newWatchHub capacity) := by
  have he : ∀ l, (newWatchHub capacity).elems l = [] := fun l => by
    simp [watcherHub.elems, newWatchHub]
  refine ⟨by simp [newWatchHub], ?_, ?_, ?_⟩
  · intro k l h
    simp [watcherHub.lookup, newWatchHub, mapGet] at h
  · intro l w h
    rw [he] at h
    exact absurd h (List.not_mem_nil _)
  · intro l
    rw [he]
    exact List.nodup_nil

theorem Inv.apply {wh : watcherHub} (hs : Inv wh) (op : Op) : Inv (wh.apply op) := by
  cases op with
  | watch key recursive stream index => exact hs.watch key recursive stream index
  | notify e => exact hs.notify e
  | detach w =>
    simp only [watcherHub.apply]
    cases h : wh.remove w with
    | none => exact hs
    | some t => exact hs.remove h
  | receive w => exact hs.receive w

theorem Inv.run {wh : watcherHub} (hs : Inv wh) (ops : List Op) : Inv (wh.run ops) := by
  induction ops generalizing wh with
  | nil => exact hs
  | cons op ops ih => exact ih (hs.apply op)

theorem Reachable.inv {wh : watcherHub} (h : Reachable wh) : Inv wh := by
  obtain ⟨capacity, ops, rfl⟩ := h
  exact (inv_newWatchHub capacity).run ops

theorem Reachable.after_ops {wh : watcherHub} (h : Reachable wh) (ops : List Op) :
    Reachable (wh.run ops) := by
  obtain ⟨capacity, ops0, rfl⟩ := h
  exact ⟨capacity, ops0 ++ ops, by simp [watcherHub.run, List.foldl_append]⟩

/-! ## C4, C5, C6: the three outcomes of `watch` -/

theorem lookup_congr (a b : watcherHub) (h : a.watchers = b.watchers) (k : String) :
    a.lookup k = b.lookup k := by
  unfold watcherHub.lookup; rw [h]

/-- C4 (the code at the failing input): on the hub returned by `clone`, whose
registry map is nil, the history scan for `/foo` returns no events and no
error, yet `watch` does not return a watcher: registering panics on the nil
map, and the hub is left as it was. -/
theorem watch_on_clone_panics :
    (newWatchHub 4).clone.EventHistory.scan "/foo" false 0 = .ok [] ∧
    (newWatchHub 4).clone.watch "/foo" false false 0 = ((newWatchHub 4).clone, .panics) := by
  decide

/-- Registration in the states reachable from `newWatchHub`: there, a call
`watch(key, recursive, stream, index)` whose history scan returns no events
and no error returns a new watcher with those flags and an empty channel,
appends it at the back of the list registered at `key` (a one-element list if
`key` was absent), adds exactly 1 to the count, and leaves the list of every
other path, the existing watchers and the history unchanged. -/
theorem watch_registers (wh : watcherHub) (hr : Reachable wh) (key : String)
    (recursive stream : Bool) (index : Nat)
    (h : wh.EventHistory.scan key recursive index = .ok []) :
    (wh.watch key recursive stream index).2 = .ok wh.heap.length ∧
    (∃ l, (wh.watch key recursive stream index).1.heap[wh.heap.length]? =
      some ⟨none, recursive, stream, index, false, some (key, l)⟩) ∧
    ¬ wh.listed wh.heap.length ∧
    (wh.watch key recursive stream index).1.watchersAt key =
      wh.watchersAt key ++ [wh.heap.length] ∧
    (wh.watch key recursive stream index).1.count = wh.count + 1 ∧
    (∀ k, k ≠ key →
      (wh.watch key recursive stream index).1.watchersAt k = wh.watchersAt k) ∧
    (∀ w, w < wh.heap.length →
      (wh.watch key recursive stream index).1.heap[w]? = wh.heap[w]?) ∧
    (wh.watch key recursive stream index).1.EventHistory = wh.EventHistory := by
  have hs := hr.inv
  have hfresh : ¬ wh.listed wh.heap.length := fun ⟨l, hl⟩ =>
    absurd (hs.mem_lt hl) (Nat.lt_irrefl _)
  cases hl : wh.lookup key with
  | some l =>
    have hlt : l < wh.lists.length := elems_lt (hs.mapped key l hl).1
    obtain ⟨t, ht, hw, hli, hh, hc, hev⟩ : ∃ t : watcherHub,
        wh.watch key recursive stream index = (t, .ok wh.heap.length) ∧
        t.watchers = wh.watchers ∧
        t.lists = wh.lists.set l (wh.elems l ++ [wh.heap.length]) ∧
        t.heap = wh.heap ++ [⟨none, recursive, stream, index, false, some (key, l)⟩] ∧
        t.count = wh.count + 1 ∧ t.EventHistory = wh.EventHistory :=
      ⟨_, watch_back wh key recursive stream index l h hl, rfl, rfl, rfl, rfl, rfl⟩
    rw [ht]
    have hE := elems_set t wh l (wh.elems l ++ [wh.heap.length]) hlt hli
    have hL := lookup_congr t wh hw
    refine ⟨rfl, ⟨l, ?_⟩, hfresh, ?_, hc, ?_, ?_, hev⟩
    · show t.heap[wh.heap.length]? = _
      rw [hh]; exact List.getElem?_concat_length _ _
    · show t.watchersAt key = _
      simp only [watcherHub.watchersAt, hL, hl, hE, if_true]
    · intro k hk
      show t.watchersAt k = _
      simp only [watcherHub.watchersAt, hL]
      cases hk1 : wh.lookup k with
      | none => rfl
      | some l1 =>
        have hne : l1 ≠ l := fun e => hk (hs.lookup_inj (e ▸ hk1) hl)
        simp only [hE, if_neg hne]
    · intro w hw1
      show t.heap[w]? = _
      rw [hh]; exact List.getElem?_append_left hw1
  | none =>
    cases hm : wh.watchers with
    | none => exact absurd hm hs.alloc
    | some m =>
      obtain ⟨t, ht, hw, hli, hh, hc, hev⟩ : ∃ t : watcherHub,
          wh.watch key recursive stream index = (t, .ok wh.heap.length) ∧
          t.watchers = some (mapSet m key wh.lists.length) ∧
          t.lists = wh.lists ++ [[wh.heap.length]] ∧
          t.heap = wh.heap ++
            [⟨none, recursive, stream, index, false, some (key, wh.lists.length)⟩] ∧
          t.count = wh.count + 1 ∧ t.EventHistory = wh.EventHistory :=
        ⟨_, watch_new wh key recursive stream index m h hm hl, rfl, rfl, rfl, rfl, rfl⟩
      rw [ht]
      have hE := elems_push t wh [wh.heap.length] hli
      have hL : ∀ k, t.lookup k = if key = k then some wh.lists.length else wh.lookup k :=
        fun k => by
          unfold watcherHub.lookup; rw [hw, hm]; exact mapGet_mapSet m key k _
      refine ⟨rfl, ⟨wh.lists.length, ?_⟩, hfresh, ?_, hc, ?_, ?_, hev⟩
      · show t.heap[wh.heap.length]? = _
        rw [hh]; exact List.getElem?_concat_length _ _
      · show t.watchersAt key = _
        simp only [watcherHub.watchersAt, hL, hl, hE, if_true, List.nil_append]
      · intro k hk
        show t.watchersAt k = _
        simp only [watcherHub.watchersAt, hL, if_neg (Ne.symm hk)]
        cases hk1 : wh.lookup k with
        | none => rfl
        | some l1 =>
          have hlt : l1 < wh.lists.length := elems_lt (hs.mapped k l1 hk1).1
          simp only [hE, if_neg (Nat.ne_of_lt hlt)]
      · intro w hw1
        show t.heap[w]? = _
        rw [hh]; exact List.getElem?_append_left hw1

theorem watch_registers_witness :
    (Reachable (newWatchHub 4) ∧
      (newWatchHub 4).EventHistory.scan "/foo" true 0 = .ok []) ∧
    ((newWatchHub 4).watch "/foo" true true 0).1.watchersAt "/foo" =
      (newWatchHub 4).watchersAt "/foo" ++ [(newWatchHub 4).heap.length] :=
  ⟨⟨⟨4, [], rfl⟩, by decide⟩,
    (watch_registers (newWatchHub 4) ⟨4, [], rfl⟩ "/foo" true true 0 (by decide)).2.2.2.1⟩

theorem watch_catches_up_aux (wh : watcherHub) (key : String) (recursive stream : Bool)
    (index : Nat) (events : List Event)
    (h : wh.EventHistory.scan key recursive index = .ok events) (hne : events ≠ []) :
    (wh.watch key recursive stream index).2 = .ok wh.heap.length ∧
    (wh.watch key recursive stream index).1.chan wh.heap.length = some (.events events) := by
  rw [watch_batch wh key recursive stream index events h hne]
  refine ⟨rfl, ?_⟩
  simp only [watcherHub.chan, List.getElem?_concat_length]

/-- C5: in every hub state, a call `watch(key, recursive, stream, index)`
whose history scan returns a non-empty batch returns without error a new
watcher whose channel holds that whole batch as its one message, and leaves
the registry map, every list, the count, the history and the existing
watchers exactly as they were, whatever `stream` is. -/
theorem watch_catches_up (wh : watcherHub) (key : String) (recursive stream : Bool)
    (index : Nat) (events : List Event)
    (h : wh.EventHistory.scan key recursive index = .ok events) (hne : events ≠ []) :
    (wh.watch key recursive stream index).2 = .ok wh.heap.length ∧
    (wh.watch key recursive stream index).1.chan wh.heap.length = some (.events events) ∧
    (wh.watch key recursive stream index).1.watchers = wh.watchers ∧
    (wh.watch key recursive stream index).1.lists = wh.lists ∧
    (wh.watch key recursive stream index).1.count = wh.count ∧
    (wh.watch key recursive stream index).1.EventHistory = wh.EventHistory ∧
    (∀ w, w < wh.heap.length →
      (wh.watch key recursive stream index).1.heap[w]? = wh.heap[w]?) := by
  rw [watch_batch wh key recursive stream index events h hne]
  refine ⟨rfl, ?_, rfl, rfl, rfl, rfl, fun w hw => List.getElem?_append_left hw⟩
  simp only [watcherHub.chan, List.getElem?_concat_length]

theorem watch_catches_up_witness :
    (((newWatchHub 4).notify (newEvent .Create "/foo" 1 1)).EventHistory.scan "/foo" false 1 =
        .ok [newEvent .Create "/foo" 1 1] ∧
      [newEvent .Create "/foo" 1 1] ≠ []) ∧
    (((newWatchHub 4).notify (newEvent .Create "/foo" 1 1)).watch "/foo" false true 1).1.chan
        ((newWatchHub 4).notify (newEvent .Create "/foo" 1 1)).heap.length =
      some (.events [newEvent .Create "/foo" 1 1]) :=
  ⟨⟨by decide, by decide⟩,
    (watch_catches_up ((newWatchHub 4).notify (newEvent .Create "/foo" 1 1)) "/foo" false true 1
      [newEvent .Create "/foo" 1 1] (by decide) (by decide)).2.1⟩

/-- C6: in every hub state, a call `watch(key, recursive, stream, index)`
whose history scan returns an error returns that same error and no watcher,
and the hub (registry, count, history and everything else) is unchanged. -/
theorem watch_propagates_error (wh : watcherHub) (key : String) (recursive stream : Bool)
    (index : Nat) (err : etcdErr)
    (h : wh.EventHistory.scan key recursive index = .error err) :
    wh.watch key recursive stream index = (wh, .err err) :=
  watch_error wh key recursive stream index err h

theorem watch_propagates_error_witness :
    (((newWatchHub 1).notify (newEvent .Create "/foo" 1 1)).notify
        (newEvent .Set "/foo" 2 2)).EventHistory.scan "/foo" false 1 = .error .indexTooOld ∧
    (((newWatchHub 1).notify (newEvent .Create "/foo" 1 1)).notify
        (newEvent .Set "/foo" 2 2)).watch "/foo" false false 1 =
      ((((newWatchHub 1).notify (newEvent .Create "/foo" 1 1)).notify
        (newEvent .Set "/foo" 2 2)), .err .indexTooOld) :=
  ⟨by decide,
    watch_propagates_error (((newWatchHub 1).notify (newEvent .Create "/foo" 1 1)).notify
        (newEvent .Set "/foo" 2 2)) "/foo" false false 1 .indexTooOld (by decide)⟩

/-! ## C7: `watch` with index 0 -/

/-- C7 (the code at the failing input): after `notify` of an event at `/foo`
with index 1, `watch("/foo", false, false, 0)` hands the scan the index 0
unchanged, so the new watcher receives the already-recorded event as a
catch-up batch and is not registered. -/
theorem watch_index_zero_replays_history :
    (((newWatchHub 4).notify (newEvent .Create "/foo" 1 1)).watch "/foo" false false 0).2 =
      .ok 0 ∧
    (((newWatchHub 4).notify (newEvent .Create "/foo" 1 1)).watch "/foo" false false 0).1.chan 0 =
      some (.events [newEvent .Create "/foo" 1 1]) ∧
    (((newWatchHub 4).notify (newEvent .Create "/foo" 1 1)).watch "/foo" false false 0).1.watchersAt
      "/foo" = [] := by
  decide

/-! ## C8, C9, C10: detach -/

/-- C8 (the code at the failing input): after `watch("/foo")`, a `notify` that
delivers to the watcher and removes it, and then the watcher's detach, the
count is -1 while the registry holds no watcher. -/
theorem count_negative_after_detach :
    ((newWatchHub 4).run
      [.watch "/foo" false false 0, .notify (newEvent .Create "/foo" 1 1), .detach 0]).count
        = -1 ∧
    ((newWatchHub 4).run
      [.watch "/foo" false false 0, .notify (newEvent .Create "/foo" 1 1), .detach 0]).registrySize
        = 0 := by
  decide

/-- C9: for every hub state and every watcher that has the detach closure
installed by `watch`, the detach call returns, a second call right after it
returns the very same hub state, and the count is decremented once: by the
first call, unless the watcher's `removed` flag was already set, in which case
neither call changes anything. -/
theorem detach_idempotent (wh : watcherHub) (w : Nat) (c : String × Nat)
    (hw : wh.closure w = some c) :
    ∃ t, wh.remove w = some t ∧ t.remove w = some t ∧
      t.count = (if wh.removedFlag w then wh.count else wh.count - 1) ∧
      (wh.removedFlag w = true → t = wh) := by
  unfold watcherHub.closure at hw
  cases ho : wh.heap[w]? with
  | none => rw [ho] at hw; exact absurd hw (by simp)
  | some obj =>
    rw [ho] at hw
    simp only [] at hw
    obtain ⟨key, l⟩ := c
    have hlt : w < wh.heap.length := (List.getElem?_eq_some.1 ho).1
    by_cases hrm : obj.removed = true
    · have h1 : wh.remove w = some wh := by
        unfold watcherHub.remove
        simp only [ho, hw, hrm, if_true]
      refine ⟨wh, h1, h1, ?_, fun _ => rfl⟩
      simp only [watcherHub.removedFlag, ho, hrm, if_true]
    · have hflag : wh.removedFlag w = false := by
        simp only [watcherHub.removedFlag, ho]
        simpa using hrm
      have again : ∀ (t : watcherHub) (obj1 : Watcher), t.heap = wh.heap.set w obj1 →
          obj1.removed = true → obj1.remove = some (key, l) → t.remove w = some t := by
        intro t obj1 ht h1 h2
        unfold watcherHub.remove
        have : t.heap[w]? = some obj1 := by
          rw [ht, List.getElem?_set]; simp [hlt]
        simp only [this, h1, h2, if_true]
      unfold watcherHub.remove
      simp only [ho, hw, hrm, if_false, hflag, Bool.false_eq_true]
      split
      · exact ⟨_, rfl, again _ _ rfl rfl rfl, rfl, fun h => absurd h (by simp)⟩
      · exact ⟨_, rfl, again _ _ rfl rfl rfl, rfl, fun h => absurd h (by simp)⟩

theorem detach_idempotent_witness :
    ((newWatchHub 4).watch "/foo" false false 0).1.closure 0 = some ("/foo", 0) ∧
    ∃ t, ((newWatchHub 4).watch "/foo" false false 0).1.remove 0 = some t ∧
      t.remove 0 = some t ∧
      t.count = (if ((newWatchHub 4).watch "/foo" false false 0).1.removedFlag 0
        then ((newWatchHub 4).watch "/foo" false false 0).1.count
        else ((newWatchHub 4).watch "/foo" false false 0).1.count - 1) ∧
      (((newWatchHub 4).watch "/foo" false false 0).1.removedFlag 0 = true →
        t = ((newWatchHub 4).watch "/foo" false false 0).1) :=
  ⟨by decide,
    detach_idempotent ((newWatchHub 4).watch "/foo" false false 0).1 0 ("/foo", 0) (by decide)⟩

/-- C10 (the code at the failing input): watcher 0 is registered at `/foo`,
receives an event and is removed by `notify`; watcher 1 is then registered at
`/foo`.  Before the detach of watcher 0, watcher 1 is in the list at `/foo`;
after it, the path `/foo` is gone from the registry, watcher 1 with it. -/
theorem detach_unregisters_other_watcher :
    ((newWatchHub 4).run
      [.watch "/foo" false false 0, .notify (newEvent .Create "/foo" 1 1),
        .watch "/foo" false false 2]).watchersAt "/foo" = [1] ∧
    ((newWatchHub 4).run
      [.watch "/foo" false false 0, .notify (newEvent .Create "/foo" 1 1),
        .watch "/foo" false false 2, .detach 0]).watchersAt "/foo" = [] ∧
    ((newWatchHub 4).run
      [.watch "/foo" false false 0, .notify (newEvent .Create "/foo" 1 1),
        .watch "/foo" false false 2, .detach 0]).lookup "/foo" = none := by
  decide

/-! ## What one pass of `notifyWatchers` does to one watcher -/

theorem notifyList_cons_none (e : Event) (path : String) (deleted : Bool) (l curr : Nat)
    (next : List Nat) (wh : watcherHub) (h : wh.heap[curr]? = none) :
    watcherHub.notifyList e path deleted l (curr :: next) wh =
      watcherHub.notifyList e path deleted l next wh := by
  rw [watcherHub.notifyList]
  simp only [h]

theorem notifyList_cons_some (e : Event) (path : String) (deleted : Bool) (l curr : Nat)
    (next : List Nat) (wh : watcherHub) (w : Watcher) (h : wh.heap[curr]? = some w) :
    watcherHub.notifyList e path deleted l (curr :: next) wh =
      watcherHub.notifyList e path deleted l next
        (if (w.notify e (decide (e.Key = path)) deleted).2 && !w.stream then
          ({ wh with heap := wh.heap.set curr (w.notify e (decide (e.Key = path)) deleted).1 } :
            watcherHub).unlink l curr
        else { wh with heap := wh.heap.set curr (w.notify e (decide (e.Key = path)) deleted).1 }) := by
  rw [watcherHub.notifyList]
  simp only [h]

theorem notifyList_effect (e : Event) (path : String) (deleted : Bool) (l : Nat)
    (ws : List Nat) (wh : watcherHub) (hnd : ws.Nodup) (hl : (wh.elems l).Nodup)
    (x : Nat) (obj : Watcher) (hx : wh.heap[x]? = some obj) :
    (x ∉ ws →
      (watcherHub.notifyList e path deleted l ws wh).heap[x]? = some obj ∧
      (x ∈ (watcherHub.notifyList e path deleted l ws wh).elems l ↔ x ∈ wh.elems l)) ∧
    (x ∈ ws →
      (watcherHub.notifyList e path deleted l ws wh).heap[x]? =
        some (obj.notify e (decide (e.Key = path)) deleted).1 ∧
      (x ∈ (watcherHub.notifyList e path deleted l ws wh).elems l ↔
        x ∈ wh.elems l ∧
          ¬ ((obj.notify e (decide (e.Key = path)) deleted).2 = true ∧ obj.stream = false))) := by
  induction ws generalizing wh obj with
  | nil =>
    refine ⟨fun _ => ⟨hx, Iff.rfl⟩, fun h => absurd h (List.not_mem_nil _)⟩
  | cons curr next ih =>
    have hnd1 : next.Nodup := (List.nodup_cons.1 hnd).2
    have hcn : curr ∉ next := (List.nodup_cons.1 hnd).1
    cases hc : wh.heap[curr]? with
    | none =>
      have hne : x ≠ curr := fun e1 => by rw [e1, hc] at hx; exact absurd hx (by simp)
      rw [notifyList_cons_none e path deleted l curr next wh hc]
      have := ih wh hnd1 hl obj hx
      refine ⟨fun h => this.1 (fun h1 => h (List.mem_cons_of_mem _ h1)), fun h => this.2 ?_⟩
      rcases List.mem_cons.1 h with h1 | h1
      · exact absurd h1 hne
      · exact h1
    | some w =>
      rw [notifyList_cons_some e path deleted l curr next wh w hc]
      have hlt : curr < wh.heap.length := (List.getElem?_eq_some.1 hc).1
      -- the state after the visit of `curr`
      obtain ⟨t, ht, hth, hte⟩ : ∃ t : watcherHub,
          t = (if (w.notify e (decide (e.Key = path)) deleted).2 && !w.stream then
            ({ wh with heap := wh.heap.set curr (w.notify e (decide (e.Key = path)) deleted).1 } :
              watcherHub).unlink l curr
            else { wh with heap := wh.heap.set curr (w.notify e (decide (e.Key = path)) deleted).1 }) ∧
          t.heap = wh.heap.set curr (w.notify e (decide (e.Key = path)) deleted).1 ∧
          t.elems l = (if (w.notify e (decide (e.Key = path)) deleted).2 && !w.stream then
            (wh.elems l).erase curr else wh.elems l) := by
        refine ⟨_, rfl, ?_, ?_⟩
        · split <;> rfl
        · split
          · rw [elems_unlink, if_pos rfl]; rfl
          · rfl
      rw [← ht]
      have htl : (t.elems l).Nodup := by
        rw [hte]; split
        · exact hl.erase _
        · exact hl
      by_cases hxc : x = curr
      · subst hxc
        have ho : obj = w := by rw [hc] at hx; exact (Option.some.inj hx).symm
        subst ho
        have hxt : t.heap[x]? = some (obj.notify e (decide (e.Key = path)) deleted).1 := by
          rw [hth, List.getElem?_set]; simp [hlt]
        have := (ih t hnd1 htl _ hxt).1 hcn
        refine ⟨fun h => absurd (List.mem_cons_self _ _) h, fun _ => ⟨this.1, ?_⟩⟩
        rw [this.2, hte]
        by_cases hcond : ((obj.notify e (decide (e.Key = path)) deleted).2 && !obj.stream) = true
        · rw [if_pos hcond]
          have h1 : x ∉ (wh.elems l).erase x := fun h => ((hl.mem_erase_iff).1 h).1 rfl
          simp only [Bool.and_eq_true, Bool.not_eq_true'] at hcond
          constructor
          · intro h; exact absurd h h1
          · intro h; exact absurd hcond h.2
        · rw [if_neg hcond]
          simp only [Bool.and_eq_true, Bool.not_eq_true'] at hcond
          exact ⟨fun h => ⟨h, hcond⟩, fun h => h.1⟩
      · have hxt : t.heap[x]? = some obj := by
          rw [hth, List.getElem?_set, if_neg (Ne.symm hxc)]; exact hx
        have hmem : x ∈ t.elems l ↔ x ∈ wh.elems l := by
          rw [hte]; split
          · exact List.mem_erase_of_ne hxc
          · exact Iff.rfl
        have := ih t hnd1 htl obj hxt
        constructor
        · intro h
          have h1 := this.1 (fun h1 => h (List.mem_cons_of_mem _ h1))
          exact ⟨h1.1, h1.2.trans hmem⟩
        · intro h
          have hn : x ∈ next := by
            rcases List.mem_cons.1 h with h1 | h1
            · exact absurd h1 hxc
            · exact h1
          have h1 := this.2 hn
          refine ⟨h1.1, h1.2.trans ?_⟩
          rw [hmem]

theorem heap_deletePath (wh : watcherHub) (k : String) : (wh.deletePath k).heap = wh.heap := rfl

/-- One call of `notifyWatchers` and one watcher `x`, in a hub of the invariant
shape: if `x` is in the list registered at `path`, its object goes through
`Watcher.notify` once, and `x` leaves that list exactly when the delivery is
accepted and `x` is not a stream watcher; otherwise its object and its place
are untouched. -/
theorem notifyWatchers_effect {wh : watcherHub} (hs : Inv wh) (e : Event) (path : String)
    (deleted : Bool) (x : Nat) (obj : Watcher) (hx : wh.heap[x]? = some obj) :
    (wh.registered x path →
      (wh.notifyWatchers e path deleted).heap[x]? =
        some (obj.notify e (decide (e.Key = path)) deleted).1 ∧
      ((wh.notifyWatchers e path deleted).listed x ↔
        ¬ ((obj.notify e (decide (e.Key = path)) deleted).2 = true ∧ obj.stream = false))) ∧
    (¬ wh.registered x path →
      (wh.notifyWatchers e path deleted).heap[x]? = some obj ∧
      ((wh.notifyWatchers e path deleted).listed x ↔ wh.listed x)) := by
  have hfinal : ∀ (t : watcherHub) (l : Nat),
      ((if (t.elems l).length = 0 then t.deletePath path else t).heap = t.heap) ∧
      (∀ l1, (if (t.elems l).length = 0 then t.deletePath path else t).elems l1 = t.elems l1) := by
    intro t l
    split
    · exact ⟨rfl, fun _ => rfl⟩
    · exact ⟨rfl, fun _ => rfl⟩
  cases hl : wh.lookup path with
  | none =>
    have hsame : wh.notifyWatchers e path deleted = wh := by
      unfold watcherHub.notifyWatchers; simp only [hl]
    rw [hsame]
    refine ⟨fun ⟨l, h1, _⟩ => ?_, fun _ => ⟨hx, Iff.rfl⟩⟩
    rw [hl] at h1; exact absurd h1 (by simp)
  | some l =>
    have hdef : wh.notifyWatchers e path deleted =
        (if ((watcherHub.notifyList e path deleted l (wh.elems l) wh).elems l).length = 0 then
          (watcherHub.notifyList e path deleted l (wh.elems l) wh).deletePath path
        else watcherHub.notifyList e path deleted l (wh.elems l) wh) := by
      unfold watcherHub.notifyWatchers; simp only [hl]
    have hF := hfinal (watcherHub.notifyList e path deleted l (wh.elems l) wh) l
    have hE := notifyList_effect e path deleted l (wh.elems l) wh (hs.nodup l) (hs.nodup l)
      x obj hx
    have hother : ∀ l1, l1 ≠ l → (wh.notifyWatchers e path deleted).elems l1 = wh.elems l1 := by
      intro l1 h1
      rw [hdef, hF.2, notifyList_elems_other _ _ _ _ _ _ _ h1]
    constructor
    · rintro ⟨l0, h0, hm⟩
      rw [hl] at h0
      have e0 : l = l0 := Option.some.inj h0
      subst e0
      have := hE.2 hm
      rw [hdef, hF.1]
      refine ⟨this.1, ?_⟩
      constructor
      · rintro ⟨l1, h1⟩
        by_cases e1 : l1 = l
        · subst e1
          rw [hF.2, this.2] at h1
          exact h1.2
        · rw [← hdef, hother l1 e1] at h1
          obtain ⟨k1, hk1⟩ := hs.owned l1 x h1
          obtain ⟨k2, hk2⟩ := hs.owned l x hm
          rw [hk1] at hk2
          exact absurd (by simpa using hk2 : k1 = k2 ∧ l1 = l).2 e1
      · intro h
        exact ⟨l, by rw [hF.2, this.2]; exact ⟨hm, h⟩⟩
    · intro hnr
      have hm : x ∉ wh.elems l := fun h => hnr ⟨l, hl, h⟩
      have := hE.1 hm
      rw [hdef, hF.1]
      refine ⟨this.1, ?_⟩
      constructor
      · rintro ⟨l1, h1⟩
        by_cases e1 : l1 = l
        · subst e1
          rw [hF.2, this.2] at h1
          exact absurd h1 hm
        · rw [← hdef, hother l1 e1] at h1
          exact ⟨l1, h1⟩
      · rintro ⟨l1, h1⟩
        by_cases e1 : l1 = l
        · subst e1; exact absurd h1 hm
        · refine ⟨l1, ?_⟩
          rw [← hdef, hother l1 e1]; exact h1

/-! ## C2: one-shot delivery -/

theorem Shrinks.not_listed {s t : watcherHub} (h : Shrinks s t) {x : Nat}
    (hx : ¬ s.listed x) : ¬ t.listed x :=
  fun ⟨l, hl⟩ => hx ⟨l, (h.sub l).subset hl⟩

theorem Shrinks.heap_none {s t : watcherHub} (h : Shrinks s t) {x : Nat}
    (hx : s.heap[x]? = none) : t.heap[x]? = none := by
  have := h.fixed x
  rw [hx] at this
  simpa using this

theorem registered_listed {wh : watcherHub} {x : Nat} {k : String}
    (h : wh.registered x k) : wh.listed x :=
  let ⟨l, _, hm⟩ := h
  ⟨l, hm⟩

theorem unlisted_notifyWatchers {wh : watcherHub} (hs : Inv wh) {x : Nat}
    (hx : ¬ wh.listed x) (e : Event) (path : String) (deleted : Bool) :
    (wh.notifyWatchers e path deleted).heap[x]? = wh.heap[x]? := by
  cases ho : wh.heap[x]? with
  | none => exact (notifyWatchers_shrinks wh e path deleted).heap_none ho
  | some obj =>
    exact ((notifyWatchers_effect hs e path deleted x obj ho).2
      (fun h => hx (registered_listed h))).1

theorem unlisted_foldl {wh : watcherHub} (hs : Inv wh) {x : Nat} (hx : ¬ wh.listed x)
    (e : Event) (paths : List String) :
    (paths.foldl (fun h p => h.notifyWatchers e p false) wh).heap[x]? = wh.heap[x]? := by
  induction paths generalizing wh with
  | nil => rfl
  | cons p paths ih =>
    rw [List.foldl_cons, ih (hs.notifyWatchers e p false)
      ((notifyWatchers_shrinks wh e p false).not_listed hx)]
    exact unlisted_notifyWatchers hs hx e p false

theorem unlisted_notify {wh : watcherHub} (hs : Inv wh) {x : Nat} (hx : ¬ wh.listed x)
    (e : Event) : (wh.notify e).heap[x]? = wh.heap[x]? := by
  rw [notify_eq_foldl]
  exact unlisted_foldl (hs.setHistory (wh.EventHistory.addEvent e).1) hx e _

theorem Watcher.notify_rejected (w : Watcher) (e : Event) (x d : Bool)
    (h : (w.notify e x d).2 = false) : (w.notify e x d).1 = w := by
  unfold Watcher.notify at h ⊢
  split
  · next hc =>
    rw [if_pos hc] at h
    split
    · next hn => rw [hn] at h; exact absurd h (by simp)
    · rfl
  · rfl

theorem Watcher.notify_accepted (w : Watcher) (e : Event) (x d : Bool)
    (h : (w.notify e x d).2 = true) : (w.notify e x d).1.EventChan = some (.event e) := by
  unfold Watcher.notify at h ⊢
  split
  · next hc =>
    rw [if_pos hc] at h
    split
    · rfl
    · next m hm => rw [hm] at h; exact absurd h (by simp)
  · next hc => rw [if_neg hc] at h; exact absurd h (by simp)

theorem chan_of_heap {a b : watcherHub} {x : Nat} (h : a.heap[x]? = b.heap[x]?) :
    a.chan x = b.chan x := by
  unfold watcherHub.chan; rw [h]

/-- Along the passes of one `notify`, a one-shot watcher either still has its
object untouched, or has received the event and left every list. -/
theorem one_shot_foldl {wh : watcherHub} (hs : Inv wh) (e : Event) (x : Nat) (obj : Watcher)
    (hns : obj.stream = false)
    (hq : (¬ wh.listed x ∧ wh.chan x = some (.event e)) ∨ wh.heap[x]? = some obj)
    (paths : List String) :
    (¬ (paths.foldl (fun h p => h.notifyWatchers e p false) wh).listed x ∧
      (paths.foldl (fun h p => h.notifyWatchers e p false) wh).chan x = some (.event e)) ∨
    (paths.foldl (fun h p => h.notifyWatchers e p false) wh).heap[x]? = some obj := by
  induction paths generalizing wh with
  | nil => exact hq
  | cons p paths ih =>
    rw [List.foldl_cons]
    apply ih (hs.notifyWatchers e p false)
    rcases hq with ⟨hu, hc⟩ | ho
    · left
      refine ⟨(notifyWatchers_shrinks wh e p false).not_listed hu, ?_⟩
      rw [chan_of_heap (unlisted_notifyWatchers hs hu e p false)]; exact hc
    · have hE := notifyWatchers_effect hs e p false x obj ho
      by_cases hreg : wh.registered x p
      · have := hE.1 hreg
        cases hok : (obj.notify e (decide (e.Key = p)) false).2 with
        | true =>
          left
          refine ⟨fun h => (this.2.1 h) ⟨hok, hns⟩, ?_⟩
          unfold watcherHub.chan
          rw [this.1]
          exact Watcher.notify_accepted obj e _ _ hok
        | false =>
          right
          rw [this.1, Watcher.notify_rejected obj e _ _ hok]
      · right
        exact (hE.2 hreg).1

theorem watch_heap_le (wh : watcherHub) (key : String) (recursive stream : Bool) (index : Nat) :
    wh.heap.length ≤ (wh.watch key recursive stream index).1.heap.length := by
  unfold watcherHub.watch
  split
  · exact Nat.le_refl _
  · simp only []
    split
    · simp
    · split
      · simp
      · split
        · exact Nat.le_refl _
        · simp

theorem watch_listed {wh : watcherHub} (hs : Inv wh) (key : String) (recursive stream : Bool)
    (index : Nat) (x : Nat) (h : (wh.watch key recursive stream index).1.listed x) :
    wh.listed x ∨ x = wh.heap.length := by
  cases hsc : wh.EventHistory.scan key recursive index with
  | error err =>
    rw [watch_error wh key recursive stream index err hsc] at h; exact Or.inl h
  | ok events =>
    by_cases hne : events = []
    · subst hne
      cases hl : wh.lookup key with
      | some l =>
        rw [watch_back wh key recursive stream index l hsc hl] at h
        have hlt : l < wh.lists.length := elems_lt (hs.mapped key l hl).1
        obtain ⟨l1, h1⟩ := h
        rw [elems_set _ wh l (wh.elems l ++ [wh.heap.length]) hlt rfl l1] at h1
        split at h1
        · next e1 =>
          rcases List.mem_append.1 h1 with h2 | h2
          · exact Or.inl ⟨l, h2⟩
          · exact Or.inr (List.mem_singleton.1 h2)
        · exact Or.inl ⟨l1, h1⟩
      | none =>
        cases hm : wh.watchers with
        | none => exact absurd hm hs.alloc
        | some m =>
          rw [watch_new wh key recursive stream index m hsc hm hl] at h
          obtain ⟨l1, h1⟩ := h
          rw [elems_push _ wh [wh.heap.length] rfl l1] at h1
          split at h1
          · exact Or.inr (List.mem_singleton.1 h1)
          · exact Or.inl ⟨l1, h1⟩
    · rw [watch_batch wh key recursive stream index events hsc hne] at h
      exact Or.inl h

/-- A watcher that is in no list stays in no list, whatever is called. -/
theorem unlisted_apply {wh : watcherHub} (hs : Inv wh) {x : Nat} (hlt : x < wh.heap.length)
    (hx : ¬ wh.listed x) (op : Op) :
    x < (wh.apply op).heap.length ∧ ¬ (wh.apply op).listed x := by
  have of_shrinks : ∀ t, Shrinks wh t → x < t.heap.length ∧ ¬ t.listed x :=
    fun t h => ⟨by rw [h.heapLen]; exact hlt, h.not_listed hx⟩
  cases op with
  | watch key recursive stream index =>
    refine ⟨Nat.lt_of_lt_of_le hlt (watch_heap_le wh key recursive stream index), fun h => ?_⟩
    rcases watch_listed hs key recursive stream index x h with h1 | h1
    · exact hx h1
    · exact absurd h1 (Nat.ne_of_lt hlt)
  | notify e => exact of_shrinks _ (notify_shrinks wh e)
  | detach w =>
    simp only [watcherHub.apply]
    cases h : wh.remove w with
    | none => exact ⟨hlt, hx⟩
    | some t => exact of_shrinks _ (remove_shrinks h)
  | receive w => exact of_shrinks _ (receive_shrinks wh w)

theorem unlisted_run {wh : watcherHub} (hs : Inv wh) {x : Nat} (hlt : x < wh.heap.length)
    (hx : ¬ wh.listed x) (ops : List Op) :
    x < (wh.run ops).heap.length ∧ ¬ (wh.run ops).listed x := by
  induction ops generalizing wh with
  | nil => exact ⟨hlt, hx⟩
  | cons op ops ih =>
    have h1 := unlisted_apply hs hlt hx op
    exact ih (hs.apply op) h1.1 h1.2

/-- C2: in every reachable hub state, when a `notify` call puts an event into
the channel of a watcher that is not a stream watcher, the channel holds that
event, the watcher is in no list after the call, it is in no list after any
further sequence of calls, and no later `notify` changes its channel. -/
theorem one_shot_delivery (s : watcherHub) (hr : Reachable s) (w : Nat) (obj : Watcher)
    (hw : s.heap[w]? = some obj) (hns : obj.stream = false) (e : Event)
    (hdel : (s.notify e).chan w ≠ s.chan w) :
    (s.notify e).chan w = some (.event e) ∧
    ¬ (s.notify e).listed w ∧
    ∀ (ops : List Op) (e1 : Event),
      ¬ ((s.notify e).run ops).listed w ∧
      (((s.notify e).run ops).notify e1).chan w = ((s.notify e).run ops).chan w := by
  have hs := hr.inv
  have hq := one_shot_foldl (hs.setHistory (s.EventHistory.addEvent e).1) e w obj hns
    (Or.inr hw) (walkPaths "/" (splitPath e.Key))
  rw [← notify_eq_foldl] at hq
  have hdone : ¬ (s.notify e).listed w ∧ (s.notify e).chan w = some (.event e) := by
    rcases hq with h | h
    · exact h
    · exact absurd (chan_of_heap (h.trans hw.symm)) hdel
  have hlt : w < (s.notify e).heap.length := by
    rw [(notify_shrinks s e).heapLen]; exact (List.getElem?_eq_some.1 hw).1
  refine ⟨hdone.2, hdone.1, fun ops e1 => ?_⟩
  have h1 := unlisted_run (hs.notify e) hlt hdone.1 ops
  exact ⟨h1.2, chan_of_heap (unlisted_notify ((hs.notify e).run ops) h1.2 e1)⟩

theorem one_shot_delivery_witness :
    (Reachable ((newWatchHub 4).run [.watch "/foo" false false 0]) ∧
      ((newWatchHub 4).run [.watch "/foo" false false 0]).heap[0]? =
        some ⟨none, false, false, 0, false, some ("/foo", 0)⟩ ∧
      (⟨none, false, false, 0, false, some ("/foo", 0)⟩ : Watcher).stream = false ∧
      (((newWatchHub 4).run [.watch "/foo" false false 0]).notify
          (newEvent .Create "/foo" 1 1)).chan 0 ≠
        ((newWatchHub 4).run [.watch "/foo" false false 0]).chan 0) ∧
    ((((newWatchHub 4).run [.watch "/foo" false false 0]).notify
        (newEvent .Create "/foo" 1 1)).chan 0 = some (.event (newEvent .Create "/foo" 1 1)) ∧
      ¬ (((newWatchHub 4).run [.watch "/foo" false false 0]).notify
        (newEvent .Create "/foo" 1 1)).listed 0 ∧
      ∀ (ops : List Op) (e1 : Event),
        ¬ ((((newWatchHub 4).run [.watch "/foo" false false 0]).notify
          (newEvent .Create "/foo" 1 1)).run ops).listed 0 ∧
        (((((newWatchHub 4).run [.watch "/foo" false false 0]).notify
          (newEvent .Create "/foo" 1 1)).run ops).notify e1).chan 0 =
          ((((newWatchHub 4).run [.watch "/foo" false false 0]).notify
            (newEvent .Create "/foo" 1 1)).run ops).chan 0) :=
  ⟨⟨⟨4, [.watch "/foo" false false 0], rfl⟩, by decide, rfl, by decide⟩,
    one_shot_delivery ((newWatchHub 4).run [.watch "/foo" false false 0])
      ⟨4, [.watch "/foo" false false 0], rfl⟩ 0 ⟨none, false, false, 0, false, some ("/foo", 0)⟩
      (by decide) rfl (newEvent .Create "/foo" 1 1) (by decide)⟩

/-! ## Clean keys and the paths visited by `notify` -/

theorem walkPaths_clean (segs : List (List Char)) (hne : segs ≠ [])
    (hg : ∀ s ∈ segs, goodSegment s) :
    walkPaths "/" (splitPath (absPath segs)) = segs.inits.map absPath := by
  rw [splitPath_absPath segs hne (fun t ht => (hg t ht).2.1), walkPaths, joinPath_root_empty]
  have h := walkPaths_absPath segs [] hg (by simp)
  have hi : segs.inits = [] :: segs.inits.tail := by
    cases segs <;> simp
  have hroot : absPath [] = "/" := rfl
  rw [hroot] at h
  rw [h]
  nth_rewrite 2 [hi]
  simp [hroot]

theorem keySegments_absPath (segs : List (List Char)) (hg : ∀ s ∈ segs, goodSegment s) :
    keySegments (absPath segs) = segs := by
  cases segs with
  | nil => decide
  | cons s segs =>
    have h1 : splitSlash (absChars (s :: segs)) = [] :: s :: segs := by
      simp only [absChars, tailChars, splitSlash, if_true,
        splitSlash_tailChars s segs (fun t ht => (hg t ht).2.1)]
    simp only [keySegments, absPath, h1, List.drop_succ_cons, List.drop_zero]
    exact List.filter_eq_self.2 (fun a ha => by simpa using (hg a ha).1)

theorem absPath_inj (a b : List (List Char)) (ha : ∀ s ∈ a, goodSegment s)
    (hb : ∀ s ∈ b, goodSegment s) (h : absPath a = absPath b) : a = b := by
  rw [← keySegments_absPath a ha, ← keySegments_absPath b hb, h]

theorem cleanKey_absPath (segs : List (List Char)) (hg : ∀ s ∈ segs, goodSegment s) :
    cleanKey (absPath segs) := by
  unfold cleanKey
  rw [keySegments_absPath segs hg]
  exact ⟨rfl, hg⟩

/-- For clean keys, `notify` of an event at `ekey` visits `key` exactly when
the segments of `key` are a leading part of the segments of `ekey`. -/
theorem mem_walkPaths_clean (key ekey : String) (hk : cleanKey key) (he : cleanKey ekey) :
    key ∈ walkPaths "/" (splitPath ekey) ↔ keySegments key <+: keySegments ekey := by
  obtain ⟨hk1, hk2⟩ := hk
  obtain ⟨he1, he2⟩ := he
  by_cases hne : keySegments ekey = []
  · have e1 : ekey = "/" := by rw [he1, hne]; rfl
    have hw : walkPaths "/" (splitPath "/") = ["/", "/"] := by decide
    rw [hne, List.prefix_nil]
    nth_rewrite 1 [e1]
    rw [hw]
    constructor
    · intro h
      have h1 : key = "/" := by simpa using h
      have h2 : absPath (keySegments key) = absPath [] := by rw [← hk1, h1]; rfl
      exact absPath_inj _ _ hk2 (by simp) h2
    · intro h
      have h1 : key = "/" := by rw [hk1, h]; rfl
      simp [h1]
  · nth_rewrite 1 [he1]
    rw [walkPaths_clean _ hne he2, List.mem_map]
    constructor
    · rintro ⟨p, hp, hpk⟩
      have hpre : p <+: keySegments ekey := (List.mem_inits _ _).1 hp
      have hpg : ∀ s ∈ p, goodSegment s := fun s hs => he2 s (hpre.subset hs)
      have : p = keySegments key := absPath_inj _ _ hpg hk2 (by rw [hpk, ← hk1])
      rw [← this]; exact hpre
    · intro h
      exact ⟨keySegments key, (List.mem_inits _ _).2 h, hk1.symm⟩

theorem subscribed_iff (key : String) (recursive : Bool) (sinceIndex : Nat) (e : Event)
    (hk : cleanKey key) (he : cleanKey e.Key) :
    subscribed key recursive sinceIndex e = true ↔
      (key ∈ walkPaths "/" (splitPath e.Key) ∧
        ((recursive || decide (e.Key = key)) && decide (sinceIndex ≤ e.Index)) = true) := by
  rw [mem_walkPaths_clean key e.Key hk he]
  unfold subscribed
  simp only [Bool.and_eq_true, Bool.or_eq_true, decide_eq_true_eq, List.isPrefixOf_iff_prefix]
  constructor
  · rintro ⟨h1, h2 | ⟨h2, h3⟩⟩
    · exact ⟨by rw [h2], Or.inr h2, h1⟩
    · exact ⟨h3, Or.inl h2, h1⟩
  · rintro ⟨h1, h2 | h2, h3⟩
    · exact ⟨h3, Or.inr ⟨h2, h1⟩⟩
    · exact ⟨h3, Or.inl h2⟩

/-! ## C3: stream watchers -/

theorem notifyWatchers_lookup (wh : watcherHub) (e : Event) (p : String) (d : Bool)
    (k : String) :
    (wh.notifyWatchers e p d).lookup k = wh.lookup k ∨
    (k = p ∧ ∃ l0, wh.lookup p = some l0 ∧ (wh.notifyWatchers e p d).elems l0 = []) := by
  unfold watcherHub.notifyWatchers
  split
  · exact Or.inl rfl
  · next l0 hl0 =>
    simp only []
    split
    · next hz =>
      by_cases hk : k = p
      · exact Or.inr ⟨hk, l0, hl0, by rw [elems_deletePath]; exact List.length_eq_zero.1 hz⟩
      · left
        rw [lookup_deletePath, if_neg hk, notifyList_lookup]
    · exact Or.inl (notifyList_lookup _ _ _ _ _ _ _)

theorem Watcher.offered_offered (obj : Watcher) (e : Event) (key : String) :
    (obj.offered e key).offered e key = obj.offered e key := by
  unfold Watcher.offered Watcher.notify
  split
  · next hc =>
    cases hch : obj.EventChan with
    | none => simp [hc]
    | some m => simp [hc, hch]
  · next hc => simp [hc]

theorem Watcher.offered_fixed (obj : Watcher) (e : Event) (key : String) :
    (obj.offered e key).fixed = obj.fixed :=
  Watcher.notify_fixed obj e _ _

theorem Watcher.offered_chan (obj : Watcher) (e : Event) (key : String) :
    (obj.offered e key).EventChan =
      if ((obj.recursive || decide (e.Key = key)) && decide (obj.sinceIndex ≤ e.Index)) = true then
        (match obj.EventChan with
          | none => some (.event e)
          | some m => some m)
      else obj.EventChan := by
  unfold Watcher.offered Watcher.notify
  simp only [Bool.or_false]
  split
  · split <;> simp_all
  · rfl

/-- A stream watcher registered at `key` keeps its place through one call of
`notifyWatchers`, and is offered the event exactly when the call is at
`key`. -/
theorem stream_notifyWatchers {wh : watcherHub} (hs : Inv wh) (e : Event) (p : String)
    (w : Nat) (key : String) (l : Nat) (obj : Watcher)
    (hl : wh.lookup key = some l) (hm : w ∈ wh.elems l) (ho : wh.heap[w]? = some obj)
    (hst : obj.stream = true) :
    (wh.notifyWatchers e p false).lookup key = some l ∧
    w ∈ (wh.notifyWatchers e p false).elems l ∧
    (wh.notifyWatchers e p false).heap[w]? =
      some (if p = key then obj.offered e key else obj) := by
  have hcl : wh.closure w = some (key, l) := (hs.mapped key l hl).2 w hm
  have hE := notifyWatchers_effect hs e p false w obj ho
  have hsh := notifyWatchers_shrinks wh e p false
  have hreg_iff : wh.registered w p ↔ p = key := by
    constructor
    · rintro ⟨l1, h1, h2⟩
      have := ((hs.mapped p l1 h1).2 w h2).symm.trans hcl
      exact (by simpa using this : p = key ∧ l1 = l).1
    · intro h; rw [h]; exact ⟨l, hl, hm⟩
  have hlisted : (wh.notifyWatchers e p false).listed w := by
    by_cases hreg : wh.registered w p
    · exact (hE.1 hreg).2.2 (fun h => by rw [hst] at h; exact absurd h.2 (by simp))
    · exact (hE.2 hreg).2.2 ⟨l, hm⟩
  have hmem : w ∈ (wh.notifyWatchers e p false).elems l := by
    obtain ⟨l1, h1⟩ := hlisted
    obtain ⟨k1, hk1⟩ := hs.owned l1 w ((hsh.sub l1).subset h1)
    rw [hcl] at hk1
    have : l = l1 := (by simpa using hk1 : key = k1 ∧ l = l1).2
    rw [this]; exact h1
  refine ⟨?_, hmem, ?_⟩
  · rcases notifyWatchers_lookup wh e p false key with h | ⟨hk, l0, h0, hz⟩
    · rw [h]; exact hl
    · rw [← hk, hl] at h0
      have : l = l0 := Option.some.inj h0
      rw [← this] at hz
      rw [hz] at hmem
      exact absurd hmem (List.not_mem_nil _)
  · by_cases hreg : wh.registered w p
    · have hp := hreg_iff.1 hreg
      rw [(hE.1 hreg).1, if_pos hp, hp]; rfl
    · have hp : ¬ p = key := fun h => hreg (hreg_iff.2 h)
      rw [(hE.2 hreg).1, if_neg hp]

theorem stream_foldl {wh : watcherHub} (hs : Inv wh) (e : Event) (paths : List String)
    (w : Nat) (key : String) (l : Nat) (obj : Watcher)
    (hl : wh.lookup key = some l) (hm : w ∈ wh.elems l) (ho : wh.heap[w]? = some obj)
    (hst : obj.stream = true) :
    (paths.foldl (fun h p => h.notifyWatchers e p false) wh).lookup key = some l ∧
    w ∈ (paths.foldl (fun h p => h.notifyWatchers e p false) wh).elems l ∧
    (paths.foldl (fun h p => h.notifyWatchers e p false) wh).heap[w]? =
      some (if key ∈ paths then obj.offered e key else obj) := by
  induction paths generalizing wh obj with
  | nil => exact ⟨hl, hm, by simpa using ho⟩
  | cons p paths ih =>
    obtain ⟨h1, h2, h3⟩ := stream_notifyWatchers hs e p w key l obj hl hm ho hst
    rw [List.foldl_cons]
    by_cases hp : p = key
    · rw [if_pos hp] at h3
      have hst1 : (obj.offered e key).stream = true := by
        have := Watcher.offered_fixed obj e key
        simp only [Watcher.fixed, Prod.mk.injEq] at this
        rw [this.2.1]; exact hst
      obtain ⟨g1, g2, g3⟩ := ih (hs.notifyWatchers e p false) (obj.offered e key) h1 h2 h3 hst1
      refine ⟨g1, g2, ?_⟩
      rw [g3, Watcher.offered_offered]
      simp [hp]
    · rw [if_neg hp] at h3
      obtain ⟨g1, g2, g3⟩ := ih (hs.notifyWatchers e p false) obj h1 h2 h3 hst
      refine ⟨g1, g2, ?_⟩
      rw [g3]
      have : (key ∈ p :: paths) ↔ key ∈ paths := by
        simp [List.mem_cons, Ne.symm hp]
      by_cases hk : key ∈ paths
      · rw [if_pos hk, if_pos (this.2 hk)]
      · rw [if_neg hk, if_neg (fun h => hk (this.1 h))]

theorem stream_notify {wh : watcherHub} (hs : Inv wh) (e : Event)
    (w : Nat) (key : String) (l : Nat) (obj : Watcher)
    (hl : wh.lookup key = some l) (hm : w ∈ wh.elems l) (ho : wh.heap[w]? = some obj)
    (hst : obj.stream = true) :
    (wh.notify e).lookup key = some l ∧ w ∈ (wh.notify e).elems l ∧
    (wh.notify e).heap[w]? =
      some (if key ∈ walkPaths "/" (splitPath e.Key) then obj.offered e key else obj) := by
  rw [notify_eq_foldl]
  exact stream_foldl (hs.setHistory (wh.EventHistory.addEvent e).1) e _ w key l obj hl hm ho hst

theorem watch_keeps {wh : watcherHub} (hs : Inv wh) (key0 : String) (recursive stream : Bool)
    (index : Nat) (w : Nat) (key : String) (l : Nat)
    (hl : wh.lookup key = some l) (hm : w ∈ wh.elems l) :
    (wh.watch key0 recursive stream index).1.lookup key = some l ∧
    w ∈ (wh.watch key0 recursive stream index).1.elems l ∧
    (wh.watch key0 recursive stream index).1.heap[w]? = wh.heap[w]? := by
  have hwlt : w < wh.heap.length := hs.mem_lt hm
  have hllt : l < wh.lists.length := elems_lt (hs.mapped key l hl).1
  cases hsc : wh.EventHistory.scan key0 recursive index with
  | error err =>
    rw [watch_error wh key0 recursive stream index err hsc]; exact ⟨hl, hm, rfl⟩
  | ok events =>
    by_cases hne : events = []
    · subst hne
      cases hl0 : wh.lookup key0 with
      | some l0 =>
        rw [watch_back wh key0 recursive stream index l0 hsc hl0]
        have hlt : l0 < wh.lists.length := elems_lt (hs.mapped key0 l0 hl0).1
        refine ⟨hl, ?_, List.getElem?_append_left hwlt⟩
        rw [elems_set _ wh l0 (wh.elems l0 ++ [wh.heap.length]) hlt rfl l]
        split
        · next e1 => rw [← e1]; exact List.mem_append_left _ hm
        · exact hm
      | none =>
        cases hmm : wh.watchers with
        | none => exact absurd hmm hs.alloc
        | some m =>
          rw [watch_new wh key0 recursive stream index m hsc hmm hl0]
          have hk : key0 ≠ key := fun h => by rw [h, hl] at hl0; exact absurd hl0 (by simp)
          refine ⟨?_, ?_, List.getElem?_append_left hwlt⟩
          · show mapGet (mapSet m key0 wh.lists.length) key = some l
            rw [mapGet_mapSet, if_neg hk]
            have : wh.lookup key = mapGet m key := by unfold watcherHub.lookup; rw [hmm]
            rw [← this]; exact hl
          · rw [elems_push _ wh [wh.heap.length] rfl l, if_neg (Nat.ne_of_lt hllt)]
            exact hm
    · rw [watch_batch wh key0 recursive stream index events hsc hne]
      exact ⟨hl, hm, List.getElem?_append_left hwlt⟩

theorem StreamAt.after_notify {t : watcherHub} {w : Nat} {key : String} {recursive : Bool}
    {index l : Nat} (h : StreamAt t w key recursive index l) (e : Event) :
    StreamAt (t.notify e) w key recursive index l := by
  obtain ⟨obj, ho, hf⟩ := h.obj
  have hst : obj.stream = true := by
    simp only [Watcher.fixed, Prod.mk.injEq] at hf; exact hf.2.1
  obtain ⟨h1, h2, h3⟩ := stream_notify h.inv e w key l obj h.look h.mem ho hst
  refine ⟨h.inv.notify e, h1, h2, _, h3, ?_⟩
  split
  · rw [Watcher.offered_fixed]; exact hf
  · exact hf

theorem StreamAt.after_receive {t : watcherHub} {w : Nat} {key : String} {recursive : Bool}
    {index l : Nat} (h : StreamAt t w key recursive index l) (x : Nat) :
    StreamAt (t.receive x) w key recursive index l := by
  obtain ⟨obj, ho, hf⟩ := h.obj
  have hlk : (t.receive x).lookup key = t.lookup key := by
    unfold watcherHub.receive; split <;> rfl
  have hel : (t.receive x).elems l = t.elems l := by
    unfold watcherHub.receive; split <;> rfl
  refine ⟨h.inv.receive x, hlk.trans h.look, by rw [hel]; exact h.mem, ?_⟩
  unfold watcherHub.receive
  cases hx : t.heap[x]? with
  | none => exact ⟨obj, ho, hf⟩
  | some ox =>
    by_cases hxw : x = w
    · subst hxw
      have e1 : ox = obj := by rw [ho] at hx; exact (Option.some.inj hx).symm
      subst e1
      have hlt : x < t.heap.length := (List.getElem?_eq_some.1 ho).1
      refine ⟨{ ox with EventChan := none }, ?_, hf⟩
      simp only [List.getElem?_set]
      simp [hlt]
    · refine ⟨obj, ?_, hf⟩
      simp only [List.getElem?_set, if_neg hxw]
      exact ho

theorem StreamAt.after_watch {t : watcherHub} {w : Nat} {key : String} {recursive : Bool}
    {index l : Nat} (h : StreamAt t w key recursive index l) (key0 : String)
    (recursive0 stream0 : Bool) (index0 : Nat) :
    StreamAt (t.watch key0 recursive0 stream0 index0).1 w key recursive index l := by
  obtain ⟨obj, ho, hf⟩ := h.obj
  obtain ⟨h1, h2, h3⟩ := watch_keeps h.inv key0 recursive0 stream0 index0 w key l h.look h.mem
  exact ⟨h.inv.watch key0 recursive0 stream0 index0, h1, h2, obj, h3.trans ho, hf⟩

theorem StreamAt.after_run {t : watcherHub} {w : Nat} {key : String} {recursive : Bool}
    {index l : Nat} (h : StreamAt t w key recursive index l) (ops : List Op)
    (hops : ∀ op ∈ ops, op.isDetach = false) :
    StreamAt (t.run ops) w key recursive index l := by
  induction ops generalizing t with
  | nil => exact h
  | cons op ops ih =>
    have hrest : ∀ op1 ∈ ops, op1.isDetach = false := fun op1 h1 =>
      hops op1 (List.mem_cons_of_mem _ h1)
    have hop := hops op (List.mem_cons_self _ _)
    show StreamAt ((t.apply op).run ops) w key recursive index l
    cases op with
    | watch key0 recursive0 stream0 index0 =>
      exact ih (h.after_watch key0 recursive0 stream0 index0) hrest
    | notify e => exact ih (h.after_notify e) hrest
    | detach x => exact absurd hop (by simp [Op.isDetach])
    | receive x => exact ih (h.after_receive x) hrest

theorem StreamAt.chan_notify {t : watcherHub} {w : Nat} {key : String} {recursive : Bool}
    {index l : Nat} (h : StreamAt t w key recursive index l) (hk : cleanKey key)
    (e : Event) (he : cleanKey e.Key) :
    (t.notify e).chan w =
      if subscribed key recursive index e = true then
        (match t.chan w with
          | none => some (.event e)
          | some m => some m)
      else t.chan w := by
  obtain ⟨obj, ho, hf⟩ := h.obj
  simp only [Watcher.fixed, Prod.mk.injEq] at hf
  obtain ⟨hrec, hst, hidx, -⟩ := hf
  obtain ⟨-, -, h3⟩ := stream_notify h.inv e w key l obj h.look h.mem ho hst
  have hc0 : t.chan w = obj.EventChan := by unfold watcherHub.chan; rw [ho]
  have hsub := subscribed_iff key recursive index e hk he
  unfold watcherHub.chan
  rw [h3, ← watcherHub.chan, hc0]
  simp only []
  by_cases hmem : key ∈ walkPaths "/" (splitPath e.Key)
  · rw [if_pos hmem, Watcher.offered_chan, hrec, hidx]
    by_cases hcond : ((recursive || decide (e.Key = key)) && decide (index ≤ e.Index)) = true
    · rw [if_pos hcond, if_pos (hsub.2 ⟨hmem, hcond⟩)]
    · rw [if_neg hcond, if_neg (fun hh => hcond (hsub.1 hh).2)]
  · rw [if_neg hmem, if_neg (fun hh => hmem (hsub.1 hh).1)]

theorem StreamAt.of_watch (s : watcherHub) (hs : Inv s) (key : String) (recursive : Bool)
    (index : Nat) (hscan : s.EventHistory.scan key recursive index = .ok []) :
    ∃ l, StreamAt (s.watch key recursive true index).1 s.heap.length key recursive index l := by
  have hI := hs.watch key recursive true index
  cases hl : s.lookup key with
  | some l =>
    have hlt : l < s.lists.length := elems_lt (hs.mapped key l hl).1
    rw [watch_back s key recursive true index l hscan hl] at hI ⊢
    refine ⟨l, hI, hl, ?_, _, List.getElem?_concat_length _ _, rfl⟩
    rw [elems_set _ s l (s.elems l ++ [s.heap.length]) hlt rfl l, if_pos rfl]
    simp
  | none =>
    cases hm : s.watchers with
    | none => exact absurd hm hs.alloc
    | some m =>
      rw [watch_new s key recursive true index m hscan hm hl] at hI ⊢
      refine ⟨s.lists.length, hI, ?_, ?_, _, List.getElem?_concat_length _ _, rfl⟩
      · show mapGet (mapSet m key s.lists.length) key = some s.lists.length
        rw [mapGet_mapSet, if_pos rfl]
      · rw [elems_push _ s [s.heap.length] rfl s.lists.length, if_pos rfl]
        simp

/-- C3 (as stated, refuted): a stream watcher is registered at `/foo`; two
events at `/foo`, of indices 1 and 2, are notified with no detach.  Both match
the subscription and the watcher stays registered, but its channel holds the
first event only: the second one found the slot occupied and was dropped, so
after the subscriber's next receive the channel is empty. -/
theorem stream_event_dropped_when_slot_full :
    ((newWatchHub 4).run [.watch "/foo" false true 0, .notify (newEvent .Create "/foo" 1 1),
      .notify (newEvent .Set "/foo" 2 2)]).registered 0 "/foo" ∧
    subscribed "/foo" false 0 (newEvent .Set "/foo" 2 2) = true ∧
    ((newWatchHub 4).run [.watch "/foo" false true 0, .notify (newEvent .Create "/foo" 1 1),
      .notify (newEvent .Set "/foo" 2 2)]).chan 0 = some (.event (newEvent .Create "/foo" 1 1)) ∧
    ((newWatchHub 4).run [.watch "/foo" false true 0, .notify (newEvent .Create "/foo" 1 1),
      .notify (newEvent .Set "/foo" 2 2), .receive 0]).chan 0 = none := by
  refine ⟨⟨0, by decide, by decide⟩, by decide, by decide, by decide⟩

/-! ## The ring buffer of the history -/

theorem mod_ne_of_lt {C j k : Nat} (hjk : j < k) (hk : k - j < C) : j % C ≠ k % C := by
  intro h
  have h1 := Nat.sub_mod_eq_zero_of_mod_eq h.symm
  rw [Nat.mod_eq_of_lt hk] at h1
  omega

theorem getD_set_option (xs : List (Option Event)) (i j : Nat) (x : Option Event)
    (hi : i < xs.length) :
    (xs.set i x).getD j none = if i = j then x else xs.getD j none := by
  simp only [List.getD_eq_getElem?_getD, List.getElem?_set]
  by_cases hij : i = j
  · subst hij
    rw [if_pos rfl, if_pos hi, if_pos rfl]; rfl
  · rw [if_neg hij, if_neg hij]

theorem holds_new (C : Nat) : Holds (newEventHistory C) C [] where
  cap := rfl
  len := by simp [newEventHistory]
  size := by simp [newEventHistory]
  front := by simp [newEventHistory]
  evicted := by simp [newEventHistory]
  slot := fun j _ hj => absurd hj (Nat.not_lt_zero _)

theorem Holds.addEvent {eh : EventHistory} {C : Nat} {es : List Event} (h : Holds eh C es)
    (hC : 0 < C) (e : Event) : Holds (eh.addEvent e).1 C (es ++ [e]) := by
  have hlen : (es ++ [e]).length = es.length + 1 := by simp
  by_cases hfull : es.length < C
  · -- the buffer is not full: the event goes to the slot after the last one
    have hsize : eh.Queue.Size = es.length := by rw [h.size]; omega
    have hfront : eh.Queue.Front = 0 := by
      rw [h.front, Nat.sub_eq_zero_of_le (Nat.le_of_lt hfull), Nat.zero_mod]
    have hne : ¬ eh.Queue.Size = eh.Queue.Capacity := by rw [hsize, h.cap]; omega
    have hslot : (eh.Queue.Front + eh.Queue.Size) % eh.Queue.Capacity = es.length := by
      rw [hfront, hsize, h.cap, Nat.zero_add, Nat.mod_eq_of_lt hfull]
    unfold EventHistory.addEvent
    simp only [hne, if_false, hslot]
    refine ⟨h.cap, by simp [h.len], ?_, ?_, ?_, ?_⟩
    · show eh.Queue.Size + 1 = _
      rw [hsize, hlen]; omega
    · show eh.Queue.Front = _
      rw [hfront, hlen, Nat.sub_eq_zero_of_le (by omega), Nat.zero_mod]
    · show eh.Evicted = _
      rw [h.evicted, hlen]
      have h1 : ¬ C < es.length := by omega
      have h2 : ¬ C < es.length + 1 := by omega
      simp [h1, h2]
    · intro j _ hj
      rw [hlen] at hj
      show (eh.Queue.Events.set es.length (some e)).getD (j % C) none = _
      rw [getD_set_option _ _ _ _ (by rw [h.len]; exact hfull)]
      have hjC : j % C = j := Nat.mod_eq_of_lt (by omega)
      by_cases hj1 : j = es.length
      · subst hj1
        rw [hjC, if_pos rfl, List.getElem?_concat_length]
      · have hs := h.slot j (by omega) (by omega)
        rw [hjC] at hs
        rw [hjC, if_neg (Ne.symm hj1), List.getElem?_append_left (by omega)]
        exact hs
  · -- the buffer is full: the event overwrites the oldest one
    have hge : C ≤ es.length := Nat.le_of_not_lt hfull
    have hsize : eh.Queue.Size = C := by rw [h.size]; omega
    have heq : eh.Queue.Size = eh.Queue.Capacity := by rw [hsize, h.cap]
    have hfront : eh.Queue.Front = es.length % C := by
      rw [h.front]
      have : es.length = es.length - C + C := by omega
      nth_rewrite 2 [this]
      rw [Nat.add_mod_right]
    unfold EventHistory.addEvent
    simp only [heq, if_true]
    refine ⟨h.cap, by simp [h.len], ?_, ?_, rfl.trans ?_, ?_⟩
    · show eh.Queue.Capacity = _
      rw [h.cap, hlen]; omega
    · show (eh.Queue.Front + 1) % eh.Queue.Capacity = _
      rw [h.cap, h.front, Nat.mod_add_mod, hlen]
      congr 1
      omega
    · rw [hlen]
      have : C < es.length + 1 := by omega
      simp [this]
    · intro j hj1 hj
      rw [hlen] at hj hj1
      show (eh.Queue.Events.set eh.Queue.Front (some e)).getD (j % C) none = _
      rw [getD_set_option _ _ _ _ (by rw [h.len, hfront]; exact Nat.mod_lt _ hC), hfront]
      by_cases hj2 : j = es.length
      · subst hj2
        rw [if_pos rfl, List.getElem?_concat_length]
      · have hlt : j < es.length := by omega
        rw [if_neg (Ne.symm (mod_ne_of_lt hlt (by omega))), List.getElem?_append_left hlt]
        exact h.slot j (by omega) hlt

theorem Holds.addEvents {eh : EventHistory} {C : Nat} {es : List Event} (h : Holds eh C es)
    (hC : 0 < C) (more : List Event) : Holds (eh.addEvents more) C (es ++ more) := by
  induction more generalizing eh es with
  | nil => simpa [EventHistory.addEvents] using h
  | cons e more ih =>
    have := ih (h.addEvent hC e)
    simpa [EventHistory.addEvents] using this

theorem holds_built (C : Nat) (hC : 0 < C) (es : List Event) :
    Holds ((newEventHistory C).addEvents es) C es := by
  simpa using (holds_new C).addEvents hC es

theorem filterMap_range_getElem? (es : List Event) (a k : Nat) :
    (List.range k).filterMap (fun n => es[a + n]?) = (es.drop a).take k := by
  induction k with
  | zero => simp
  | succ k ih =>
    rw [List.range_succ, List.filterMap_append, ih, List.take_succ, List.getElem?_drop]
    congr 1

theorem Holds.resident_eq {eh : EventHistory} {C : Nat} {es : List Event} (h : Holds eh C es) :
    eh.resident = es.drop (es.length - C) := by
  unfold EventHistory.resident
  have hcongr : ∀ n ∈ List.range eh.Queue.Size,
      eh.Queue.Events.getD ((eh.Queue.Front + n) % eh.Queue.Capacity) none =
        es[es.length - C + n]? := by
    intro n hn
    rw [List.mem_range, h.size] at hn
    rw [h.cap, h.front, Nat.mod_add_mod]
    exact h.slot _ (by omega) (by omega)
  rw [List.filterMap_congr hcongr, filterMap_range_getElem?, h.size]
  exact List.take_of_length_le (by rw [List.length_drop]; omega)

theorem index_of_range {es : List Event} {N : Nat} (hidx : es.map Event.Index = List.range N)
    {j : Nat} {e : Event} (h : es[j]? = some e) : e.Index = j := by
  have h1 := congrArg (fun l => l[j]?) hidx
  simp only [List.getElem?_map, h, Option.map_some'] at h1
  have hj : j < N := by
    have := (List.getElem?_eq_some.1 h).1
    have hl : es.length = N := by
      have := congrArg List.length hidx
      simpa using this
    omega
  rw [List.getElem?_range hj] at h1
  exact Option.some.inj h1

theorem length_of_range {es : List Event} {N : Nat}
    (hidx : es.map Event.Index = List.range N) : es.length = N := by
  have := congrArg List.length hidx
  simpa using this

theorem drop_range (N a : Nat) (h : a ≤ N) : (List.range N).drop a = List.range' a (N - a) := by
  have h1 : List.range N = List.range' 0 a ++ List.range' (0 + a) (N - a) := by
    rw [List.range'_append_1, List.range_eq_range']
    congr 1
    omega
  rw [h1, List.drop_left' (by simp), Nat.zero_add]

/-- The scan of a buffer that holds `es`, in terms of `es`. -/
theorem Holds.scan_eq {eh : EventHistory} {C : Nat} {es : List Event} (h : Holds eh C es)
    (key : String) (recursive : Bool) (sinceIndex : Nat) :
    eh.scan key recursive sinceIndex =
      match es.drop (es.length - C) with
      | [] => .ok []
      | oldest :: rest =>
        if C < es.length ∧ sinceIndex < oldest.Index then .error .indexTooOld
        else .ok ((oldest :: rest).filter fun e =>
          decide (sinceIndex ≤ e.Index) && keyMatch key recursive e) := by
  unfold EventHistory.scan
  rw [h.resident_eq, h.evicted]
  cases es.drop (es.length - C) with
  | nil => rfl
  | cons oldest rest => simp only [decide_eq_true_eq]

/-! ## C13: bounded retention -/

/-- C13: for every capacity `C >= 1` and every `N >= C`, after `newEventHistory(C)`
has been given `N` events of indices `0, 1, ..., N-1`, the buffer holds exactly
`C` events (`Size = C <= Capacity`), and the slots read from `Front` in
circular order carry the indices `N-C, N-C+1, ..., N-1`. -/
theorem ring_keeps_latest (C N : Nat) (hC : 1 ≤ C) (hN : C ≤ N) (es : List Event)
    (hidx : es.map Event.Index = List.range N) :
    ((newEventHistory C).addEvents es).Queue.Size = C ∧
    ((newEventHistory C).addEvents es).Queue.Size ≤
      ((newEventHistory C).addEvents es).Queue.Capacity ∧
    ((newEventHistory C).addEvents es).resident.length = C ∧
    ((newEventHistory C).addEvents es).resident = es.drop (N - C) ∧
    ((newEventHistory C).addEvents es).resident.map Event.Index = List.range' (N - C) C := by
  have h := holds_built C hC es
  have hl := length_of_range hidx
  have hsize : ((newEventHistory C).addEvents es).Queue.Size = C := by
    rw [h.size, hl]; omega
  have hres := h.resident_eq
  rw [hl] at hres
  refine ⟨hsize, by rw [hsize, h.cap], ?_, hres, ?_⟩
  · rw [hres, List.length_drop, hl]; omega
  · rw [hres, List.map_drop, hidx, drop_range N (N - C) (by omega)]
    congr 1
    omega

theorem ring_keeps_latest_witness :
    (1 ≤ 100 ∧ 100 ≤ 200 ∧
      ((List.range 200).map fun i => newEvent .Create "/foo" i i).map Event.Index =
        List.range 200) ∧
    ((newEventHistory 100).addEvents
      ((List.range 200).map fun i => newEvent .Create "/foo" i i)).resident.map Event.Index =
        List.range' (200 - 100) 100 :=
  ⟨⟨by decide, by decide, by simp [newEvent, Event.Index, Function.comp_def]⟩,
    (ring_keeps_latest 100 200 (by decide) (by decide)
      ((List.range 200).map fun i => newEvent .Create "/foo" i i)
      (by simp [newEvent, Event.Index, Function.comp_def])).2.2.2.2⟩

/-! ## C14: catch-up under churn -/

/-- C14: for every capacity `K >= 2` and every `i >= 1`, after
`newEventHistory(K)` has been given events at `/foo` of indices `0, 1, ..., i`,
`scan("/foo", true, i-1)` returns no error and a non-empty result whose first
element is the event of index `i-1`: exactly the events of indices `i-1` and
`i`, whatever was evicted before. -/
theorem scan_finds_previous (K i : Nat) (hK : 2 ≤ K) (hi : 1 ≤ i) (es : List Event)
    (hidx : es.map Event.Index = List.range (i + 1)) (hkey : ∀ e ∈ es, e.Key = "/foo") :
    ((newEventHistory K).addEvents es).scan "/foo" true (i - 1) = .ok (es.drop (i - 1)) ∧
    ∃ e rest, es.drop (i - 1) = e :: rest ∧ e.Index = i - 1 := by
  have h := holds_built K (by omega) es
  have hl := length_of_range hidx
  have hlt : i - 1 < es.length := by omega
  have hhead : es.drop (i - 1) = es[i - 1] :: es.drop (i - 1 + 1) :=
    List.drop_eq_getElem_cons hlt
  refine ⟨?_, es[i - 1], _, hhead, index_of_range hidx (List.getElem?_eq_getElem hlt)⟩
  rw [h.scan_eq]
  have ha : es.length - K ≤ i - 1 := by omega
  have hsplit : es.drop (es.length - K) =
      (es.drop (es.length - K)).take (i - 1 - (es.length - K)) ++ es.drop (i - 1) := by
    have := (List.take_append_drop (i - 1 - (es.length - K)) (es.drop (es.length - K))).symm
    rw [List.drop_drop] at this
    have e1 : es.length - K + (i - 1 - (es.length - K)) = i - 1 := by omega
    rw [e1] at this
    exact this
  have hidx_of : ∀ e ∈ es.drop (es.length - K), es.length - K ≤ e.Index := by
    intro e he
    obtain ⟨j, hj⟩ := List.mem_iff_getElem?.1 he
    rw [List.getElem?_drop] at hj
    rw [index_of_range hidx hj]; omega
  cases hd : es.drop (es.length - K) with
  | nil =>
    rw [hd] at hsplit
    have : es.drop (i - 1) = [] := by
      have := congrArg List.length hsplit
      simp only [List.length_nil, List.length_append] at this
      exact List.length_eq_zero.1 (by omega)
    rw [this]
  | cons oldest rest =>
    have hold : es.length - K ≤ oldest.Index := hidx_of oldest (by rw [hd]; simp)
    have hold2 : oldest.Index = es.length - K := by
      have h0 : (es.drop (es.length - K))[0]? = some oldest := by rw [hd]; simp
      rw [List.getElem?_drop] at h0
      exact index_of_range hidx h0
    have hno : ¬ (K < es.length ∧ i - 1 < oldest.Index) := by
      rw [hold2]; omega
    simp only [hno, if_false]
    rw [← hd, hsplit, List.filter_append]
    have h1 : ((es.drop (es.length - K)).take (i - 1 - (es.length - K))).filter
        (fun e => decide (i - 1 ≤ e.Index) && keyMatch "/foo" true e) = [] := by
      rw [List.filter_eq_nil_iff]
      intro e he
      obtain ⟨j, hj⟩ := List.mem_iff_getElem?.1 he
      rw [List.getElem?_take] at hj
      split at hj
      · next hjlt =>
        rw [List.getElem?_drop] at hj
        have := index_of_range hidx hj
        simp only [Bool.and_eq_true, decide_eq_true_eq, not_and]
        intro h2
        omega
      · exact absurd hj (by simp)
    have h2 : (es.drop (i - 1)).filter
        (fun e => decide (i - 1 ≤ e.Index) && keyMatch "/foo" true e) = es.drop (i - 1) := by
      rw [List.filter_eq_self]
      intro e he
      obtain ⟨j, hj⟩ := List.mem_iff_getElem?.1 he
      rw [List.getElem?_drop] at hj
      have hidx1 := index_of_range hidx hj
      have hk := hkey e ((List.drop_sublist _ _).subset he)
      simp only [keyMatch, hk, Bool.and_eq_true, decide_eq_true_eq, decide_True, Bool.true_or,
        and_true]
      omega
    rw [h1, h2, List.nil_append]

theorem scan_finds_previous_witness :
    (2 ≤ 2 ∧ 1 ≤ 4 ∧
      ((List.range 5).map fun i => newEvent .Create "/foo" i i).map Event.Index =
        List.range (4 + 1) ∧
      ∀ e ∈ (List.range 5).map fun i => newEvent .Create "/foo" i i, e.Key = "/foo") ∧
    ((newEventHistory 2).addEvents
        ((List.range 5).map fun i => newEvent .Create "/foo" i i)).scan "/foo" true (4 - 1) =
      .ok (((List.range 5).map fun i => newEvent .Create "/foo" i i).drop (4 - 1)) :=
  ⟨⟨by decide, by decide, by decide, by decide⟩,
    (scan_finds_previous 2 4 (by decide) (by decide)
      ((List.range 5).map fun i => newEvent .Create "/foo" i i) (by decide) (by decide)).1⟩

/-! ## C12, C15: what `scan` returns -/

theorem keyMatch_iff (key : String) (recursive : Bool) (e : Event) :
    keyMatch key recursive e = true ↔
      e.Key = key ∨ (recursive = true ∧ (key.data ++ ['/']) <+: e.Key.data) := by
  unfold keyMatch
  simp only [Bool.or_eq_true, decide_eq_true_eq, Bool.and_eq_true, List.isPrefixOf_iff_prefix]

theorem keyMatch_ancestor (key : String) (recursive : Bool) (e : Event)
    (hpre : e.Key.data <+: key.data) (hne : e.Key ≠ key) : keyMatch key recursive e = false := by
  cases hm : keyMatch key recursive e with
  | false => rfl
  | true =>
    rcases (keyMatch_iff key recursive e).1 hm with h | ⟨_, h⟩
    · exact absurd h hne
    · have h1 := h.length_le
      have h2 := hpre.length_le
      simp only [List.length_append, List.length_singleton] at h1
      omega

/-- C12: for every history built by `addEvent` from a new history of capacity
`C >= 1`, and every `key`, `recursive`, `sinceIndex` for which `scan` does not
fail, `scan` returns exactly the resident events (the last `C` appended) with
`index >= sinceIndex` whose key equals `key`, or, when `recursive`, starts with
`key + "/"`, each as often as it is resident and in buffer order, which is
ascending index order when the events were appended with increasing indices;
an event at an ancestor of `key` is never returned. -/
theorem scan_returns_matches (C : Nat) (hC : 1 ≤ C) (es : List Event) (key : String)
    (recursive : Bool) (sinceIndex : Nat) (evs : List Event)
    (hscan : ((newEventHistory C).addEvents es).scan key recursive sinceIndex = .ok evs) :
    ((newEventHistory C).addEvents es).resident = es.drop (es.length - C) ∧
    evs = ((newEventHistory C).addEvents es).resident.filter (fun e =>
      decide (sinceIndex ≤ e.Index) &&
        (decide (e.Key = key) || (recursive && (key.data ++ ['/']).isPrefixOf e.Key.data))) ∧
    (∀ e, e ∈ evs ↔ e ∈ ((newEventHistory C).addEvents es).resident ∧ sinceIndex ≤ e.Index ∧
      (e.Key = key ∨ (recursive = true ∧ (key.data ++ ['/']) <+: e.Key.data))) ∧
    (es.Pairwise (fun a b => a.Index < b.Index) →
      evs.Pairwise (fun a b => a.Index < b.Index)) ∧
    (∀ e, e.Key.data <+: key.data → e.Key ≠ key → e ∉ evs) := by
  have h := holds_built C hC es
  have hfilter : evs = ((newEventHistory C).addEvents es).resident.filter (fun e =>
      decide (sinceIndex ≤ e.Index) && keyMatch key recursive e) := by
    unfold EventHistory.scan at hscan
    cases hr : ((newEventHistory C).addEvents es).resident with
    | nil =>
      rw [hr] at hscan
      simp only [List.filter_nil]
      exact (Except.ok.inj hscan).symm
    | cons oldest rest =>
      rw [hr] at hscan
      simp only [] at hscan
      split at hscan
      · exact absurd hscan (by simp)
      · exact (Except.ok.inj hscan).symm
  have hmem : ∀ e, e ∈ evs ↔ e ∈ ((newEventHistory C).addEvents es).resident ∧
      sinceIndex ≤ e.Index ∧
      (e.Key = key ∨ (recursive = true ∧ (key.data ++ ['/']) <+: e.Key.data)) := by
    intro e
    rw [hfilter, List.mem_filter, Bool.and_eq_true, decide_eq_true_eq, keyMatch_iff]
  refine ⟨h.resident_eq, hfilter, hmem, ?_, ?_⟩
  · intro hp
    rw [hfilter, h.resident_eq]
    exact (hp.sublist (List.drop_sublist _ _)).filter _
  · intro e hpre hne he
    have := ((hmem e).1 he).2.2
    have hk := keyMatch_ancestor key recursive e hpre hne
    rw [← keyMatch_iff key recursive e, hk] at this
    exact absurd this (by simp)

theorem scan_returns_matches_witness :
    (1 ≤ 100 ∧
      ((newEventHistory 100).addEvents testScanEvents).scan "/foo/foo" true 1 =
        .ok [newEvent .Create "/foo/foo" 3 3, newEvent .Create "/foo/foo/foo" 5 5,
          newEvent .Set "/foo/foo" 7 7]) ∧
    ((newEventHistory 100).addEvents testScanEvents).scan "/foo" false 1 =
      .ok [newEvent .Create "/foo" 1 1, newEvent .Set "/foo" 6 6] ∧
    ((newEventHistory 100).addEvents testScanEvents).scan "/foo/foo" false 1 =
      .ok [newEvent .Create "/foo/foo" 3 3, newEvent .Set "/foo/foo" 7 7] ∧
    ((newEventHistory 100).addEvents testScanEvents).scan "/foo/bar" false 1 =
      .ok [newEvent .Create "/foo/bar" 2 2] ∧
    ∀ e, e.Key.data <+: "/foo/foo".data → e.Key ≠ "/foo/foo" →
      e ∉ [newEvent .Create "/foo/foo" 3 3, newEvent .Create "/foo/foo/foo" 5 5,
        newEvent .Set "/foo/foo" 7 7] :=
  ⟨⟨by decide, by decide⟩, by decide, by decide, by decide,
    (scan_returns_matches 100 (by decide) testScanEvents "/foo/foo" true 1
      [newEvent .Create "/foo/foo" 3 3, newEvent .Create "/foo/foo/foo" 5 5,
        newEvent .Set "/foo/foo" 7 7] (by decide)).2.2.2.2⟩

/-- C15: for every history built by `addEvent` from a new history of capacity
`C >= 1`, `scan` fails only if the buffer has already evicted an event (more
than `C` were appended) and `sinceIndex` is smaller than the index of the
oldest resident event; in every other case it returns a result and no error,
and that result is empty when `sinceIndex` is greater than the index of every
resident event, and when no resident event matches `key`. -/
theorem scan_fails_only_when_too_old (C : Nat) (hC : 1 ≤ C) (es : List Event) (key : String)
    (recursive : Bool) (sinceIndex : Nat) :
    (∀ err, ((newEventHistory C).addEvents es).scan key recursive sinceIndex = .error err →
      C < es.length ∧ ∃ oldest,
        ((newEventHistory C).addEvents es).resident.head? = some oldest ∧
        sinceIndex < oldest.Index) ∧
    (¬ (C < es.length ∧ ∃ oldest,
        ((newEventHistory C).addEvents es).resident.head? = some oldest ∧
        sinceIndex < oldest.Index) →
      ∃ evs, ((newEventHistory C).addEvents es).scan key recursive sinceIndex = .ok evs) ∧
    ((∀ e ∈ ((newEventHistory C).addEvents es).resident, e.Index < sinceIndex) →
      ((newEventHistory C).addEvents es).scan key recursive sinceIndex = .ok []) ∧
    (¬ (C < es.length ∧ ∃ oldest,
        ((newEventHistory C).addEvents es).resident.head? = some oldest ∧
        sinceIndex < oldest.Index) →
      (∀ e ∈ ((newEventHistory C).addEvents es).resident, keyMatch key recursive e = false) →
      ((newEventHistory C).addEvents es).scan key recursive sinceIndex = .ok []) := by
  have h := holds_built C hC es
  have hev : ((newEventHistory C).addEvents es).Evicted = decide (C < es.length) := h.evicted
  unfold EventHistory.scan
  rw [hev]
  cases hr : ((newEventHistory C).addEvents es).resident with
  | nil =>
    refine ⟨fun err h1 => absurd h1 (by simp), fun _ => ⟨[], rfl⟩, fun _ => rfl, fun _ _ => rfl⟩
  | cons oldest rest =>
    simp only [List.head?_cons, Option.some.injEq, exists_eq_left', decide_eq_true_eq]
    by_cases hcond : C < es.length ∧ sinceIndex < oldest.Index
    · simp only [hcond, and_self, if_true, not_true_eq_false, false_implies, true_and]
      refine ⟨fun _ _ => trivial, fun hall => ?_, trivial⟩
      have := hall oldest (List.mem_cons_self _ _)
      omega
    · simp only [hcond, if_false, not_false_eq_true, true_implies]
      refine ⟨fun err h1 => absurd h1 (by simp), ⟨_, rfl⟩, fun hall => ?_, fun hall => ?_⟩
      · congr 1
        rw [List.filter_eq_nil_iff]
        intro e he
        have := hall e he
        simp only [Bool.and_eq_true, decide_eq_true_eq, not_and]
        intro h2; omega
      · congr 1
        rw [List.filter_eq_nil_iff]
        intro e he
        simp [hall e he]

theorem scan_fails_only_when_too_old_witness :
    (1 ≤ 100 ∧
      ∀ e ∈ ((newEventHistory 100).addEvents testScanEvents).resident, e.Index < 8) ∧
    ((newEventHistory 100).addEvents testScanEvents).scan "/foo/bar" true 8 = .ok [] :=
  ⟨⟨by decide, by decide⟩,
    (scan_fails_only_when_too_old 100 (by decide) testScanEvents "/foo/bar" true 8).2.2.1
      (by decide)⟩

/-! ## C16: an event published just before a subscription -/

theorem notifyWatchers_history (wh : watcherHub) (e : Event) (p : String) (d : Bool) :
    (wh.notifyWatchers e p d).EventHistory = wh.EventHistory := by
  unfold watcherHub.notifyWatchers
  split
  · rfl
  · simp only []
    split
    · exact (notifyList_watchers _ _ _ _ _ _).2
    · exact (notifyList_watchers _ _ _ _ _ _).2

theorem foldl_notifyWatchers_history (e : Event) (paths : List String) (wh : watcherHub) :
    (paths.foldl (fun h p => h.notifyWatchers e p false) wh).EventHistory = wh.EventHistory := by
  induction paths generalizing wh with
  | nil => rfl
  | cons p paths ih => rw [List.foldl_cons, ih, notifyWatchers_history]

theorem notify_history (wh : watcherHub) (e : Event) :
    (wh.notify e).EventHistory = (wh.EventHistory.addEvent e).1 := by
  rw [notify_eq_foldl, foldl_notifyWatchers_history]

/-- C16 (as stated, refuted): a hub of capacity 2 has recorded events of
indices 5 and 6; `notify` of an event `e` of index 3 at `/foo` evicts the
event of index 5, so the history holds the indices 6 and 3, in that order, and
`watch("/foo", false, false, 3)` returns the "index too old" error and no
watcher: the event just published is missed. -/
theorem out_of_order_event_not_caught_up :
    ((((newWatchHub 2).notify (newEvent .Create "/a" 5 5)).notify
      (newEvent .Create "/b" 6 6)).notify (newEvent .Set "/foo" 3 3)).EventHistory.resident =
      [newEvent .Create "/b" 6 6, newEvent .Set "/foo" 3 3] ∧
    (((((newWatchHub 2).notify (newEvent .Create "/a" 5 5)).notify
      (newEvent .Create "/b" 6 6)).notify (newEvent .Set "/foo" 3 3)).watch
        (newEvent .Set "/foo" 3 3).Key false false (newEvent .Set "/foo" 3 3).Index).2 =
      .err .indexTooOld := by
  decide

/-- C16 (amended): for every hub whose history, of capacity at least 1, was
built by `addEvent`, and every event `e` whose index is not below the indices
already recorded, after `notify(e)` the call
`watch(e.key, recursive, stream, e.index)` returns without error a new watcher
whose channel already holds a catch-up batch that contains `e`, whatever the
two flags are. -/
theorem published_event_is_caught_up (wh : watcherHub) (C : Nat) (hC : 1 ≤ C)
    (es : List Event) (hh : wh.EventHistory = (newEventHistory C).addEvents es)
    (e : Event) (hmono : ∀ e1 ∈ es, e1.Index ≤ e.Index) (recursive stream : Bool) :
    ∃ batch,
      ((wh.notify e).watch e.Key recursive stream e.Index).2 = .ok (wh.notify e).heap.length ∧
      ((wh.notify e).watch e.Key recursive stream e.Index).1.chan (wh.notify e).heap.length =
        some (.events batch) ∧
      e ∈ batch := by
  have hhist : (wh.notify e).EventHistory = (newEventHistory C).addEvents (es ++ [e]) := by
    rw [notify_history, hh]
    simp [EventHistory.addEvents, List.foldl_append]
  have h := holds_built C hC (es ++ [e])
  rw [← hhist] at h
  have hlen : (es ++ [e]).length = es.length + 1 := by simp
  have hdrop : (es ++ [e]).drop ((es ++ [e]).length - C) = es.drop (es.length + 1 - C) ++ [e] := by
    rw [hlen, List.drop_append_of_le_length (by omega)]
  have hscan := h.scan_eq e.Key recursive e.Index
  have hmem : e ∈ (es ++ [e]).drop ((es ++ [e]).length - C) := by
    rw [hdrop]; simp
  have hle : ∀ e1 ∈ (es ++ [e]).drop ((es ++ [e]).length - C), e1.Index ≤ e.Index := by
    intro e1 h1
    rcases List.mem_append.1 ((List.drop_sublist _ _).subset h1) with h2 | h2
    · exact hmono e1 h2
    · rw [List.mem_singleton.1 h2]
  have hpred : (decide (e.Index ≤ e.Index) && keyMatch e.Key recursive e) = true := by
    simp [keyMatch]
  cases hd : (es ++ [e]).drop ((es ++ [e]).length - C) with
  | nil => rw [hd] at hmem; exact absurd hmem (List.not_mem_nil _)
  | cons oldest rest =>
    rw [hd] at hscan hmem hle
    have hno : ¬ (C < (es ++ [e]).length ∧ e.Index < oldest.Index) := by
      have := hle oldest (List.mem_cons_self _ _)
      omega
    simp only [hno, if_false] at hscan
    have hin : e ∈ (oldest :: rest).filter
        (fun e1 => decide (e.Index ≤ e1.Index) && keyMatch e.Key recursive e1) :=
      List.mem_filter.2 ⟨hmem, hpred⟩
    have hne : (oldest :: rest).filter
        (fun e1 => decide (e.Index ≤ e1.Index) && keyMatch e.Key recursive e1) ≠ [] :=
      List.ne_nil_of_mem hin
    have hw := watch_catches_up_aux (wh.notify e) e.Key recursive stream e.Index _ hscan hne
    exact ⟨_, hw.1, hw.2, hin⟩

theorem published_event_is_caught_up_witness :
    (1 ≤ 2 ∧
      (((newWatchHub 2).notify (newEvent .Create "/a" 1 1)).notify
        (newEvent .Create "/b" 2 2)).EventHistory =
        (newEventHistory 2).addEvents [newEvent .Create "/a" 1 1, newEvent .Create "/b" 2 2] ∧
      ∀ e1 ∈ [newEvent .Create "/a" 1 1, newEvent .Create "/b" 2 2],
        e1.Index ≤ (newEvent .Set "/foo/bar" 3 3).Index) ∧
    ∃ batch,
      (((((newWatchHub 2).notify (newEvent .Create "/a" 1 1)).notify
        (newEvent .Create "/b" 2 2)).notify (newEvent .Set "/foo/bar" 3 3)).watch
          (newEvent .Set "/foo/bar" 3 3).Key false true (newEvent .Set "/foo/bar" 3 3).Index).2 =
        .ok ((((newWatchHub 2).notify (newEvent .Create "/a" 1 1)).notify
          (newEvent .Create "/b" 2 2)).notify (newEvent .Set "/foo/bar" 3 3)).heap.length ∧
      (((((newWatchHub 2).notify (newEvent .Create "/a" 1 1)).notify
        (newEvent .Create "/b" 2 2)).notify (newEvent .Set "/foo/bar" 3 3)).watch
          (newEvent .Set "/foo/bar" 3 3).Key false true
            (newEvent .Set "/foo/bar" 3 3).Index).1.chan
        ((((newWatchHub 2).notify (newEvent .Create "/a" 1 1)).notify
          (newEvent .Create "/b" 2 2)).notify (newEvent .Set "/foo/bar" 3 3)).heap.length =
        some (.events batch) ∧
      newEvent .Set "/foo/bar" 3 3 ∈ batch :=
  ⟨⟨by decide, by decide, by decide⟩,
    published_event_is_caught_up
      (((newWatchHub 2).notify (newEvent .Create "/a" 1 1)).notify (newEvent .Create "/b" 2 2))
      2 (by decide) [newEvent .Create "/a" 1 1, newEvent .Create "/b" 2 2] (by decide)
      (newEvent .Set "/foo/bar" 3 3) (by decide) false true⟩

/-! ## C11: no empty list in the registry -/

/-- C11: in every hub state reachable from `newWatchHub`, every path that is a
key of the registry (the lookup finds a list) maps to a non-empty list of
watchers. -/
theorem registry_lists_nonempty (wh : watcherHub) (hr : Reachable wh) (path : String)
    (l : Nat) (h : wh.lookup path = some l) :
    wh.elems l ≠ [] ∧ wh.watchersAt path ≠ [] := by
  have h1 := (hr.inv.mapped path l h).1
  refine ⟨h1, ?_⟩
  simp only [watcherHub.watchersAt, h]
  exact h1

theorem registry_lists_nonempty_witness :
    (Reachable ((newWatchHub 4).run [.watch "/foo" false false 0, .watch "/foo" true true 0,
        .notify (newEvent .Create "/foo" 1 1)]) ∧
      ((newWatchHub 4).run [.watch "/foo" false false 0, .watch "/foo" true true 0,
        .notify (newEvent .Create "/foo" 1 1)]).lookup "/foo" = some 0) ∧
    (((newWatchHub 4).run [.watch "/foo" false false 0, .watch "/foo" true true 0,
        .notify (newEvent .Create "/foo" 1 1)]).elems 0 ≠ [] ∧
      ((newWatchHub 4).run [.watch "/foo" false false 0, .watch "/foo" true true 0,
        .notify (newEvent .Create "/foo" 1 1)]).watchersAt "/foo" ≠ []) :=
  ⟨⟨⟨4, _, rfl⟩, by decide⟩,
    registry_lists_nonempty _ ⟨4, [.watch "/foo" false false 0, .watch "/foo" true true 0,
        .notify (newEvent .Create "/foo" 1 1)], rfl⟩ "/foo" 0 (by decide)⟩

/-! ## C17: `clone` -/

/-- C17 (the code at the failing input): the clone of a hub has the history of
the original, count 0 and a nil registry map.  `watch("/bar", false, true, 0)`
with no catch-up data panics on the clone, while the same call on a hub built
by `newWatchHub` and given that history registers the watcher. -/
theorem watch_on_clone_differs_from_new_hub :
    ((newWatchHub 4).notify (newEvent .Create "/foo" 1 1)).clone.EventHistory =
      ((newWatchHub 4).notify (newEvent .Create "/foo" 1 1)).EventHistory ∧
    ((newWatchHub 4).notify (newEvent .Create "/foo" 1 1)).clone.count = 0 ∧
    ((newWatchHub 4).notify (newEvent .Create "/foo" 1 1)).clone.watchers = none ∧
    (((newWatchHub 4).notify (newEvent .Create "/foo" 1 1)).clone.watch
      "/bar" false true 0).2 = .panics ∧
    (({ newWatchHub 4 with
        EventHistory := ((newWatchHub 4).notify (newEvent .Create "/foo" 1 1)).clone.EventHistory } :
      watcherHub).watch "/bar" false true 0).2 = .ok 0 := by
  decide

/-! ## C19: the message received by `WatchKeyHandler` -/

/-- C19 (the code at the failing input): an event at `/foo` with index 1 is
recorded; `watch("/foo", false, false, 1)`, the call `WatchKeyHandler` makes
for a request with index 1, returns a watcher whose channel holds a batch, and
the conversion of that message to `*Event` gives nil. -/
theorem handler_gets_nil_from_batch :
    (((newWatchHub 4).notify (newEvent .Create "/foo" 1 1)).watch "/foo" false false 1).1.chan 0 =
      some (.events [newEvent .Create "/foo" 1 1]) ∧
    ((((newWatchHub 4).notify (newEvent .Create "/foo" 1 1)).watch
      "/foo" false false 1).1.chan 0).bind eventOfMessage = none := by
  decide

/-! ## C20: paths visited twice -/

/-- C20 (as stated, refuted): the key `/foo/` begins with a slash, and `notify`
of an event at that key calls `notifyWatchers` at `/foo` twice. -/
theorem notify_visits_path_twice :
    "/foo/".data.head? = some '/' ∧
    walkPaths "/" (splitPath (newEvent .Set "/foo/" 1 1).Key) = ["/", "/foo", "/foo"] ∧
    ¬ (walkPaths "/" (splitPath (newEvent .Set "/foo/" 1 1).Key)).Nodup := by
  decide

theorem inits_pairwise_length (l : List (List Char)) :
    l.inits.Pairwise (fun a b => a.length < b.length) := by
  induction l with
  | nil => simp
  | cons x l ih =>
    rw [List.inits_cons, List.pairwise_cons]
    refine ⟨fun a ha => ?_, ?_⟩
    · obtain ⟨b, _, rfl⟩ := List.mem_map.1 ha
      simp
    · rw [List.pairwise_map]
      exact ih.imp (fun h => by simpa using h)

theorem length_le_one_of_all_eq {l : List String} (h : l.Nodup)
    (h2 : ∀ a ∈ l, ∀ b ∈ l, a = b) : l.length ≤ 1 := by
  match l, h, h2 with
  | [], _, _ => simp
  | [a], _, _ => simp
  | a :: b :: t, h, h2 =>
    have := h2 a (by simp) b (by simp)
    subst this
    simp at h

/-- C20 (amended): for an event whose key is a clean absolute path
`/s1/.../sn` with `n >= 1`, one `notify` call visits no path twice; and in a
reachable hub state a watcher is registered at one path at most, so at most
one of the visited paths reaches it. -/
theorem notify_visits_each_path_once (wh : watcherHub) (hr : Reachable wh) (e : Event)
    (he : cleanKey e.Key) (hn : keySegments e.Key ≠ []) (w : Nat) :
    (walkPaths "/" (splitPath e.Key)).Nodup ∧
    (∀ k1 k2, wh.registered w k1 → wh.registered w k2 → k1 = k2) ∧
    ((walkPaths "/" (splitPath e.Key)).filter
      (fun p => decide (w ∈ wh.watchersAt p))).length ≤ 1 := by
  have hs := hr.inv
  obtain ⟨he1, he2⟩ := he
  have hnd : (walkPaths "/" (splitPath e.Key)).Nodup := by
    rw [he1, walkPaths_clean _ hn he2]
    refine List.Nodup.map_on ?_ ?_
    · intro a ha b hb hab
      have hga : ∀ s ∈ a, goodSegment s :=
        fun s hs1 => he2 s (((List.mem_inits _ _).1 ha).subset hs1)
      have hgb : ∀ s ∈ b, goodSegment s :=
        fun s hs1 => he2 s (((List.mem_inits _ _).1 hb).subset hs1)
      exact absPath_inj a b hga hgb hab
    · exact (inits_pairwise_length _).imp (fun h heq => by rw [heq] at h; exact Nat.lt_irrefl _ h)
  have hone : ∀ k1 k2, wh.registered w k1 → wh.registered w k2 → k1 = k2 := by
    rintro k1 k2 ⟨l1, h1, m1⟩ ⟨l2, h2, m2⟩
    have c1 := (hs.mapped k1 l1 h1).2 w m1
    have c2 := (hs.mapped k2 l2 h2).2 w m2
    rw [c1] at c2
    exact (by simpa using c2 : k1 = k2 ∧ l1 = l2).1
  refine ⟨hnd, hone, ?_⟩
  apply length_le_one_of_all_eq (hnd.filter _)
  intro a ha b hb
  have hra : wh.registered w a := by
    have := (List.mem_filter.1 ha).2
    simp only [decide_eq_true_eq, watcherHub.watchersAt] at this
    cases hl : wh.lookup a with
    | none => rw [hl] at this; exact absurd this (List.not_mem_nil _)
    | some l => rw [hl] at this; exact ⟨l, hl, this⟩
  have hrb : wh.registered w b := by
    have := (List.mem_filter.1 hb).2
    simp only [decide_eq_true_eq, watcherHub.watchersAt] at this
    cases hl : wh.lookup b with
    | none => rw [hl] at this; exact absurd this (List.not_mem_nil _)
    | some l => rw [hl] at this; exact ⟨l, hl, this⟩
  exact hone a b hra hrb

theorem notify_visits_each_path_once_witness :
    (Reachable ((newWatchHub 4).run [.watch "/foo" true true 0]) ∧
      cleanKey (newEvent .Set "/foo/bar" 1 1).Key ∧
      keySegments (newEvent .Set "/foo/bar" 1 1).Key ≠ []) ∧
    (walkPaths "/" (splitPath (newEvent .Set "/foo/bar" 1 1).Key)).Nodup :=
  ⟨⟨⟨4, _, rfl⟩, by decide, by decide⟩,
    (notify_visits_each_path_once ((newWatchHub 4).run [.watch "/foo" true true 0])
      ⟨4, [.watch "/foo" true true 0], rfl⟩ (newEvent .Set "/foo/bar" 1 1)
      (by decide) (by decide) 0).1⟩

/-! ## C18: paths that `notify` does not visit -/

theorem notifyWatchers_elems_other (wh : watcherHub) (e : Event) (p : String) (d : Bool)
    (l : Nat) (h : ∀ lp, wh.lookup p = some lp → l ≠ lp) :
    (wh.notifyWatchers e p d).elems l = wh.elems l := by
  unfold watcherHub.notifyWatchers
  split
  · rfl
  · next lp hlp =>
    simp only []
    split
    · rw [elems_deletePath]; exact notifyList_elems_other _ _ _ _ _ _ _ (h lp hlp)
    · exact notifyList_elems_other _ _ _ _ _ _ _ (h lp hlp)

/-- One call of `notifyWatchers` at `p` leaves the list registered at another
path, and the watchers in it, as they are. -/
theorem other_path_notifyWatchers {wh : watcherHub} (hs : Inv wh) (e : Event) (p : String)
    (d : Bool) (path : String) (hne : p ≠ path) :
    (wh.notifyWatchers e p d).lookup path = wh.lookup path ∧
    (∀ l, wh.lookup path = some l → (wh.notifyWatchers e p d).elems l = wh.elems l) ∧
    (∀ l, wh.lookup path = some l → ∀ w ∈ wh.elems l,
      (wh.notifyWatchers e p d).heap[w]? = wh.heap[w]?) := by
  refine ⟨?_, ?_, ?_⟩
  · rcases notifyWatchers_lookup wh e p d path with h | ⟨h, _⟩
    · exact h
    · exact absurd h.symm hne
  · intro l hl
    exact notifyWatchers_elems_other wh e p d l
      (fun lp hlp e1 => hne (hs.lookup_inj (e1 ▸ hlp) hl))
  · intro l hl w hw
    have hcl := (hs.mapped path l hl).2 w hw
    have hnr : ¬ wh.registered w p := by
      rintro ⟨lp, hlp, hm⟩
      have c2 := (hs.mapped p lp hlp).2 w hm
      rw [hcl] at c2
      exact hne (by simpa using c2 : path = p ∧ l = lp).1.symm
    cases ho : wh.heap[w]? with
    | none => exact (notifyWatchers_shrinks wh e p d).heap_none ho
    | some obj => exact ((notifyWatchers_effect hs e p d w obj ho).2 hnr).1

theorem other_path_foldl {wh : watcherHub} (hs : Inv wh) (e : Event) (paths : List String)
    (path : String) (hp : path ∉ paths) :
    (paths.foldl (fun h p => h.notifyWatchers e p false) wh).lookup path = wh.lookup path ∧
    (∀ l, wh.lookup path = some l →
      (paths.foldl (fun h p => h.notifyWatchers e p false) wh).elems l = wh.elems l) ∧
    (∀ l, wh.lookup path = some l → ∀ w ∈ wh.elems l,
      (paths.foldl (fun h p => h.notifyWatchers e p false) wh).heap[w]? = wh.heap[w]?) := by
  induction paths generalizing wh with
  | nil => exact ⟨rfl, fun _ _ => rfl, fun _ _ _ _ => rfl⟩
  | cons p paths ih =>
    have hne : p ≠ path := fun h => hp (by rw [h]; exact List.mem_cons_self _ _)
    have hp1 : path ∉ paths := fun h => hp (List.mem_cons_of_mem _ h)
    obtain ⟨a1, a2, a3⟩ := other_path_notifyWatchers hs e p false path hne
    obtain ⟨b1, b2, b3⟩ := ih (hs.notifyWatchers e p false) hp1
    rw [List.foldl_cons]
    refine ⟨b1.trans a1, fun l hl => ?_, fun l hl w hw => ?_⟩
    · rw [b2 l (a1.trans hl), a2 l hl]
    · rw [b3 l (a1.trans hl) w (by rw [a2 l hl]; exact hw), a3 l hl w hw]

theorem notifyWatchers_nil_map (wh : watcherHub) (h : wh.watchers = none) (e : Event)
    (p : String) (d : Bool) : wh.notifyWatchers e p d = wh := by
  have hl : wh.lookup p = none := by unfold watcherHub.lookup; rw [h]
  unfold watcherHub.notifyWatchers
  simp only [hl]

theorem foldl_nil_map (wh : watcherHub) (h : wh.watchers = none) (e : Event)
    (paths : List String) : paths.foldl (fun h p => h.notifyWatchers e p false) wh = wh := by
  induction paths with
  | nil => rfl
  | cons p paths ih => rw [List.foldl_cons, notifyWatchers_nil_map wh h, ih]

/-- C18: in every hub state reachable from `newWatchHub`, and in every hub
state with a nil registry map (a clone), `notify(e)` leaves unchanged the
watcher list of every path that is not one of the paths it visits for `e`'s
key: the path stays in the registry with the same watchers in the same order,
and none of those watchers has anything put into its channel, whatever the
action of `e` is. -/
theorem notify_spares_unvisited_paths (wh : watcherHub)
    (hw : Reachable wh ∨ wh.watchers = none) (e : Event) (path : String)
    (hp : path ∉ walkPaths "/" (splitPath e.Key)) :
    (wh.notify e).lookup path = wh.lookup path ∧
    (wh.notify e).watchersAt path = wh.watchersAt path ∧
    ∀ w ∈ wh.watchersAt path,
      (wh.notify e).heap[w]? = wh.heap[w]? ∧ (wh.notify e).chan w = wh.chan w := by
  rw [notify_eq_foldl]
  obtain ⟨s0, hs0, hw0, hl0, hh0⟩ : ∃ s0 : watcherHub,
      s0 = { wh with EventHistory := (wh.EventHistory.addEvent e).1 } ∧
      s0.watchers = wh.watchers ∧ s0.lists = wh.lists ∧ s0.heap = wh.heap :=
    ⟨_, rfl, rfl, rfl, rfl⟩
  rw [← hs0]
  have hlook : s0.lookup path = wh.lookup path := lookup_congr s0 wh hw0 path
  have helems : ∀ l, s0.elems l = wh.elems l := fun l => by
    unfold watcherHub.elems; rw [hl0]
  rcases hw with hr | hnil
  · have hs : Inv s0 := by rw [hs0]; exact hr.inv.setHistory _
    obtain ⟨h1, h2, h3⟩ := other_path_foldl hs e (walkPaths "/" (splitPath e.Key)) path hp
    refine ⟨h1.trans hlook, ?_, ?_⟩
    · unfold watcherHub.watchersAt
      rw [h1, hlook]
      cases hl : wh.lookup path with
      | none => rfl
      | some l =>
        simp only []
        rw [h2 l (hlook.trans hl), helems]
    · intro w hwm
      unfold watcherHub.watchersAt at hwm
      cases hl : wh.lookup path with
      | none => rw [hl] at hwm; exact absurd hwm (List.not_mem_nil _)
      | some l =>
        rw [hl] at hwm
        have := h3 l (hlook.trans hl) w (by rw [helems]; exact hwm)
        rw [hh0] at this
        exact ⟨this, chan_of_heap this⟩
  · rw [foldl_nil_map s0 (hw0.trans hnil)]
    have hheap : ∀ w : Nat, s0.heap[w]? = wh.heap[w]? := fun w => by rw [hh0]
    refine ⟨hlook, ?_, fun w _ => ⟨hheap w, chan_of_heap (hheap w)⟩⟩
    unfold watcherHub.watchersAt
    rw [hlook]
    cases wh.lookup path with
    | none => rfl
    | some l => exact helems l

theorem notify_spares_unvisited_paths_witness :
    ((Reachable ((newWatchHub 4).run [.watch "/foo/bar" false false 0, .watch "/baz" true true 0])
        ∨ ((newWatchHub 4).run
          [.watch "/foo/bar" false false 0, .watch "/baz" true true 0]).watchers = none) ∧
      "/foo/bar" ∉ walkPaths "/" (splitPath (newEvent .Delete "/foo" 1 1).Key)) ∧
    (((newWatchHub 4).run [.watch "/foo/bar" false false 0, .watch "/baz" true true 0]).notify
        (newEvent .Delete "/foo" 1 1)).watchersAt "/foo/bar" =
      ((newWatchHub 4).run
        [.watch "/foo/bar" false false 0, .watch "/baz" true true 0]).watchersAt "/foo/bar" :=
  ⟨⟨Or.inl ⟨4, _, rfl⟩, by decide⟩,
    (notify_spares_unvisited_paths
      ((newWatchHub 4).run [.watch "/foo/bar" false false 0, .watch "/baz" true true 0])
      (Or.inl ⟨4, [.watch "/foo/bar" false false 0, .watch "/baz" true true 0], rfl⟩)
      (newEvent .Delete "/foo" 1 1) "/foo/bar" (by decide)).2.1⟩

/-! ## The record of the calls of `notify` -/

theorem notifyListLog_fst (e : Event) (path : String) (deleted : Bool) (l : Nat)
    (ws : List Nat) (wh : watcherHub) :
    (watcherHub.notifyListLog e path deleted l ws wh).1 =
      watcherHub.notifyList e path deleted l ws wh := by
  induction ws generalizing wh with
  | nil => rfl
  | cons curr next ih =>
    rw [watcherHub.notifyListLog, watcherHub.notifyList]
    split
    · exact ih wh
    · exact ih _

theorem notifyListLog_flag (e : Event) (path : String) (deleted : Bool) (l : Nat)
    (ws : List Nat) (wh : watcherHub) :
    ∀ offer ∈ (watcherHub.notifyListLog e path deleted l ws wh).2,
      offer.2 = decide (e.Key = path) := by
  induction ws generalizing wh with
  | nil => intro offer h; exact absurd h (List.not_mem_nil _)
  | cons curr next ih =>
    rw [watcherHub.notifyListLog]
    split
    · exact ih wh
    · intro offer h
      rcases List.mem_cons.1 h with h1 | h1
      · rw [h1]
      · exact ih _ offer h1

theorem notifyWatchersLog_fst (wh : watcherHub) (e : Event) (path : String) (deleted : Bool) :
    (wh.notifyWatchersLog e path deleted).1 = wh.notifyWatchers e path deleted := by
  unfold watcherHub.notifyWatchersLog watcherHub.notifyWatchers
  split
  · rfl
  · simp only [notifyListLog_fst]

theorem notifyWatchersLog_flag (wh : watcherHub) (e : Event) (path : String) (deleted : Bool) :
    ∀ offer ∈ (wh.notifyWatchersLog e path deleted).2, offer.2 = decide (e.Key = path) := by
  unfold watcherHub.notifyWatchersLog
  split
  · intro offer h; exact absurd h (List.not_mem_nil _)
  · exact notifyListLog_flag _ _ _ _ _ _

theorem notifyWalkLog_fst (e : Event) (segments : List String) (currPath : String)
    (wh : watcherHub) :
    (watcherHub.notifyWalkLog e currPath segments wh).1 =
      watcherHub.notifyWalk e currPath segments wh := by
  induction segments generalizing currPath wh with
  | nil => rfl
  | cons s segments ih =>
    rw [watcherHub.notifyWalkLog, watcherHub.notifyWalk]
    simp only [ih, notifyWatchersLog_fst]

theorem notifyWalkLog_paths (e : Event) (segments : List String) (currPath : String)
    (wh : watcherHub) :
    (watcherHub.notifyWalkLog e currPath segments wh).2.map Prod.fst =
      walkPaths currPath segments := by
  induction segments generalizing currPath wh with
  | nil => rfl
  | cons s segments ih =>
    rw [watcherHub.notifyWalkLog, walkPaths]
    simp only [List.map_cons, ih]

theorem notifyWalkLog_flag (e : Event) (segments : List String) (currPath : String)
    (wh : watcherHub) :
    ∀ entry ∈ (watcherHub.notifyWalkLog e currPath segments wh).2,
      ∀ offer ∈ entry.2, offer.2 = decide (e.Key = entry.1) := by
  induction segments generalizing currPath wh with
  | nil => intro entry h; exact absurd h (List.not_mem_nil _)
  | cons s segments ih =>
    rw [watcherHub.notifyWalkLog]
    intro entry h
    rcases List.mem_cons.1 h with h1 | h1
    · rw [h1]; exact notifyWatchersLog_flag _ _ _ _
    · exact ih _ _ entry h1

theorem notifyLog_fst (wh : watcherHub) (e : Event) : (wh.notifyLog e).1 = wh.notify e := by
  unfold watcherHub.notifyLog watcherHub.notify
  exact notifyWalkLog_fst _ _ _ _

theorem notifyLog_paths (wh : watcherHub) (e : Event) :
    (wh.notifyLog e).2.map Prod.fst = walkPaths "/" (splitPath e.Key) := by
  unfold watcherHub.notifyLog
  simp only [addEvent_snd]
  exact notifyWalkLog_paths _ _ _ _

theorem notifyLog_flag (wh : watcherHub) (e : Event) :
    ∀ entry ∈ (wh.notifyLog e).2, ∀ offer ∈ entry.2, offer.2 = decide (e.Key = entry.1) := by
  unfold watcherHub.notifyLog
  simp only [addEvent_snd]
  exact notifyWalkLog_flag _ _ _ _

theorem notifyList_heap_length (e : Event) (path : String) (deleted : Bool) (l : Nat)
    (ws : List Nat) (wh : watcherHub) :
    (watcherHub.notifyList e path deleted l ws wh).heap.length = wh.heap.length :=
  (notifyList_shrinks e path deleted l ws wh).heapLen

theorem notifyListLog_offers (e : Event) (path : String) (deleted : Bool) (l : Nat)
    (ws : List Nat) (wh : watcherHub) (hws : ∀ c ∈ ws, c < wh.heap.length) :
    (watcherHub.notifyListLog e path deleted l ws wh).2.map Prod.fst = ws := by
  induction ws generalizing wh with
  | nil => rfl
  | cons curr next ih =>
    have hc : curr < wh.heap.length := hws curr (List.mem_cons_self _ _)
    rw [watcherHub.notifyListLog]
    split
    · next hn =>
      rw [List.getElem?_eq_getElem hc] at hn
      exact absurd hn (by simp)
    · next w hw =>
      simp only [List.map_cons]
      congr 1
      apply ih
      intro c hcm
      have := hws c (List.mem_cons_of_mem _ hcm)
      split
      · simpa [watcherHub.unlink] using this
      · simpa using this

/-- In a hub of the invariant shape, one call of `notifyWatchers` offers the
event to exactly the watchers registered at its path, front to back. -/
theorem notifyWatchersLog_offers {wh : watcherHub} (hs : Inv wh) (e : Event) (path : String)
    (deleted : Bool) :
    (wh.notifyWatchersLog e path deleted).2.map Prod.fst = wh.watchersAt path := by
  unfold watcherHub.notifyWatchersLog watcherHub.watchersAt
  cases hl : wh.lookup path with
  | none => rfl
  | some l =>
    simp only []
    exact notifyListLog_offers e path deleted l (wh.elems l) wh (fun c hc => hs.mem_lt hc)

theorem watchersAt_other_path {wh : watcherHub} (hs : Inv wh) (e : Event) (p : String)
    (d : Bool) (path : String) (hne : p ≠ path) :
    (wh.notifyWatchers e p d).watchersAt path = wh.watchersAt path := by
  obtain ⟨h1, h2, -⟩ := other_path_notifyWatchers hs e p d path hne
  unfold watcherHub.watchersAt
  rw [h1]
  cases hl : wh.lookup path with
  | none => rfl
  | some l => exact h2 l hl

theorem notifyWalkLog_offers {wh : watcherHub} (hs : Inv wh) (e : Event)
    (segments : List String) (currPath : String)
    (hnd : (walkPaths currPath segments).Nodup) :
    ∀ entry ∈ (watcherHub.notifyWalkLog e currPath segments wh).2,
      entry.2.map Prod.fst = wh.watchersAt entry.1 := by
  induction segments generalizing currPath wh with
  | nil => intro entry h; exact absurd h (List.not_mem_nil _)
  | cons s segments ih =>
    rw [walkPaths, List.nodup_cons] at hnd
    rw [watcherHub.notifyWalkLog]
    intro entry h
    rcases List.mem_cons.1 h with h1 | h1
    · rw [h1]; exact notifyWatchersLog_offers hs e _ false
    · have hs1 : Inv (wh.notifyWatchersLog e (joinPath currPath s) false).1 := by
        rw [notifyWatchersLog_fst]; exact hs.notifyWatchers e _ false
      have := ih hs1 _ hnd.2 entry h1
      rw [this, notifyWatchersLog_fst]
      have hmem : entry.1 ∈ walkPaths (joinPath currPath s) segments := by
        rw [← notifyWalkLog_paths e segments (joinPath currPath s)
          (wh.notifyWatchersLog e (joinPath currPath s) false).1]
        exact List.mem_map_of_mem _ h1
      have hne : joinPath currPath s ≠ entry.1 := fun h2 => hnd.1 (h2 ▸ hmem)
      exact watchersAt_other_path hs e _ false _ hne

theorem walkPaths_clean_nodup (segs : List (List Char)) (hne : segs ≠ [])
    (hg : ∀ s ∈ segs, goodSegment s) :
    (walkPaths "/" (splitPath (absPath segs))).Nodup := by
  rw [walkPaths_clean segs hne hg]
  refine List.Nodup.map_on ?_ ?_
  · intro a ha b hb hab
    exact absPath_inj a b
      (fun s hs1 => hg s (((List.mem_inits _ _).1 ha).subset hs1))
      (fun s hs1 => hg s (((List.mem_inits _ _).1 hb).subset hs1)) hab
  · exact (inits_pairwise_length _).imp (fun h heq => by rw [heq] at h; exact Nat.lt_irrefl _ h)

/-! ## C1: the walk of `notify` -/

/-- C1: for an event whose key is the absolute path `/s1/.../sn` (`n >= 1`,
every segment non-empty, slash-free and neither `.` nor `..`), in any hub
state, `notify` examines the registry at exactly the `n + 1` paths `/`, `/s1`,
..., `/s1/.../sn`, in that order: the record of its calls lists those paths,
every call of `w.notify` made at one of them is handed `e.Key == path` as
true exactly when the path is the last one, the full key, and the hub that
`notify` leaves is the one these calls produce.  In a reachable hub state the
watchers called at each path are exactly the watchers registered there. -/
theorem notify_visits_prefixes (wh : watcherHub) (e : Event) (segs : List (List Char))
    (hne : segs ≠ []) (hg : ∀ s ∈ segs, goodSegment s) (hkey : e.Key = absPath segs) :
    (wh.notifyLog e).1 = wh.notify e ∧
    (wh.notifyLog e).2.map Prod.fst = segs.inits.map absPath ∧
    (wh.notifyLog e).2.length = segs.length + 1 ∧
    (∀ entry ∈ (wh.notifyLog e).2, ∀ offer ∈ entry.2,
      (offer.2 = true ↔ entry.1 = absPath segs)) ∧
    ((wh.notifyLog e).2.getLast?.map Prod.fst = some (absPath segs)) ∧
    (Reachable wh → ∀ entry ∈ (wh.notifyLog e).2,
      entry.2.map Prod.fst = wh.watchersAt entry.1) ∧
    wh.notify e = (segs.inits.map absPath).foldl (fun h p => h.notifyWatchers e p false)
        { wh with EventHistory := (wh.EventHistory.addEvent e).1 } := by
  have hw : walkPaths "/" (splitPath e.Key) = segs.inits.map absPath := by
    rw [hkey]; exact walkPaths_clean segs hne hg
  have hpaths := notifyLog_paths wh e
  rw [hw] at hpaths
  refine ⟨notifyLog_fst wh e, hpaths, ?_, ?_, ?_, ?_, ?_⟩
  · have := congrArg List.length hpaths
    simpa using this
  · intro entry hentry offer hoffer
    rw [notifyLog_flag wh e entry hentry offer hoffer, decide_eq_true_iff, hkey]
    exact ⟨fun h => h.symm, fun h => h.symm⟩
  · have h1 : ((wh.notifyLog e).2.map Prod.fst).getLast? = some (absPath segs) := by
      rw [hpaths, List.getLast?_map]
      have : segs.inits.getLast? = some segs := by
        rw [List.getLast?_eq_getElem?, List.length_inits]
        simp
      rw [this]; rfl
    rw [List.getLast?_map] at h1
    exact h1
  · intro hr entry hentry
    have hs := hr.inv
    have hnd : (walkPaths "/" (splitPath e.Key)).Nodup := by
      rw [hkey]; exact walkPaths_clean_nodup segs hne hg
    have h0 : ∀ a : watcherHub, a.watchers = wh.watchers → a.lists = wh.lists →
        a.watchersAt entry.1 = wh.watchersAt entry.1 := by
      intro a h1 h2
      unfold watcherHub.watchersAt watcherHub.lookup watcherHub.elems
      rw [h1, h2]
    unfold watcherHub.notifyLog at hentry
    simp only [addEvent_snd] at hentry
    rw [notifyWalkLog_offers (hs.setHistory (wh.EventHistory.addEvent e).1) e _ "/" hnd
      entry hentry]
    exact h0 _ rfl rfl
  · rw [notify_eq_foldl, hw]

theorem notify_visits_prefixes_witness :
    ([['f', 'o', 'o'], ['b', 'a', 'r']] ≠ [] ∧
      (∀ s ∈ [['f', 'o', 'o'], ['b', 'a', 'r']], goodSegment s) ∧
      (newEvent .Set "/foo/bar" 3 3).Key = absPath [['f', 'o', 'o'], ['b', 'a', 'r']]) ∧
    (((newWatchHub 4).run [.watch "/foo" false true 0, .watch "/foo/bar" false true 0,
        .watch "/foo" true true 0]).notifyLog (newEvent .Set "/foo/bar" 3 3)).2 =
      [("/", []), ("/foo", [(0, false), (2, false)]), ("/foo/bar", [(1, true)])] ∧
    (((newWatchHub 4).run [.watch "/foo" false true 0, .watch "/foo/bar" false true 0,
        .watch "/foo" true true 0]).notifyLog (newEvent .Set "/foo/bar" 3 3)).2.map Prod.fst =
      [['f', 'o', 'o'], ['b', 'a', 'r']].inits.map absPath :=
  ⟨⟨by decide, by decide, by decide⟩, by decide,
    (notify_visits_prefixes
      ((newWatchHub 4).run [.watch "/foo" false true 0, .watch "/foo/bar" false true 0,
        .watch "/foo" true true 0])
      (newEvent .Set "/foo/bar" 3 3)
      [['f', 'o', 'o'], ['b', 'a', 'r']] (by decide) (by decide) (by decide)).2.1⟩

/-! ## Keys that start with a clean path -/

theorem splitSlash_tailChars_slash (s : List Char) (segs : List (List Char)) (rest : List Char)
    (h : ∀ t ∈ s :: segs, '/' ∉ t) :
    splitSlash (s ++ (tailChars segs ++ '/' :: rest)) = (s :: segs) ++ splitSlash rest := by
  induction segs generalizing s with
  | nil =>
    rw [tailChars, List.nil_append, splitSlash_append s _ (h s (by simp))]
    simp [splitSlash]
  | cons t segs ih =>
    have ht := ih t (fun u hu => h u (by simp at hu ⊢; tauto))
    rw [splitSlash_append s _ (h s (by simp))]
    have e1 : tailChars (t :: segs) ++ '/' :: rest =
        '/' :: (t ++ (tailChars segs ++ '/' :: rest)) := by
      simp [tailChars]
    rw [e1]
    simp [splitSlash, ht]

theorem mem_walkPaths_append (segs pre : List (List Char)) (more : List String)
    (hne : segs ≠ []) (hsegs : ∀ t ∈ segs, goodSegment t) (hpre : ∀ t ∈ pre, goodSegment t) :
    absPath (pre ++ segs) ∈ walkPaths (absPath pre) (segs.map String.mk ++ more) := by
  induction segs generalizing pre with
  | nil => exact absurd rfl hne
  | cons s segs ih =>
    have hs := hsegs s (by simp)
    rw [List.map_cons, List.cons_append, walkPaths, joinPath_absPath pre s hpre hs]
    by_cases hnil : segs = []
    · subst hnil
      exact List.mem_cons_self _ _
    · have hpre1 : ∀ t ∈ pre ++ [s], goodSegment t := fun u hu => by
        rcases List.mem_append.1 hu with h | h
        · exact hpre u h
        · rw [List.mem_singleton.1 h]; exact hs
      have := ih (pre ++ [s]) hnil (fun u hu => hsegs u (by simp [hu])) hpre1
      rw [List.append_assoc] at this
      exact List.mem_cons_of_mem _ this

/-- A clean path is among the paths `notify` visits for every key that starts
with that path followed by a slash. -/
theorem mem_walkPaths_of_startsWith (key ekey : String) (hk : cleanKey key)
    (hpre : (key.data ++ ['/']) <+: ekey.data) :
    key ∈ walkPaths "/" (splitPath ekey) := by
  obtain ⟨hk1, hk2⟩ := hk
  obtain ⟨rest, hrest⟩ := hpre
  have hdata : ekey.data = absChars (keySegments key) ++ '/' :: rest := by
    rw [← hrest]
    have : key.data = absChars (keySegments key) := by
      have := congrArg String.data hk1
      exact this
    rw [this]; simp
  have hroot : absPath [] = "/" := rfl
  cases hseg : keySegments key with
  | nil =>
    have hkey : key = "/" := by rw [hk1, hseg]; rfl
    rw [hseg] at hdata
    have hsplit : splitPath ekey = "" :: (splitSlash ('/' :: rest)).map String.mk := by
      unfold splitPath
      rw [hdata]
      simp [absChars, splitSlash]
    rw [hsplit, walkPaths, joinPath_root_empty, hkey]
    exact List.mem_cons_self _ _
  | cons s segs =>
    rw [hseg] at hk2 hdata
    have hsplit : splitPath ekey =
        "" :: ((s :: segs).map String.mk ++ (splitSlash rest).map String.mk) := by
      unfold splitPath
      rw [hdata]
      have e1 : absChars (s :: segs) ++ '/' :: rest =
          '/' :: (s ++ (tailChars segs ++ '/' :: rest)) := by
        simp [absChars, tailChars]
      rw [e1]
      have := splitSlash_tailChars_slash s segs rest (fun t ht => (hk2 t ht).2.1)
      simp only [splitSlash, if_true, this, List.map_cons, List.map_append]
    rw [hsplit, walkPaths, joinPath_root_empty]
    have := mem_walkPaths_append (s :: segs) [] ((splitSlash rest).map String.mk)
      (by simp) hk2 (by simp)
    rw [List.nil_append, hroot] at this
    rw [hk1, hseg]
    exact List.mem_cons_of_mem _ this

theorem mem_walkPaths_of_keyMatch (key : String) (recursive : Bool) (e : Event)
    (hk : cleanKey key) (hm : keyMatch key recursive e = true) :
    key ∈ walkPaths "/" (splitPath e.Key) ∧ (recursive || decide (e.Key = key)) = true := by
  rcases (keyMatch_iff key recursive e).1 hm with h | ⟨h1, h2⟩
  · refine ⟨?_, by simp [h]⟩
    rw [h]
    exact (mem_walkPaths_clean key key hk hk).2 (List.prefix_refl _)
  · exact ⟨mem_walkPaths_of_startsWith key e.Key hk h2, by simp [h1]⟩

theorem StreamAt.chan_notify_match {t : watcherHub} {w : Nat} {key : String}
    {recursive : Bool} {index l : Nat} (h : StreamAt t w key recursive index l)
    (hk : cleanKey key) (e : Event) (hidx : index ≤ e.Index)
    (hm : keyMatch key recursive e = true) :
    (t.notify e).chan w =
      (match t.chan w with
        | none => some (.event e)
        | some m => some m) := by
  obtain ⟨obj, ho, hf⟩ := h.obj
  simp only [Watcher.fixed, Prod.mk.injEq] at hf
  obtain ⟨hrec, hst, hix, -⟩ := hf
  obtain ⟨-, -, h3⟩ := stream_notify h.inv e w key l obj h.look h.mem ho hst
  have hc0 : t.chan w = obj.EventChan := by unfold watcherHub.chan; rw [ho]
  obtain ⟨hmem, hflt⟩ := mem_walkPaths_of_keyMatch key recursive e hk hm
  unfold watcherHub.chan
  rw [h3, ← watcherHub.chan, hc0]
  simp only []
  rw [if_pos hmem, Watcher.offered_chan, hrec, hix]
  have hcond : ((recursive || decide (e.Key = key)) && decide (index ≤ e.Index)) = true := by
    simp only [Bool.and_eq_true, decide_eq_true_eq]
    exact ⟨hflt, hidx⟩
  rw [if_pos hcond]

theorem StreamAt.chan_notify_walk {t : watcherHub} {w : Nat} {key : String}
    {recursive : Bool} {index l : Nat} (h : StreamAt t w key recursive index l) (e : Event) :
    (t.notify e).chan w =
      if key ∈ walkPaths "/" (splitPath e.Key) ∧ (recursive = true ∨ e.Key = key) ∧
          index ≤ e.Index then
        (match t.chan w with
          | none => some (.event e)
          | some m => some m)
      else t.chan w := by
  obtain ⟨obj, ho, hf⟩ := h.obj
  simp only [Watcher.fixed, Prod.mk.injEq] at hf
  obtain ⟨hrec, hst, hix, -⟩ := hf
  obtain ⟨-, -, h3⟩ := stream_notify h.inv e w key l obj h.look h.mem ho hst
  have hc0 : t.chan w = obj.EventChan := by unfold watcherHub.chan; rw [ho]
  unfold watcherHub.chan
  rw [h3, ← watcherHub.chan, hc0]
  simp only []
  have hiff : ((recursive || decide (e.Key = key)) && decide (index ≤ e.Index)) = true ↔
      ((recursive = true ∨ e.Key = key) ∧ index ≤ e.Index) := by
    simp only [Bool.and_eq_true, Bool.or_eq_true, decide_eq_true_eq]
  by_cases hmem : key ∈ walkPaths "/" (splitPath e.Key)
  · rw [if_pos hmem, Watcher.offered_chan, hrec, hix]
    by_cases hcond : ((recursive || decide (e.Key = key)) && decide (index ≤ e.Index)) = true
    · rw [if_pos hcond, if_pos ⟨hmem, hiff.1 hcond⟩]
    · rw [if_neg hcond, if_neg (fun hh => hcond (hiff.2 hh.2))]
  · rw [if_neg hmem, if_neg (fun hh => hmem hh.1)]

/-! ## C3: what a stream watcher receives -/

/-- C3 (amended): a stream watcher that `watch` registered at a clean path
`key` (no catch-up data, no error), in a reachable hub state, is still in the
list of its path after any later sequence of `watch`, `notify` and receive
calls (no detach) and after one more `notify(e)`, for every event `e`.  That
`notify` puts `e` into the watcher's channel when the slot is empty, and
leaves the channel as it is when the slot is occupied (the event is dropped),
exactly when its walk over the key of `e` visits `key`, the watcher is
recursive or the key of `e` is `key`, and the index of `e` is not below the
starting index; otherwise it does not touch the channel.  Every event that
matches the subscription (index not below the starting index; key equal to
`key` or, for a recursive watcher, starting with `key + "/"`) is such an
event, and for an event with a clean key the two conditions coincide. -/
theorem stream_watcher_persists (s : watcherHub) (hr : Reachable s) (key : String)
    (recursive : Bool) (index : Nat) (hk : cleanKey key)
    (hscan : s.EventHistory.scan key recursive index = .ok [])
    (ops : List Op) (hops : ∀ op ∈ ops, op.isDetach = false)
    (e : Event) :
    (s.watch key recursive true index).2 = .ok s.heap.length ∧
    ((s.watch key recursive true index).1.run ops).registered s.heap.length key ∧
    (((s.watch key recursive true index).1.run ops).notify e).registered s.heap.length key ∧
    ((((s.watch key recursive true index).1.run ops).notify e).chan s.heap.length =
      if key ∈ walkPaths "/" (splitPath e.Key) ∧ (recursive = true ∨ e.Key = key) ∧
          index ≤ e.Index then
        (match ((s.watch key recursive true index).1.run ops).chan s.heap.length with
          | none => some (.event e)
          | some m => some m)
      else ((s.watch key recursive true index).1.run ops).chan s.heap.length) ∧
    (index ≤ e.Index → keyMatch key recursive e = true →
      (((s.watch key recursive true index).1.run ops).notify e).chan s.heap.length =
        (match ((s.watch key recursive true index).1.run ops).chan s.heap.length with
          | none => some (.event e)
          | some m => some m)) ∧
    (cleanKey e.Key →
      (((s.watch key recursive true index).1.run ops).notify e).chan s.heap.length =
        if subscribed key recursive index e = true then
          (match ((s.watch key recursive true index).1.run ops).chan s.heap.length with
            | none => some (.event e)
            | some m => some m)
        else ((s.watch key recursive true index).1.run ops).chan s.heap.length) := by
  have hs := hr.inv
  obtain ⟨l, h0⟩ := StreamAt.of_watch s hs key recursive index hscan
  have h1 := h0.after_run ops hops
  have h2 := h1.after_notify e
  refine ⟨?_, ⟨l, h1.look, h1.mem⟩, ⟨l, h2.look, h2.mem⟩, h1.chan_notify_walk e,
    fun hidx hm => h1.chan_notify_match hk e hidx hm, fun he => h1.chan_notify hk e he⟩
  cases hl : s.lookup key with
  | some l0 => rw [watch_back s key recursive true index l0 hscan hl]
  | none =>
    cases hm : s.watchers with
    | none => exact absurd hm hs.alloc
    | some m => rw [watch_new s key recursive true index m hscan hm hl]

theorem stream_watcher_persists_witness :
    (Reachable (newWatchHub 4) ∧ cleanKey "/foo" ∧
      (newWatchHub 4).EventHistory.scan "/foo" true 0 = .ok [] ∧
      (∀ op ∈ [Op.notify (newEvent .Create "/foo/bar" 1 1), Op.receive 0],
        op.isDetach = false)) ∧
    ((((newWatchHub 4).watch "/foo" true true 0).1.run
        [.notify (newEvent .Create "/foo/bar" 1 1), .receive 0]).notify
          (newEvent .Set "/x/../foo/baz" 2 2)).registered (newWatchHub 4).heap.length "/foo" ∧
    ((((newWatchHub 4).watch "/foo" true true 0).1.run
        [.notify (newEvent .Create "/foo/bar" 1 1), .receive 0]).notify
          (newEvent .Set "/x/../foo/baz" 2 2)).chan 0 =
      some (.event (newEvent .Set "/x/../foo/baz" 2 2)) ∧
    keyMatch "/foo" true (newEvent .Set "/x/../foo/baz" 2 2) = false :=
  ⟨⟨⟨4, [], rfl⟩, by decide, by decide, by decide⟩,
    (stream_watcher_persists (newWatchHub 4) ⟨4, [], rfl⟩ "/foo" true 0 (by decide) (by decide)
      [.notify (newEvent .Create "/foo/bar" 1 1), .receive 0] (by decide)
      (newEvent .Set "/x/../foo/baz" 2 2)).2.2.1,
    by decide, by decide⟩

end Store
